import Mathlib

/-!
# Huffman file coder: embedding of `src/huffman.cpp`

The C++ program keeps its tree in heap-allocated `HNode` records linked by raw
pointers and numbers them with the global counter `num_nodes`.  The embedding keeps
that shape:

* a byte (`char`, `unsigned char`) is a `Fin 256`; a file or a message is a `List Byte`;
* a code string (`HNode::encoding`, a `std::string` of `'0'`/`'1'`) is a `List Char`;
* the heap is the list of the records made by `create_node`, in creation order; a
  pointer is `Option Nat` (`none` is `nullptr`, `some p` is the record at index `p`);
* a function of the program that can dereference a null pointer, read an
  indeterminate value or recurse without bound returns a `Run`: `ok` for a normal
  return, `undefined` for undefined behaviour, `fuel` when the recursion budget given
  to the embedding is used up.
-/

namespace Huffman

/-- One byte of a file: a `char` seen as its bit pattern. -/
abbrev Byte := Fin 256

/-- Conversion of a `size_t` to `char`: the low eight bits are kept. -/
def toByte (n : Nat) : Byte := ⟨n % 256, Nat.mod_lt n (by decide)⟩

/-- Constant `DEFAULT_CHAR`, the character `'$'`. -/
def DEFAULT_CHAR : Byte := 36

/-- Largest value of `size_t` (64-bit target). -/
def SIZE_MAX : Nat := 2 ^ 64 - 1

/-- Result of running a piece of the program. -/
inductive Run (α : Type) where
  | ok (a : α)
  | undefined
  | fuel
  deriving DecidableEq, Repr

/-- Sequencing of two program pieces: the first failure ends the run. -/
def Run.bind {α β : Type} : Run α → (α → Run β) → Run β
  | .ok a, f => f a
  | .undefined, _ => .undefined
  | .fuel, _ => .fuel

instance : Monad Run where
  pure := Run.ok
  bind := Run.bind

/-- Record `struct HNode`. -/
structure HNode where
  id : Nat
  value : Nat
  ln : Option Nat
  rn : Option Nat
  encoding : List Char
  ch : Byte
  deriving DecidableEq, Repr

/-- Memory of one call: the global `num_nodes` and the records allocated so far. -/
structure Mem where
  num_nodes : Nat
  heap : List HNode
  deriving DecidableEq, Repr

/-- Dereference of a node pointer. -/
def deref (heap : List HNode) : Option Nat → Run HNode
  | none => .undefined
  | some p =>
    match heap[p]? with
    | some n => .ok n
    | none => .undefined

/-- Assignment through a node pointer: `*node = n`. -/
def store (heap : List HNode) (node : Option Nat) (n : HNode) : List HNode :=
  match node with
  | some p => heap.set p n
  | none => heap

/-- Function `create_node`: bumps the counter and allocates a record carrying the new
counter value as its id; returns the pointer to the record. -/
def create_node (m : Mem) (value : Nat) (ln rn : Option Nat) (ch : Byte) : Nat × Mem :=
  let num_nodes := m.num_nodes + 1
  (m.heap.length,
    { num_nodes := num_nodes
      heap := m.heap ++ [{ id := num_nodes, value := value, ln := ln, rn := rn,
                           encoding := [], ch := ch }] })

/-- Statement `++freqs[ch]->value` on the record at `p`. -/
def incr_value (heap : List HNode) (p : Nat) : List HNode :=
  match heap[p]? with
  | some n => store heap (some p) { n with value := n.value + 1 }
  | none => heap

/-- Loop of `calculate_frequences`.  The map `freqs` is the list of its entries in
insertion order; `List.lookup` is `find`. -/
def calculate_frequences_loop :
    List Byte → List (Byte × Nat) → Mem → List (Byte × Nat) × Mem
  | [], freqs, m => (freqs, m)
  | ch :: msg, freqs, m =>
    match freqs.lookup ch with
    | none =>
      let r := create_node m 1 none none ch
      calculate_frequences_loop msg (freqs ++ [(ch, r.1)]) r.2
    | some p =>
      calculate_frequences_loop msg freqs { m with heap := incr_value m.heap p }

/-- Function `calculate_frequences`. -/
def calculate_frequences (m : Mem) (msg : List Byte) : List (Byte × Nat) × Mem :=
  calculate_frequences_loop msg [] m

/-- Field `value` of the record a queue entry points to. -/
def weight (heap : List HNode) (p : Nat) : Nat :=
  match heap[p]? with
  | some n => n.value
  | none => 0

/-- Entries of the queue that the comparator `sorter` puts at the top: those whose
`value` is not greater than any other entry's. -/
def pq_minimal (heap : List HNode) (q : List Nat) : List Nat :=
  q.filter fun p => q.all fun r => decide (weight heap p ≤ weight heap r)

/-- Member `top` of `std::priority_queue` with the comparator `sorter`.  The queue is
the list of its entries.  The library returns one of the entries of minimal `value`;
which one is left to the library and to the order in which the entries were pushed
(the iteration order of the `unordered_map`), so the choice is made by the oracle
`tie`, an arbitrary function of the heap and the queue. -/
def pq_top (tie : List HNode → List Nat → Nat) (heap : List HNode) (q : List Nat) :
    Run Nat :=
  let cands := pq_minimal heap q
  match cands[tie heap q % cands.length]? with
  | some p => .ok p
  | none => .undefined

/-- Member `pop` of `std::priority_queue`, after `top` returned `p`. -/
def pq_pop (q : List Nat) (p : Nat) : List Nat := q.erase p

/-- The `while (node_queue.size() != 1)` loop of `huffman_encode`; `fuel` bounds the
number of times the loop condition is tested. -/
def merge_loop (tie : List HNode → List Nat → Nat) :
    Nat → Mem → List Nat → Run (Mem × List Nat)
  | 0, _, _ => .fuel
  | fuel + 1, m, node_queue =>
    if node_queue.length = 1 then .ok (m, node_queue)
    else do
      let sn1 ← pq_top tie m.heap node_queue
      let q1 := pq_pop node_queue sn1
      let sn2 ← pq_top tie m.heap q1
      let q2 := pq_pop q1 sn2
      let r := create_node m (weight m.heap sn1 + weight m.heap sn2)
        (some sn1) (some sn2) DEFAULT_CHAR
      merge_loop tie fuel r.2 (q2 ++ [r.1])

/-- Function `create_encodings`; `fuel` bounds the depth of the recursion. -/
def create_encodings : Nat → List HNode → Option Nat → List Char → Run (List HNode)
  | 0, _, _, _ => .fuel
  | fuel + 1, heap, node, binary => do
    let n ← deref heap node
    if n.ln ≠ none then
      let heap1 ← create_encodings fuel heap n.rn (binary ++ ['0'])
      create_encodings fuel heap1 n.ln (binary ++ ['1'])
    else
      pure (store heap node { n with encoding := binary })

/-- Inner loop of `write_encoding` over the characters of one code string. -/
def write_encoding_bits : List Char → Nat → Nat → List Byte → Nat × Nat × List Byte
  | [], cbyte, bidx, out => (cbyte, bidx, out)
  | bin :: encoding, cbyte, bidx, out =>
    let cbyte := if bin = '1' then cbyte ||| (1 <<< bidx) else cbyte
    let bidx := bidx + 1
    if bidx = 8 then write_encoding_bits encoding 0 0 (out ++ [toByte cbyte])
    else write_encoding_bits encoding cbyte bidx out

/-- Outer loop of `write_encoding` over the message. -/
def write_encoding_loop (heap : List HNode) (freqs : List (Byte × Nat)) :
    List Byte → Nat → Nat → List Byte → Run (Nat × Nat × List Byte)
  | [], cbyte, bidx, out => .ok (cbyte, bidx, out)
  | ch :: msg, cbyte, bidx, out => do
    let n ← deref heap (freqs.lookup ch)
    let r := write_encoding_bits n.encoding cbyte bidx out
    write_encoding_loop heap freqs msg r.1 r.2.1 r.2.2

/-- Function `write_encoding`: the bytes appended to the output stream. -/
def write_encoding (heap : List HNode) (freqs : List (Byte × Nat)) (msg : List Byte) :
    Run (List Byte) := do
  let r ← write_encoding_loop heap freqs msg 0 0 []
  pure (if r.2.1 ≠ 0 then r.2.2 ++ [toByte r.1] else r.2.2)

/-- Function `write_tree`: the bytes appended to the output stream; `fuel` bounds the
depth of the recursion. -/
def write_tree : Nat → List HNode → Option Nat → Run (List Byte)
  | 0, _, _ => .fuel
  | fuel + 1, heap, node => do
    let n ← deref heap node
    if n.ln ≠ none then
      let l ← deref heap n.ln
      let r ← deref heap n.rn
      let a ← write_tree fuel heap n.ln
      let b ← write_tree fuel heap n.rn
      pure ([toByte n.id, n.ch, toByte l.id, toByte r.id] ++ a ++ b)
    else
      pure [toByte n.id, n.ch, 0, 0]

/-- Digits written by `out_stream << msg_size`, most significant first. -/
def decimal_digits : Nat → Nat → List Byte → List Byte
  | 0, _, acc => acc
  | fuel + 1, n, acc =>
    if n < 10 then toByte (48 + n) :: acc
    else decimal_digits fuel (n / 10) (toByte (48 + n % 10) :: acc)

/-- Decimal text of a `size_t`. -/
def decimal (n : Nat) : List Byte := decimal_digits (n + 1) n []

/-- Function `write_table`: the bytes appended to the output stream. -/
def write_table (fuel : Nat) (m : Mem) (msg_size : Nat) (top : Option Nat) :
    Run (List Byte) := do
  let tree ← write_tree fuel m.heap top
  pure (decimal msg_size ++ [32] ++ [toByte m.num_nodes] ++ tree)

/-- State of `huffman_encode` when `create_encodings` has returned (line 171). -/
structure Built where
  mem : Mem
  freqs : List (Byte × Nat)
  node_queue : List Nat
  top : Nat
  deriving DecidableEq, Repr

/-- Lines 146 to 171 of `huffman_encode`: frequencies, queue, merge loop,
`create_encodings` on the top of the queue.  The loop condition is tested at most once
per queue entry and the recursion is at most as deep as there are records, which is
the fuel given. -/
def build (tie : List HNode → List Nat → Nat) (m : Mem) (msg : List Byte) : Run Built := do
  let f := calculate_frequences m msg
  let node_queue := f.1.map Prod.snd
  let l ← merge_loop tie node_queue.length f.2 node_queue
  let top ← pq_top tie l.1.heap l.2
  let heap ← create_encodings l.1.heap.length l.1.heap (some top) []
  pure { mem := { l.1 with heap := heap }, freqs := f.1, node_queue := l.2, top := top }

/-- Function `huffman_encode` on the contents of the input file: the contents of the
output file.  `num_nodes` is the value of the global counter when the call starts; the
first statement resets it. -/
def huffman_encode (tie : List HNode → List Nat → Nat) (num_nodes : Nat)
    (msg : List Byte) : Run (List Byte) :=
  let m : Mem := { ({ num_nodes := num_nodes, heap := [] } : Mem) with num_nodes := 0 }
  if msg = [] then .ok []
  else do
    let b ← build tie m msg
    let table ← write_table b.mem.heap.length b.mem msg.length (some b.top)
    let payload ← write_encoding b.mem.heap b.freqs msg
    pure (table ++ payload)

/-- Function `get_node`; `fuel` bounds the depth of the recursion. -/
def get_node : Nat → List HNode → Option Nat → List Char → Nat → Run (Option Nat)
  | 0, _, _, _, _ => .fuel
  | fuel + 1, heap, node, encoding, depth => do
    let n ← deref heap node
    if encoding.length ≠ depth ∧ n.ln ≠ none then
      let ln ← get_node fuel heap n.ln encoding (depth + 1)
      if ln ≠ none then pure ln
      else
        let rn ← get_node fuel heap n.rn encoding (depth + 1)
        if rn ≠ none then pure rn
        else pure none
    else if n.encoding = encoding ∧ n.ln = none then pure node
    else pure none

/-- Character class `isspace` of the classic locale. -/
def isspace (b : Byte) : Bool := decide (b.val = 32 ∨ (9 ≤ b.val ∧ b.val ≤ 13))

/-- Character class `isdigit`. -/
def isdigit (b : Byte) : Bool := decide (48 ≤ b.val ∧ b.val ≤ 57)

/-- Value of a run of decimal digits. -/
def digits_value (ds : List Byte) : Nat :=
  ds.foldl (fun acc d => 10 * acc + (d.val - 48)) 0

/-- Extraction `in_stream >> msg_size` of the standard library for an unsigned 64-bit
integer in the classic locale: leading white space is skipped, one sign is accepted, at
least one digit is needed, and a value above `SIZE_MAX` makes the extraction fail.
Returns the value and the rest of the stream, or `none` when the extraction fails. -/
def read_size (s : List Byte) : Option (Nat × List Byte) :=
  let s := s.dropWhile isspace
  let neg := s.head? = some 45
  let s := if s.head? = some 45 ∨ s.head? = some 43 then s.tail else s
  let ds := s.takeWhile isdigit
  if ds = [] then none
  else if SIZE_MAX < digits_value ds then none
  else
    some (if neg then (SIZE_MAX + 1 - digits_value ds) % (SIZE_MAX + 1) else digits_value ds,
          s.dropWhile isdigit)

/-- The lambda `read_8bit_number`: at the end of the stream `num` is returned
uninitialised. -/
def read_8bit_number : List Byte → Run (Nat × List Byte)
  | [] => .undefined
  | b :: s => .ok (b.val, s)

/-- First loop of `huffman_decode`: `count` fresh records, entered in the map `nodes`
under their ids. -/
def create_nodes : Nat → Mem → List (Nat × Nat) → Mem × List (Nat × Nat)
  | 0, m, nodes => (m, nodes)
  | count + 1, m, nodes =>
    let r := create_node m 0 none none DEFAULT_CHAR
    create_nodes count r.2 (nodes ++ [(r.2.num_nodes, r.1)])

/-- Second loop of `huffman_decode`, with `count` records still to read and `i` the
loop counter.  `nodes[id]` of an id that is not a key is the null pointer. -/
def read_table (nodes : List (Nat × Nat)) :
    Nat → Nat → List HNode → Option Nat → List Byte →
      Run (List HNode × Option Nat × List Byte)
  | 0, _, heap, top, s => .ok (heap, top, s)
  | count + 1, i, heap, top, s => do
    let r ← read_8bit_number s
    let node := nodes.lookup r.1
    let top := if i = 0 then node else top
    let n ← deref heap node
    let ch := (r.2.head?).getD n.ch
    let l ← read_8bit_number r.2.tail
    let r ← read_8bit_number l.2
    let n1 : HNode :=
      if l.1 ≠ 0 then { n with ch := ch, ln := nodes.lookup l.1, rn := nodes.lookup r.1 }
      else { n with ch := ch }
    read_table nodes count (i + 1) (store heap node n1) top r.2

/-- Inner loop `while (bidx != 8)` of the decoding loop, with `count = 8 - bidx`
rounds to go.  The flag returned is `true` when `finished_decoding` was reached. -/
def decode_bits (heap : List HNode) (top : Option Nat) (msg_size : Nat) (cbyte : Byte) :
    Nat → Nat → List Char → Nat → List Byte → Run (Bool × List Char × Nat × List Byte)
  | 0, _, encoding, num_chars, out => .ok (false, encoding, num_chars, out)
  | count + 1, bidx, encoding, num_chars, out => do
    let encoding := encoding ++ [if cbyte.val &&& (1 <<< bidx) ≠ 0 then '1' else '0']
    let bidx := bidx + 1
    let node ← get_node (encoding.length + 1) heap top encoding 0
    if node ≠ none then
      let n ← deref heap node
      let out := out ++ [n.ch]
      let num_chars := num_chars + 1
      if num_chars = msg_size then pure (true, encoding, num_chars, out)
      else decode_bits heap top msg_size cbyte count bidx [] num_chars out
    else decode_bits heap top msg_size cbyte count bidx encoding num_chars out

/-- Outer loop `while (in_stream.read(&cbyte, 1))` of the decoding loop: the bytes
written to the output stream. -/
def decode_loop (heap : List HNode) (top : Option Nat) (msg_size : Nat) :
    List Byte → List Char → Nat → List Byte → Run (List Byte)
  | [], _, _, out => .ok out
  | cbyte :: s, encoding, num_chars, out => do
    let r ← decode_bits heap top msg_size cbyte 8 0 encoding num_chars out
    if r.1 then pure r.2.2.2
    else decode_loop heap top msg_size s r.2.1 r.2.2.1 r.2.2.2

/-- Function `huffman_decode` on the contents of the input file: the contents of the
output file.  `num_nodes` is the value of the global counter when the call starts;
`fuel` bounds the depth of the recursion of `create_encodings`. -/
def huffman_decode (num_nodes : Nat) (fuel : Nat) (input : List Byte) : Run (List Byte) :=
  let m : Mem := { ({ num_nodes := num_nodes, heap := [] } : Mem) with num_nodes := 0 }
  match read_size input with
  | none => .ok []
  | some (msg_size, s) => do
    let s := s.tail
    let r ← read_8bit_number s
    let c := create_nodes r.1 m []
    let t ← read_table c.2 r.1 0 c.1.heap none r.2
    let heap ← create_encodings fuel t.1 t.2.1 []
    decode_loop heap t.2.1 msg_size t.2.2 [] 0 []

/-! # Specification-level definitions -/

/-- Shape of a code tree: the pointers of its records. -/
inductive Tree where
  | leaf (p : Nat)
  | node (p : Nat) (l r : Tree)
  deriving DecidableEq, Repr

/-- Pointer of the root record. -/
def Tree.root : Tree → Nat
  | .leaf p => p
  | .node p _ _ => p

/-- Pointers of all records, root first, then the left subtree, then the right one. -/
def Tree.ptrs : Tree → List Nat
  | .leaf p => [p]
  | .node p l r => p :: (l.ptrs ++ r.ptrs)

/-- Pointers of the leaf records. -/
def Tree.leaves : Tree → List Nat
  | .leaf p => [p]
  | .node _ l r => l.leaves ++ r.leaves

/-- Number of records on the longest path from the root. -/
def Tree.depth : Tree → Nat
  | .leaf _ => 1
  | .node _ l r => max l.depth r.depth + 1

/-- Leaf pointers with the strings `create_encodings` gives them when it enters the
root with `binary`, in the order of the assignments. -/
def Tree.codes : Tree → List Char → List (Nat × List Char)
  | .leaf p, binary => [(p, binary)]
  | .node _ l r, binary => r.codes (binary ++ ['0']) ++ l.codes (binary ++ ['1'])

/-- The records of `heap` are linked as the tree says. -/
def Shape (heap : List HNode) : Tree → Prop
  | .leaf p => ∃ n, heap[p]? = some n ∧ n.ln = none
  | .node p l r =>
    ∃ n, heap[p]? = some n ∧ n.ln = some l.root ∧ n.rn = some r.root ∧
      Shape heap l ∧ Shape heap r

/-- Assignment `node->encoding = c` on the record at `p`. -/
def set_encoding (heap : List HNode) (p : Nat) (c : List Char) : List HNode :=
  match heap[p]? with
  | some n => heap.set p { n with encoding := c }
  | none => heap

/-- A sequence of assignments to `encoding` fields. -/
def assign_codes (cs : List (Nat × List Char)) (heap : List HNode) : List HNode :=
  cs.foldl (fun h pc => set_encoding h pc.1 pc.2) heap

/-- Value of the `encoding` field of record `q` after a sequence of assignments. -/
def code_after (cs : List (Nat × List Char)) (q : Nat) (e : List Char) : List Char :=
  cs.foldl (fun e pc => if pc.1 = q then pc.2 else e) e

/-- What `calculate_frequences` keeps true of its map and of the records. -/
structure FreqInv (freqs : List (Byte × Nat)) (m : Mem) : Prop where
  count : m.num_nodes = m.heap.length
  ptrs : freqs.map Prod.snd = List.range m.heap.length
  keys : (freqs.map Prod.fst).Nodup
  recs : ∀ (p : Nat) (n : HNode), m.heap[p]? = some n →
    n.id = p + 1 ∧ n.ln = none ∧ n.rn = none ∧ n.encoding = [] ∧ freqs[p]? = some (n.ch, p)

/-- What the merge loop keeps true: the queue holds the roots of a forest that is made
of all the records allocated so far, each once. -/
structure Forest (m : Mem) (q : List Nat) (ts : List Tree) : Prop where
  count : m.num_nodes = m.heap.length
  ids : ∀ (p : Nat) (n : HNode), m.heap[p]? = some n → n.id = p + 1 ∧ n.encoding = []
  roots : q.Perm (ts.map Tree.root)
  shape : ∀ t ∈ ts, Shape m.heap t
  cover : (ts.flatMap Tree.ptrs).Perm (List.range m.heap.length)

/-- What holds of the encoder's state when `create_encodings` has returned. -/
structure BuiltInv (msg : List Byte) (b : Built) (t : Tree) : Prop where
  top : b.top = t.root
  queue : b.node_queue = [b.top]
  shape : Shape b.mem.heap t
  cover : t.ptrs.Perm (List.range b.mem.heap.length)
  count : b.mem.num_nodes = b.mem.heap.length
  size : b.mem.heap.length + 1 = 2 * msg.toFinset.card
  keys : (b.freqs.map Prod.fst).Nodup
  mem_keys : ∀ c, c ∈ b.freqs.map Prod.fst ↔ c ∈ msg
  ptrs : b.freqs.map Prod.snd = List.range msg.toFinset.card
  recs : ∀ (p : Nat) (n : HNode), b.mem.heap[p]? = some n →
    n.id = p + 1 ∧ (n.ln = none ↔ p < msg.toFinset.card) ∧ (n.ln = none ↔ n.rn = none) ∧
      (p < msg.toFinset.card → b.freqs[p]? = some (n.ch, p))
  codes : ∀ (p : Nat) (c : List Char), (p, c) ∈ t.codes [] →
    ∃ n, b.mem.heap[p]? = some n ∧ n.encoding = c

/-- Code string of a byte of the message: the `encoding` field of the record that
`freqs[ch]` points to (empty when there is no such record). -/
def code_of (heap : List HNode) (freqs : List (Byte × Nat)) (ch : Byte) : List Char :=
  match deref heap (freqs.lookup ch) with
  | .ok n => n.encoding
  | _ => []

/-- State of `write_encoding` after the characters `w` went through the inner loop:
`out` holds the full bytes, `cbyte` the `bidx` bits of the byte being filled. -/
structure Packed (w : List Char) (cbyte bidx : Nat) (out : List Byte) : Prop where
  idx : bidx < 8
  len : out.length * 8 + bidx = w.length
  small : cbyte < 2 ^ bidx
  full : ∀ (i j : Nat) (b : Byte), j < 8 → out[i]? = some b →
    (b.val.testBit j = true ↔ w[i * 8 + j]? = some '1')
  part : ∀ j : Nat, j < bidx → (cbyte.testBit j = true ↔ w[out.length * 8 + j]? = some '1')

/-- Record made by `create_node(0, nullptr, nullptr, DEFAULT_CHAR)` with the given id. -/
def fresh (id : Nat) : HNode :=
  { id := id, value := 0, ln := none, rn := none, encoding := [], ch := DEFAULT_CHAR }

/-- The record at `p` (a fresh record when `p` is not allocated). -/
def node_at (heap : List HNode) (p : Nat) : HNode := (heap[p]?).getD (fresh 0)

/-- The four bytes `write_tree` writes for the record at `p`, before it recurses. -/
def record (heap : List HNode) (p : Nat) : List Byte :=
  match (node_at heap p).ln, (node_at heap p).rn with
  | some a, some b =>
    [toByte (node_at heap p).id, (node_at heap p).ch, toByte (node_at heap a).id,
      toByte (node_at heap b).id]
  | _, _ => [toByte (node_at heap p).id, (node_at heap p).ch, 0, 0]

/-- What one round of the table loop of `huffman_decode` stores in a record `d` when it
reads the four bytes written for the record `e`. -/
def loaded (e d : HNode) : HNode :=
  if e.ln ≠ none then { d with ch := e.ch, ln := e.ln, rn := e.rn } else { d with ch := e.ch }

/-- One round of the table loop on the bytes written for the record at `p` of `E`. -/
def load_one (E : List HNode) (D : List HNode) (p : Nat) : List HNode :=
  store D (some p) (loaded (node_at E p) (node_at D p))

/-- The pointers of a heap lead to records of the heap, the ids are the pointers plus
one, and a record with a left child has a right child. -/
def Linked (E : List HNode) : Prop :=
  ∀ (p : Nat) (e : HNode), E[p]? = some e →
    e.id = p + 1 ∧ ∀ a, e.ln = some a → a < E.length ∧ ∃ b, e.rn = some b ∧ b < E.length

/-- A record as the decoder sees it: no weight, no code string yet. -/
def strip (e : HNode) : HNode := { e with value := 0, encoding := [] }

/-- The search `get_node` makes below a record entered with the prefix `binary`, for
the string `e`: the left subtree first, then the right one. -/
def Tree.find : Tree → List Char → List Char → Option Nat
  | .leaf p, binary, e => if binary = e then some p else none
  | .node _ l r, binary, e =>
    if e.length ≠ binary.length then
      match l.find (binary ++ ['1']) e with
      | some p => some p
      | none => r.find (binary ++ ['0']) e
    else none

/-- Character the decoding loop appends to `encoding` for bit `bidx` of `cbyte`. -/
def bit_char (cbyte : Byte) (bidx : Nat) : Char :=
  if cbyte.val &&& (1 <<< bidx) ≠ 0 then '1' else '0'

/-- Characters the decoding loop appends for `count` bits of `cbyte` from bit `bidx` on. -/
def byte_bits (cbyte : Byte) : Nat → Nat → List Char
  | _, 0 => []
  | bidx, count + 1 => bit_char cbyte bidx :: byte_bits cbyte (bidx + 1) count

/-- Characters the decoding loop appends for a run of payload bytes. -/
def unpack (bytes : List Byte) : List Char := bytes.flatMap fun b => byte_bits b 0 8

/-- The decoding loop of `huffman_decode` seen as a loop over the characters appended
to `encoding`; it stops where the loop jumps to `finished_decoding`. -/
def decode_chars (heap : List HNode) (top : Option Nat) (msg_size : Nat) :
    List Char → List Char → Nat → List Byte → Run (Bool × List Char × Nat × List Byte)
  | [], encoding, num_chars, out => .ok (false, encoding, num_chars, out)
  | bit :: bits, encoding, num_chars, out => do
    let encoding := encoding ++ [bit]
    let node ← get_node (encoding.length + 1) heap top encoding 0
    if node ≠ none then
      let n ← deref heap node
      let out := out ++ [n.ch]
      let num_chars := num_chars + 1
      if num_chars = msg_size then pure (true, encoding, num_chars, out)
      else decode_chars heap top msg_size bits [] num_chars out
    else decode_chars heap top msg_size bits encoding num_chars out

/-- The symbols the decoding loop finds in a run of characters when the count never
stops it. -/
def symbols_in (heap : List HNode) (top : Option Nat) : List Char → List Char → Run (List Byte)
  | [], _ => .ok []
  | bit :: bits, encoding => do
    let encoding := encoding ++ [bit]
    let node ← get_node (encoding.length + 1) heap top encoding 0
    if node ≠ none then
      let n ← deref heap node
      let rest ← symbols_in heap top bits []
      pure (n.ch :: rest)
    else symbols_in heap top bits encoding

/-- The part of `huffman_decode` before the decoding loop: the count of the header, the
records with their code strings, the top and the payload; `none` when no count can be
extracted from the stream. -/
def decode_front (fuel : Nat) (input : List Byte) :
    Option (Run (Nat × List HNode × Option Nat × List Byte)) :=
  match read_size input with
  | none => none
  | some (msg_size, s) => some (do
    let r ← read_8bit_number s.tail
    let c := create_nodes r.1 { num_nodes := 0, heap := [] } []
    let t ← read_table c.2 r.1 0 c.1.heap none r.2
    let heap ← create_encodings fuel t.1 t.2.1 []
    pure (msg_size, heap, t.2.1, t.2.2))

/-- The walk the specification describes for `get_node`: from `node`, one edge per
character of `e`, `'0'` to the right child and `'1'` to the left child; the result is the
record reached when it is a leaf and `e` is used up, and the null pointer when the walk
ends at a record with children, meets a leaf before `e` is used up, or meets a character
that is neither `'0'` nor `'1'`. -/
def walk (heap : List HNode) : Option Nat → List Char → Option Nat
  | node, [] =>
    match deref heap node with
    | .ok n => if n.ln = none then node else none
    | _ => none
  | node, c :: e =>
    match deref heap node with
    | .ok n =>
      if n.ln = none then none
      else if c = '0' then walk heap n.rn e
      else if c = '1' then walk heap n.ln e
      else none
    | _ => none

/-- What `calculate_frequences` keeps true of the weights: after the bytes `seen`, the
keys of the map are the bytes seen and the record of a key holds the number of its
occurrences. -/
structure CountInv (seen : List Byte) (freqs : List (Byte × Nat)) (m : Mem) : Prop where
  inv : FreqInv freqs m
  keys : ∀ c, c ∈ freqs.map Prod.fst ↔ c ∈ seen
  vals : ∀ (p : Nat) (n : HNode), m.heap[p]? = some n → n.value = seen.count n.ch

/-- In the next `count` records of a node table (four bytes each), every record with a
left-child id other than 0 has both child ids between 1 and `n`, the number of records
created. -/
def child_ids_ok (n : Nat) : Nat → List Byte → Bool
  | 0, _ => true
  | count + 1, _ :: _ :: l :: r :: s =>
    (decide (l.val = 0) || (decide (1 ≤ l.val ∧ l.val ≤ n) && decide (1 ≤ r.val ∧ r.val ≤ n)))
      && child_ids_ok n count s
  | _ + 1, _ => true

/-- Every record has either no child or both children. -/
def Strict (heap : List HNode) : Prop :=
  ∀ (p : Nat) (e : HNode), heap[p]? = some e → (e.ln = none ↔ e.rn = none)

/-- The record at `p` has children and `q` is one of them: `create_encodings` called on
`p` calls itself on `q`. -/
def Child (heap : List HNode) (q p : Nat) : Prop :=
  ∃ n, heap[p]? = some n ∧ n.ln ≠ none ∧ (n.ln = some q ∨ n.rn = some q)

/-- No record is its own descendant. -/
def Acyclic (heap : List HNode) : Prop := ∀ p, ¬ Relation.TransGen (Child heap) p p

/-- The run comes to an end: from some recursion budget on, its outcome is the same
whatever the budget, and it is not "budget used up". -/
def Terminates {α : Type} (run : Nat → Run α) : Prop :=
  ∃ fuel r, r ≠ .fuel ∧ ∀ fuel1, fuel ≤ fuel1 → run fuel1 = r

/-- The run uses up every recursion budget: the program does not come to an end. -/
def Diverges {α : Type} (run : Nat → Run α) : Prop := ∀ fuel, run fuel = .fuel

/-- The part of `huffman_decode` before the call of `create_encodings`: the count of the
header, the records and the top after the table loop, and the payload; `none` when no
count can be extracted from the stream. -/
def decode_table (input : List Byte) :
    Option (Run (Nat × List HNode × Option Nat × List Byte)) :=
  match read_size input with
  | none => none
  | some (msg_size, s) => some (do
    let r ← read_8bit_number s.tail
    let c := create_nodes r.1 { num_nodes := 0, heap := [] } []
    let t ← read_table c.2 r.1 0 c.1.heap none r.2
    pure (msg_size, t.1, t.2.1, t.2.2))

/-- A file whose header declares 1 symbol and whose table has one record, with the id 1
and the child ids 1 and 1. -/
def cyclic_file : List Byte := [49, 32, 1, 1, 36, 1, 1]

/-- Kraft sum of a code given as the list of its (weight, code length) pairs. -/
def kraft (c : List (Nat × Nat)) : ℚ := (c.map fun x => (1 / 2 : ℚ) ^ x.2).sum

/-- Cost of a code given as the list of its (weight, code length) pairs: the sum of
weight times code length. -/
def code_cost (c : List (Nat × Nat)) : Nat := (c.map fun x => x.1 * x.2).sum

/-- Pointers of the records with children, root first. -/
def Tree.inner : Tree → List Nat
  | .leaf _ => []
  | .node p l r => p :: (l.inner ++ r.inner)

/-- A strict binary tree with a byte at every leaf: what the tree of the encoder is
compared with. -/
inductive CodeTree where
  | leaf (ch : Byte)
  | node (l r : CodeTree)
  deriving DecidableEq, Repr

/-- The bytes at the leaves of a tree, each with the number of edges from the root to
its leaf, the root being `d` edges deep. -/
def CodeTree.depths : CodeTree → Nat → List (Byte × Nat)
  | .leaf ch, d => [(ch, d)]
  | .node l r, d => l.depths (d + 1) ++ r.depths (d + 1)

/-- The bytes at the leaves of a tree. -/
def CodeTree.symbols : CodeTree → List Byte
  | .leaf ch => [ch]
  | .node l r => l.symbols ++ r.symbols

/-- Number of bits a message takes when each byte is written as the path to its leaf:
the sum over the leaves of the occurrences of the byte times the length of the path. -/
def CodeTree.cost (u : CodeTree) (msg : List Byte) : Nat :=
  ((u.depths 0).map fun x => msg.count x.1 * x.2).sum

/-- The bytes of `"abracadabra"`. -/
def abracadabra : List Byte := [97, 98, 114, 97, 99, 97, 100, 97, 98, 114, 97]

/-- A file whose header asks for 9 symbols, whose table describes a root with the
leaves `'a'` (left) and `'b'` (right), and whose payload is the single byte 0. -/
def truncated_file : List Byte := [57, 32, 3, 3, 36, 1, 2, 1, 97, 0, 0, 2, 98, 0, 0, 0]

/-- Three leaf records with the weights 5, 2 and 2. -/
def three_leaves : List HNode :=
  [{ id := 1, value := 5, ln := none, rn := none, encoding := [], ch := 97 },
   { id := 2, value := 2, ln := none, rn := none, encoding := [], ch := 98 },
   { id := 3, value := 2, ln := none, rn := none, encoding := [], ch := 99 }]

/-- A root (third record) over the leaves `'a'` (left) and `'b'` (right), before
`create_encodings`. -/
def small_tree : List HNode :=
  [{ id := 1, value := 0, ln := none, rn := none, encoding := [], ch := 97 },
   { id := 2, value := 0, ln := none, rn := none, encoding := [], ch := 98 },
   { id := 3, value := 0, ln := some 0, rn := some 1, encoding := [], ch := 36 }]

/-- A file whose header declares 0 symbols, whose table describes a root with the
leaves `'a'` (left) and `'b'` (right), and whose payload is the single byte 0. -/
def zero_count_file : List Byte := [48, 32, 3, 3, 36, 1, 2, 1, 97, 0, 0, 2, 98, 0, 0, 0]

/-- A table of two records: the first names the second as its left child and the id 9,
which no record has, as its right child. -/
def one_child_table : List Byte := [1, 36, 2, 9, 2, 97, 0, 0]

/-- The state of `huffman_encode` on `"aba"` when `create_encodings` has returned, the
queue handing out the first of equal entries. -/
def aba_built : Built :=
  { mem := { num_nodes := 3,
             heap := [{ id := 1, value := 2, ln := none, rn := none, encoding := ['0'], ch := 97 },
                      { id := 2, value := 1, ln := none, rn := none, encoding := ['1'], ch := 98 },
                      { id := 3, value := 3, ln := some 1, rn := some 0, encoding := [],
                        ch := 36 }] },
    freqs := [(97, 0), (98, 1)],
    node_queue := [2],
    top := 2 }

/-! # Lemmas -/

/-! ## Runs -/

@[simp] theorem Run.pure_eq {α : Type} (a : α) : (pure a : Run α) = .ok a := rfl

@[simp] theorem Run.ok_bind {α β : Type} (a : α) (f : α → Run β) :
    (Run.ok a >>= f) = f a := rfl

@[simp] theorem Run.undefined_bind {α β : Type} (f : α → Run β) :
    ((Run.undefined : Run α) >>= f) = .undefined := rfl

@[simp] theorem Run.fuel_bind {α β : Type} (f : α → Run β) :
    ((Run.fuel : Run α) >>= f) = .fuel := rfl

theorem Run.bind_eq_ok {α β : Type} {x : Run α} {f : α → Run β} {b : β} :
    (x >>= f) = .ok b ↔ ∃ a, x = .ok a ∧ f a = .ok b := by
  cases x <;> simp

/-! ## Heap access -/

theorem deref_some {heap : List HNode} {p : Nat} {n : HNode} (h : heap[p]? = some n) :
    deref heap (some p) = .ok n := by
  simp [deref, h]

theorem deref_eq_ok {heap : List HNode} {node : Option Nat} {n : HNode}
    (h : deref heap node = .ok n) : ∃ p, node = some p ∧ heap[p]? = some n := by
  cases node with
  | none => simp [deref] at h
  | some p =>
    refine ⟨p, rfl, ?_⟩
    simp only [deref] at h
    split at h
    · rename_i m hm
      rw [hm]; injection h with h; rw [h]
    · cases h

theorem getElem?_set_encoding (heap : List HNode) (p q : Nat) (c : List Char) :
    (set_encoding heap p c)[q]? =
      (heap[q]?).map fun n => if p = q then { n with encoding := c } else n := by
  unfold set_encoding
  cases hp : heap[p]? with
  | none =>
    by_cases hpq : p = q
    · subst hpq; simp [hp]
    · simp [hpq]
  | some n =>
    by_cases hpq : p = q
    · subst hpq
      have hlt : p < heap.length := by
        rcases List.getElem?_eq_some.mp hp with ⟨h, _⟩; exact h
      simp [hp, List.getElem?_set_self hlt]
    · simp [hpq, List.getElem?_set_ne hpq]

theorem getElem?_assign_codes (cs : List (Nat × List Char)) (heap : List HNode) (q : Nat) :
    (assign_codes cs heap)[q]? =
      (heap[q]?).map fun n => { n with encoding := code_after cs q n.encoding } := by
  induction cs generalizing heap with
  | nil => simp [assign_codes, code_after]
  | cons pc cs ih =>
    have := ih (set_encoding heap pc.1 pc.2)
    simp only [assign_codes, List.foldl_cons] at this ⊢
    rw [this, getElem?_set_encoding]
    cases heap[q]? with
    | none => rfl
    | some n =>
      by_cases h : pc.1 = q <;> simp [code_after, h]

theorem length_set_encoding (heap : List HNode) (p : Nat) (c : List Char) :
    (set_encoding heap p c).length = heap.length := by
  unfold set_encoding; split <;> simp

theorem length_assign_codes (cs : List (Nat × List Char)) (heap : List HNode) :
    (assign_codes cs heap).length = heap.length := by
  induction cs generalizing heap with
  | nil => rfl
  | cons pc cs ih =>
    simp only [assign_codes, List.foldl_cons] at ih ⊢
    rw [ih, length_set_encoding]

theorem assign_codes_append (a b : List (Nat × List Char)) (heap : List HNode) :
    assign_codes (a ++ b) heap = assign_codes b (assign_codes a heap) := by
  simp [assign_codes, List.foldl_append]

theorem code_after_not_mem {cs : List (Nat × List Char)} {q : Nat} (e : List Char)
    (h : q ∉ cs.map Prod.fst) : code_after cs q e = e := by
  induction cs generalizing e with
  | nil => rfl
  | cons pc cs ih =>
    simp only [List.map_cons, List.mem_cons, not_or] at h
    simp only [code_after, List.foldl_cons] at ih ⊢
    rw [if_neg (fun h' => h.1 h'.symm)]
    exact ih e h.2

theorem code_after_mem {cs : List (Nat × List Char)} {q : Nat} {c : List Char}
    (e : List Char) (hnd : (cs.map Prod.fst).Nodup) (h : (q, c) ∈ cs) :
    code_after cs q e = c := by
  induction cs generalizing e with
  | nil => cases h
  | cons pc cs ih =>
    simp only [List.map_cons, List.nodup_cons] at hnd
    simp only [code_after, List.foldl_cons]
    rcases List.mem_cons.mp h with h | h
    · subst h
      simp only [if_true]
      exact code_after_not_mem c hnd.1
    · exact ih _ hnd.2 h

/-- Shape only looks at the `ln` and `rn` fields. -/
theorem Shape.congr {heap heap1 : List HNode} {t : Tree}
    (h : ∀ (p : Nat) (n : HNode), heap[p]? = some n →
      ∃ n1 : HNode, heap1[p]? = some n1 ∧ n1.ln = n.ln ∧ n1.rn = n.rn)
    (hs : Shape heap t) : Shape heap1 t := by
  induction t with
  | leaf p =>
    rcases hs with ⟨n, hn, hl⟩
    rcases h p n hn with ⟨n1, h1, h2, _⟩
    exact ⟨n1, h1, h2 ▸ hl⟩
  | node p l r ihl ihr =>
    rcases hs with ⟨n, hn, hl, hr, sl, sr⟩
    rcases h p n hn with ⟨n1, h1, h2, h3⟩
    exact ⟨n1, h1, h2 ▸ hl, h3 ▸ hr, ihl sl, ihr sr⟩

theorem Shape.of_assign_codes {heap : List HNode} {t : Tree} (cs : List (Nat × List Char))
    (hs : Shape heap t) : Shape (assign_codes cs heap) t := by
  refine Shape.congr ?_ hs
  intro p n hn
  rw [getElem?_assign_codes, hn]
  exact ⟨_, rfl, rfl, rfl⟩

theorem Shape.root_some {heap : List HNode} {t : Tree} (hs : Shape heap t) :
    ∃ n, heap[t.root]? = some n := by
  cases t with
  | leaf p => rcases hs with ⟨n, hn, _⟩; exact ⟨n, hn⟩
  | node p l r => rcases hs with ⟨n, hn, _⟩; exact ⟨n, hn⟩

@[simp] theorem Tree.root_leaf (p : Nat) : (Tree.leaf p).root = p := rfl

@[simp] theorem Tree.root_node (p : Nat) (l r : Tree) : (Tree.node p l r).root = p := rfl

/-- On records linked as a tree, `create_encodings` returns, and what it does is the
sequence of assignments listed by `Tree.codes`. -/
theorem create_encodings_shape {heap : List HNode} {t : Tree} (fuel : Nat)
    (binary : List Char) (hs : Shape heap t) (hf : t.depth ≤ fuel) :
    create_encodings fuel heap (some t.root) binary =
      .ok (assign_codes (t.codes binary) heap) := by
  induction t generalizing fuel heap binary with
  | leaf p =>
    rcases hs with ⟨n, hn, hl⟩
    cases fuel with
    | zero => simp [Tree.depth] at hf
    | succ fuel =>
      simp [create_encodings, deref_some hn, hl, Tree.codes, assign_codes,
        set_encoding, hn, store]
  | node p l r ihl ihr =>
    rcases hs with ⟨n, hn, hl, hr, sl, sr⟩
    cases fuel with
    | zero => simp [Tree.depth] at hf
    | succ fuel =>
      simp only [Tree.depth] at hf
      have h1 : r.depth ≤ fuel := by omega
      have h2 : l.depth ≤ fuel := by omega
      simp only [create_encodings, Tree.root_node, deref_some hn, hl, hr, Run.ok_bind]
      simp only [ne_eq, reduceCtorEq, not_false_eq_true, if_true]
      rw [ihr fuel _ sr h1]
      simp only [Run.ok_bind]
      rw [ihl fuel _ (sl.of_assign_codes _) h2, Tree.codes, assign_codes_append]

/-! ## Association lists -/

theorem lookup_none_iff {β : Type} (l : List (Byte × β)) (c : Byte) :
    l.lookup c = none ↔ c ∉ l.map Prod.fst := by
  induction l with
  | nil => simp
  | cons a l ih =>
    obtain ⟨k, v⟩ := a
    by_cases h : c = k
    · subst h; simp [List.lookup_cons]
    · have h1 : (c == k) = false := by simpa using h
      simp [List.lookup_cons, h1, ih, h]

theorem lookup_some_mem {β : Type} {l : List (Byte × β)} {c : Byte} {v : β}
    (h : l.lookup c = some v) : (c, v) ∈ l := by
  induction l with
  | nil => simp at h
  | cons a l ih =>
    obtain ⟨k, w⟩ := a
    by_cases hk : c = k
    · subst hk
      simp [List.lookup_cons] at h
      simp [h]
    · have h1 : (c == k) = false := by simpa using hk
      simp only [List.lookup_cons, h1] at h
      exact List.mem_cons_of_mem _ (ih h)

theorem lookup_of_mem {β : Type} {l : List (Byte × β)} {c : Byte} {v : β}
    (hnd : (l.map Prod.fst).Nodup) (h : (c, v) ∈ l) : l.lookup c = some v := by
  induction l with
  | nil => cases h
  | cons a l ih =>
    obtain ⟨k, w⟩ := a
    simp only [List.map_cons, List.nodup_cons] at hnd
    rcases List.mem_cons.mp h with h' | h'
    · injection h' with h1 h2
      subst h1; subst h2
      simp [List.lookup_cons]
    · have hk : c ≠ k := by
        intro hck
        exact hnd.1 (List.mem_map.mpr ⟨(c, v), h', hck⟩)
      have h1 : (c == k) = false := by simpa using hk
      simp only [List.lookup_cons, h1]
      exact ih hnd.2 h'

/-! ## `calculate_frequences` -/

theorem getElem?_incr_value (heap : List HNode) (p q : Nat) :
    (incr_value heap p)[q]? =
      (heap[q]?).map fun n => if p = q then { n with value := n.value + 1 } else n := by
  unfold incr_value
  cases hp : heap[p]? with
  | none =>
    by_cases hpq : p = q
    · subst hpq; simp [hp]
    · simp [hpq]
  | some n =>
    by_cases hpq : p = q
    · subst hpq
      have hlt : p < heap.length := by
        rcases List.getElem?_eq_some.mp hp with ⟨h, _⟩; exact h
      simp [store, hp, List.getElem?_set_self hlt]
    · simp [store, hpq, List.getElem?_set_ne hpq]

theorem length_incr_value (heap : List HNode) (p : Nat) :
    (incr_value heap p).length = heap.length := by
  unfold incr_value; split <;> simp [store]

theorem FreqInv.incr {freqs : List (Byte × Nat)} {m : Mem} (h : FreqInv freqs m) (p : Nat) :
    FreqInv freqs { m with heap := incr_value m.heap p } where
  count := by simpa [length_incr_value] using h.count
  ptrs := by simpa [length_incr_value] using h.ptrs
  keys := h.keys
  recs := by
    intro q n hn
    simp only [getElem?_incr_value] at hn
    cases hq : m.heap[q]? with
    | none => simp [hq] at hn
    | some n0 =>
      simp only [hq, Option.map_some', Option.some.injEq] at hn
      have := h.recs q n0 hq
      subst hn
      by_cases hpq : p = q <;> simpa [hpq] using this

theorem FreqInv.create {freqs : List (Byte × Nat)} {m : Mem} (h : FreqInv freqs m)
    {ch : Byte} (hc : ch ∉ freqs.map Prod.fst) :
    FreqInv (freqs ++ [(ch, (create_node m 1 none none ch).1)])
      (create_node m 1 none none ch).2 where
  count := by simp [create_node, h.count]
  ptrs := by simp [create_node, h.ptrs, List.range_succ]
  keys := by
    simp only [List.map_append, List.map_cons, List.map_nil]
    exact List.Nodup.append h.keys (List.nodup_singleton _) (by simpa using hc)
  recs := by
    have hlen : freqs.length = m.heap.length := by
      have := congrArg List.length h.ptrs
      simpa using this
    intro p n hn
    simp only [create_node] at hn ⊢
    by_cases hp : p < m.heap.length
    · rw [List.getElem?_append_left hp] at hn
      rcases h.recs p n hn with ⟨h1, h2, h3, h4, h5⟩
      refine ⟨h1, h2, h3, h4, ?_⟩
      rw [List.getElem?_append_left (by omega)]
      exact h5
    · have hp1 : m.heap.length ≤ p := by omega
      rw [List.getElem?_append_right hp1] at hn
      have hp2 : p = m.heap.length := by
        by_contra hne
        have : p - m.heap.length ≠ 0 := by omega
        obtain ⟨k, hk⟩ := Nat.exists_eq_succ_of_ne_zero this
        rw [hk] at hn
        simp at hn
      subst hp2
      simp at hn
      subst hn
      simp [h.count, ← hlen]

theorem calculate_frequences_loop_inv (msg : List Byte) (freqs : List (Byte × Nat))
    (m : Mem) (h : FreqInv freqs m) :
    FreqInv (calculate_frequences_loop msg freqs m).1 (calculate_frequences_loop msg freqs m).2 ∧
    ∀ c, c ∈ (calculate_frequences_loop msg freqs m).1.map Prod.fst ↔
      c ∈ freqs.map Prod.fst ∨ c ∈ msg := by
  induction msg generalizing freqs m with
  | nil => simp [calculate_frequences_loop, h]
  | cons ch msg ih =>
    simp only [calculate_frequences_loop]
    cases hl : freqs.lookup ch with
    | none =>
      have hc := (lookup_none_iff freqs ch).mp hl
      rcases ih _ _ (h.create hc) with ⟨h1, h2⟩
      refine ⟨h1, fun c => ?_⟩
      rw [h2]
      simp only [List.map_append, List.map_cons, List.map_nil, List.mem_append,
        List.mem_singleton, List.mem_cons]
      tauto
    | some p =>
      rcases ih _ _ (h.incr p) with ⟨h1, h2⟩
      refine ⟨h1, fun c => ?_⟩
      rw [h2]
      have hm : ch ∈ freqs.map Prod.fst := List.mem_map.mpr ⟨(ch, p), lookup_some_mem hl, rfl⟩
      simp only [List.mem_cons]
      constructor
      · tauto
      · rintro (h | h | h)
        · exact Or.inl h
        · subst h; exact Or.inl hm
        · exact Or.inr h

theorem FreqInv.start : FreqInv [] { num_nodes := 0, heap := [] } where
  count := rfl
  ptrs := rfl
  keys := List.nodup_nil
  recs := by intro p n hn; simp at hn

theorem FreqInv.length {freqs : List (Byte × Nat)} {m : Mem} (h : FreqInv freqs m) :
    freqs.length = m.heap.length := by
  have := congrArg List.length h.ptrs
  simpa using this

/-- Number of entries of the map: the number of distinct bytes of the message. -/
theorem calculate_frequences_length (msg : List Byte) :
    (calculate_frequences { num_nodes := 0, heap := [] } msg).1.length = msg.toFinset.card := by
  rcases calculate_frequences_loop_inv msg [] _ FreqInv.start with ⟨h1, h2⟩
  unfold calculate_frequences
  have e : ((calculate_frequences_loop msg [] { num_nodes := 0, heap := [] }).1.map
      Prod.fst).toFinset = msg.toFinset := by
    ext c
    simp only [List.mem_toFinset]
    rw [h2]; simp
  rw [← e, List.toFinset_card_of_nodup h1.keys, List.length_map]

/-! ## The priority queue -/

theorem mem_pq_minimal {heap : List HNode} {q : List Nat} {p : Nat} :
    p ∈ pq_minimal heap q ↔ p ∈ q ∧ ∀ r ∈ q, weight heap p ≤ weight heap r := by
  simp [pq_minimal, List.mem_filter, List.all_eq_true]

theorem pq_minimal_ne_nil {heap : List HNode} {q : List Nat} (h : q ≠ []) :
    pq_minimal heap q ≠ [] := by
  have hne : q.toFinset.Nonempty := by
    cases q with
    | nil => exact absurd rfl h
    | cons a q => exact ⟨a, by simp⟩
  obtain ⟨x, hx, hmin⟩ := q.toFinset.exists_min_image (weight heap) hne
  have : x ∈ pq_minimal heap q :=
    mem_pq_minimal.mpr ⟨List.mem_toFinset.mp hx, fun r hr => hmin r (List.mem_toFinset.mpr hr)⟩
  exact List.ne_nil_of_mem this

/-- Member `top` returns an entry of the queue whose `value` is minimal. -/
theorem pq_top_spec {tie : List HNode → List Nat → Nat} {heap : List HNode} {q : List Nat}
    {p : Nat} (h : pq_top tie heap q = .ok p) :
    p ∈ q ∧ ∀ r ∈ q, weight heap p ≤ weight heap r := by
  unfold pq_top at h
  simp only at h
  split at h
  · rename_i x hx
    injection h with h
    subst h
    exact mem_pq_minimal.mp (List.getElem?_mem hx)
  · cases h

/-- On a queue that is not empty, `top` returns. -/
theorem pq_top_ok (tie : List HNode → List Nat → Nat) (heap : List HNode) {q : List Nat}
    (h : q ≠ []) : ∃ p, pq_top tie heap q = .ok p := by
  have hpos : 0 < (pq_minimal heap q).length :=
    List.length_pos.mpr (pq_minimal_ne_nil h)
  have hlt := Nat.mod_lt (tie heap q) hpos
  refine ⟨(pq_minimal heap q)[tie heap q % (pq_minimal heap q).length], ?_⟩
  unfold pq_top
  simp only [List.getElem?_eq_getElem hlt]

/-! ## The merge loop -/

theorem Forest.of_freqInv {freqs : List (Byte × Nat)} {m : Mem} (h : FreqInv freqs m) :
    Forest m (freqs.map Prod.snd) ((freqs.map Prod.snd).map Tree.leaf) where
  count := h.count
  ids := fun p n hn => ⟨(h.recs p n hn).1, (h.recs p n hn).2.2.2.1⟩
  roots := by
    rw [List.map_map]
    have : (Tree.root ∘ Tree.leaf) = id := by funext p; rfl
    rw [this, List.map_id]
  shape := by
    intro t ht
    rcases List.mem_map.mp ht with ⟨p, hp, rfl⟩
    rw [h.ptrs, List.mem_range] at hp
    have := List.getElem?_eq_getElem hp
    exact ⟨_, this, (h.recs p _ this).2.1⟩
  cover := by
    rw [h.ptrs]
    have : ∀ l : List Nat, (l.map Tree.leaf).flatMap Tree.ptrs = l := by
      intro l
      induction l with
      | nil => rfl
      | cons a l ih => simp [List.flatMap_cons, Tree.ptrs, ih]
    rw [this]

theorem Forest.length_eq {m : Mem} {q : List Nat} {ts : List Tree} (h : Forest m q ts) :
    q.length = ts.length := by
  simpa using h.roots.length_eq

/-- One round of the merge loop keeps the forest. -/
theorem Forest.merge {m : Mem} {q : List Nat} {ts : List Tree} (h : Forest m q ts)
    {sn1 sn2 : Nat} (h1 : sn1 ∈ q) (h2 : sn2 ∈ q.erase sn1) (v : Nat) :
    ∃ t1 t2, t1 ∈ ts ∧ t2 ∈ ts.erase t1 ∧ t1.root = sn1 ∧ t2.root = sn2 ∧
      Forest (create_node m v (some sn1) (some sn2) DEFAULT_CHAR).2
        ((q.erase sn1).erase sn2 ++ [(create_node m v (some sn1) (some sn2) DEFAULT_CHAR).1])
        ((ts.erase t1).erase t2 ++ [Tree.node m.heap.length t1 t2]) := by
  have hq1 : sn1 ∈ ts.map Tree.root := h.roots.mem_iff.mp h1
  rcases List.mem_map.mp hq1 with ⟨t1, ht1, hr1⟩
  have p1 : ts.Perm (t1 :: ts.erase t1) := List.perm_cons_erase ht1
  have e1 : (q.erase sn1).Perm ((ts.erase t1).map Tree.root) := by
    have := (h.roots.trans (p1.map Tree.root)).erase sn1
    simpa [hr1] using this
  have hq2 : sn2 ∈ (ts.erase t1).map Tree.root := e1.mem_iff.mp h2
  rcases List.mem_map.mp hq2 with ⟨t2, ht2, hr2⟩
  have p2 : (ts.erase t1).Perm (t2 :: (ts.erase t1).erase t2) := List.perm_cons_erase ht2
  have e2 : ((q.erase sn1).erase sn2).Perm (((ts.erase t1).erase t2).map Tree.root) := by
    have := (e1.trans (p2.map Tree.root)).erase sn2
    simpa [hr2] using this
  have p3 : ts.Perm (t1 :: t2 :: (ts.erase t1).erase t2) := p1.trans (p2.cons t1)
  have old : ∀ (p : Nat) (n : HNode), m.heap[p]? = some n →
      (create_node m v (some sn1) (some sn2) DEFAULT_CHAR).2.heap[p]? = some n := by
    intro p n hn
    have hp : p < m.heap.length := (List.getElem?_eq_some.mp hn).1
    simp only [create_node]
    rw [List.getElem?_append_left hp]; exact hn
  have keep : ∀ t, Shape m.heap t →
      Shape (create_node m v (some sn1) (some sn2) DEFAULT_CHAR).2.heap t := by
    intro t ht
    exact Shape.congr (fun p n hn => ⟨n, old p n hn, rfl, rfl⟩) ht
  refine ⟨t1, t2, ht1, ht2, hr1, hr2, ?_⟩
  constructor
  · simp [create_node, h.count]
  · intro p n hn
    simp only [create_node] at hn
    by_cases hp : p < m.heap.length
    · rw [List.getElem?_append_left hp] at hn
      exact h.ids p n hn
    · have hp1 : m.heap.length ≤ p := by omega
      rw [List.getElem?_append_right hp1] at hn
      have hp2 : p = m.heap.length := by
        by_contra hne
        have : p - m.heap.length ≠ 0 := by omega
        obtain ⟨k, hk⟩ := Nat.exists_eq_succ_of_ne_zero this
        rw [hk] at hn
        simp at hn
      subst hp2
      simp at hn
      subst hn
      simp [h.count]
  · simp only [List.map_append, List.map_cons, List.map_nil, Tree.root_node]
    exact List.Perm.append e2 (by simp [create_node])
  · intro t ht
    rcases List.mem_append.mp ht with ht | ht
    · exact keep t (h.shape t (List.mem_of_mem_erase (List.mem_of_mem_erase ht)))
    · simp only [List.mem_singleton] at ht
      subst ht
      refine ⟨{ id := m.num_nodes + 1, value := v, ln := some sn1, rn := some sn2,
                encoding := [], ch := DEFAULT_CHAR }, ?_, ?_, ?_, keep t1 (h.shape t1 ht1),
        keep t2 (h.shape t2 (List.mem_of_mem_erase ht2))⟩
      · simp only [create_node]
        exact List.getElem?_concat_length _ _
      · simp [hr1]
      · simp [hr2]
  · have c1 : (ts.flatMap Tree.ptrs).Perm
        (t1.ptrs ++ (t2.ptrs ++ ((ts.erase t1).erase t2).flatMap Tree.ptrs)) := by
      have := p3.flatMap_right Tree.ptrs
      simpa [List.flatMap_cons] using this
    have c2 : (((ts.erase t1).erase t2 ++ [Tree.node m.heap.length t1 t2]).flatMap
        Tree.ptrs).Perm (m.heap.length :: ts.flatMap Tree.ptrs) := by
      simp only [List.flatMap_append, List.flatMap_cons, List.flatMap_nil, Tree.ptrs,
        List.append_nil]
      refine List.perm_append_comm.trans ?_
      simp only [List.cons_append]
      refine List.Perm.cons _ ?_
      rw [List.append_assoc]
      exact c1.symm
    have c3 : (m.heap.length :: ts.flatMap Tree.ptrs).Perm
        (List.range (m.heap.length + 1)) := by
      rw [List.range_succ]
      exact (List.Perm.cons _ h.cover).trans (List.perm_append_singleton _ _).symm
    simpa [create_node] using c2.trans c3

/-- The merge loop returns with one entry in the queue: the root of a tree made of all
the records.  It allocates one record per round and touches no older record. -/
theorem merge_loop_spec (tie : List HNode → List Nat → Nat) :
    ∀ (fuel : Nat) (m : Mem) (q : List Nat) (ts : List Tree),
      Forest m q ts → 1 ≤ q.length → q.length ≤ fuel →
      ∃ m1 r t, merge_loop tie fuel m q = .ok (m1, [r]) ∧ Forest m1 [r] [t] ∧
        m1.heap.length + 1 = m.heap.length + q.length ∧
        ∃ extra, m1.heap = m.heap ++ extra ∧ ∀ n ∈ extra, n.ln ≠ none ∧ n.rn ≠ none := by
  intro fuel
  induction fuel with
  | zero => intro m q ts _ h1 h2; omega
  | succ fuel ih =>
    intro m q ts hF h1 h2
    by_cases hq : q.length = 1
    · obtain ⟨r, rfl⟩ := List.length_eq_one.mp hq
      have hts : ts.length = 1 := by rw [← hF.length_eq]; exact hq
      obtain ⟨t, rfl⟩ := List.length_eq_one.mp hts
      refine ⟨m, r, t, ?_, hF, by simp, [], by simp, by simp⟩
      simp [merge_loop]
    · have hq2 : 2 ≤ q.length := by omega
      have hne : q ≠ [] := by intro h; simp [h] at h1
      obtain ⟨sn1, hs1⟩ := pq_top_ok tie m.heap hne
      have hm1 := (pq_top_spec hs1).1
      have hl1 : (q.erase sn1).length = q.length - 1 := List.length_erase_of_mem hm1
      have hne1 : q.erase sn1 ≠ [] := by
        intro h; rw [h] at hl1; simp at hl1; omega
      obtain ⟨sn2, hs2⟩ := pq_top_ok tie m.heap hne1
      have hm2 := (pq_top_spec hs2).1
      have hl2 : ((q.erase sn1).erase sn2).length = q.length - 2 := by
        rw [List.length_erase_of_mem hm2, hl1]; omega
      obtain ⟨t1, t2, _, _, _, _, hF1⟩ :=
        hF.merge hm1 hm2 (weight m.heap sn1 + weight m.heap sn2)
      have hlen : ((q.erase sn1).erase sn2 ++
          [(create_node m (weight m.heap sn1 + weight m.heap sn2) (some sn1) (some sn2)
            DEFAULT_CHAR).1]).length = q.length - 1 := by
        rw [List.length_append, hl2]; simp; omega
      obtain ⟨m1, r, t, hrun, hF2, hsz, extra, hext, hint⟩ :=
        ih _ _ _ hF1 (by rw [hlen]; omega) (by rw [hlen]; omega)
      refine ⟨m1, r, t, ?_, hF2, ?_, ?_⟩
      · simp only [merge_loop, hq, if_false, hs1, pq_pop, Run.ok_bind, hs2]
        exact hrun
      · rw [hsz, hlen]; simp [create_node]; omega
      · simp only [create_node] at hext
        refine ⟨_, by rw [hext, List.append_assoc], ?_⟩
        intro n hn
        rcases List.mem_append.mp hn with hn | hn
        · simp only [List.mem_singleton] at hn
          subst hn; simp
        · exact hint n hn

/-! ## Trees -/

theorem Tree.codes_fst_perm (t : Tree) (binary : List Char) :
    ((t.codes binary).map Prod.fst).Perm t.leaves := by
  induction t generalizing binary with
  | leaf p => simp [Tree.codes, Tree.leaves]
  | node p l r ihl ihr =>
    simp only [Tree.codes, Tree.leaves, List.map_append]
    exact List.perm_append_comm.trans (List.Perm.append (ihl _) (ihr _))

theorem Tree.leaves_sublist (t : Tree) : t.leaves.Sublist t.ptrs := by
  induction t with
  | leaf p => simp [Tree.leaves, Tree.ptrs]
  | node p l r ihl ihr =>
    simp only [Tree.leaves, Tree.ptrs]
    exact List.Sublist.cons _ (List.Sublist.append ihl ihr)

theorem Tree.depth_le (t : Tree) : t.depth ≤ t.ptrs.length := by
  induction t with
  | leaf p => simp [Tree.depth, Tree.ptrs]
  | node p l r ihl ihr =>
    simp only [Tree.depth, Tree.ptrs, List.length_cons, List.length_append]
    omega

theorem Tree.codes_fst_nodup {t : Tree} (h : t.ptrs.Nodup) (binary : List Char) :
    ((t.codes binary).map Prod.fst).Nodup :=
  (t.codes_fst_perm binary).nodup_iff.mpr (h.sublist t.leaves_sublist)

theorem Tree.root_mem_ptrs (t : Tree) : t.root ∈ t.ptrs := by
  cases t <;> simp [Tree.ptrs]

/-! ## The encoder up to `create_encodings` -/

theorem pq_top_singleton (tie : List HNode → List Nat → Nat) (heap : List HNode) (r : Nat) :
    pq_top tie heap [r] = .ok r := by
  obtain ⟨p, hp⟩ := pq_top_ok tie heap (List.cons_ne_nil r [])
  have := (pq_top_spec hp).1
  simp only [List.mem_singleton] at this
  rw [hp, this]

/-- For a message that is not empty the encoder reaches line 171, with a tree made of
all the records. -/
theorem build_spec (tie : List HNode → List Nat → Nat) {msg : List Byte} (hmsg : msg ≠ []) :
    ∃ b t, build tie { num_nodes := 0, heap := [] } msg = .ok b ∧ BuiltInv msg b t := by
  obtain ⟨hI, hK⟩ := calculate_frequences_loop_inv msg [] _ FreqInv.start
  have hlen := calculate_frequences_length msg
  have hk := hI.length
  change FreqInv (calculate_frequences _ msg).1 (calculate_frequences _ msg).2 at hI
  change ∀ c, c ∈ (calculate_frequences _ msg).1.map Prod.fst ↔ _ at hK
  change (calculate_frequences _ msg).1.length = (calculate_frequences _ msg).2.heap.length at hk
  generalize hf : calculate_frequences { num_nodes := 0, heap := [] } msg = f at hI hK hlen hk
  have hpos : 1 ≤ msg.toFinset.card := by
    cases msg with
    | nil => exact absurd rfl hmsg
    | cons a l => exact Finset.card_pos.mpr ⟨a, by simp⟩
  obtain ⟨m1, r, t, hrun, hF, hsz, extra, hext, hint⟩ :=
    merge_loop_spec tie (f.1.map Prod.snd).length f.2 (f.1.map Prod.snd) _
      (Forest.of_freqInv hI) (by simp; omega) (le_refl _)
  have hr : r = t.root := by
    have := hF.roots
    simpa using this
  have hS : Shape m1.heap t := hF.shape t (by simp)
  have hC : t.ptrs.Perm (List.range m1.heap.length) := by
    have := hF.cover
    simpa using this
  have hnd : t.ptrs.Nodup := hC.nodup_iff.mpr (List.nodup_range _)
  have hd : t.depth ≤ m1.heap.length := by
    have := hC.length_eq
    simp only [List.length_range] at this
    rw [← this]; exact t.depth_le
  have hce := create_encodings_shape m1.heap.length [] hS hd
  rw [← hr] at hce
  simp only [List.length_map] at hsz
  refine ⟨{ mem := { m1 with heap := assign_codes (t.codes []) m1.heap }, freqs := f.1,
            node_queue := [r], top := r }, t, ?_, ?_⟩
  · simp only [build, hf, hrun, Run.ok_bind, pq_top_singleton, hce, Run.pure_eq]
  · constructor
    · exact hr
    · rfl
    · exact hS.of_assign_codes _
    · simpa [length_assign_codes] using hC
    · simpa [length_assign_codes] using hF.count
    · simp only [length_assign_codes]; omega
    · exact hI.keys
    · intro c; rw [hK c]; simp
    · rw [hI.ptrs, ← hk, hlen]
    · intro p n hn
      simp only [getElem?_assign_codes] at hn
      cases h0 : m1.heap[p]? with
      | none => simp [h0] at hn
      | some n0 =>
        simp only [h0, Option.map_some', Option.some.injEq] at hn
        subst hn
        simp only
        refine ⟨(hF.ids p n0 h0).1, ?_⟩
        rw [hext] at h0
        by_cases hp : p < f.2.heap.length
        · rw [List.getElem?_append_left hp] at h0
          obtain ⟨_, h2, h3, _, h5⟩ := hI.recs p n0 h0
          have hp' : p < msg.toFinset.card := by omega
          simp [h2, h3, hp', h5]
        · rw [List.getElem?_append_right (by omega)] at h0
          obtain ⟨h2, h3⟩ := hint n0 (List.getElem?_mem h0)
          have hp' : ¬ p < msg.toFinset.card := by omega
          simp [h2, h3, hp']
    · intro p c hpc
      have hp : p ∈ t.ptrs :=
        t.leaves_sublist.subset
          ((t.codes_fst_perm []).mem_iff.mp (List.mem_map.mpr ⟨(p, c), hpc, rfl⟩))
      have hp1 : p < m1.heap.length := List.mem_range.mp (hC.mem_iff.mp hp)
      refine ⟨{ m1.heap[p] with encoding := code_after (t.codes []) p (m1.heap[p]).encoding },
        ?_, code_after_mem (m1.heap[p]).encoding (t.codes_fst_nodup hnd []) hpc⟩
      simp [getElem?_assign_codes, List.getElem?_eq_getElem hp1]

/-! ## `write_encoding` -/

theorem write_encoding_bits_append (a b : List Char) (cbyte bidx : Nat) (out : List Byte) :
    write_encoding_bits (a ++ b) cbyte bidx out =
      write_encoding_bits b (write_encoding_bits a cbyte bidx out).1
        (write_encoding_bits a cbyte bidx out).2.1 (write_encoding_bits a cbyte bidx out).2.2 := by
  induction a generalizing cbyte bidx out with
  | nil => rfl
  | cons c a ih =>
    simp only [List.cons_append, write_encoding_bits]
    split <;> exact ih _ _ _

theorem write_encoding_loop_eq (heap : List HNode) (freqs : List (Byte × Nat))
    (msg : List Byte) (cbyte bidx : Nat) (out : List Byte)
    (h : ∀ ch ∈ msg, ∃ n, deref heap (freqs.lookup ch) = .ok n) :
    write_encoding_loop heap freqs msg cbyte bidx out =
      .ok (write_encoding_bits (msg.flatMap (code_of heap freqs)) cbyte bidx out) := by
  induction msg generalizing cbyte bidx out with
  | nil => rfl
  | cons ch msg ih =>
    obtain ⟨n, hn⟩ := h ch (List.mem_cons_self _ _)
    simp only [write_encoding_loop, hn, Run.ok_bind, List.flatMap_cons, code_of]
    rw [ih _ _ _ (fun c hc => h c (List.mem_cons_of_mem _ hc)), write_encoding_bits_append]

theorem testBit_step_lt {cbyte bidx j : Nat} (c : Char) (hj : j < bidx) :
    (if c = '1' then cbyte ||| (1 <<< bidx) else cbyte).testBit j = cbyte.testBit j := by
  split
  · rw [Nat.one_shiftLeft, Nat.testBit_or, Nat.testBit_two_pow_of_ne (by omega), Bool.or_false]
  · rfl

theorem testBit_step_eq {cbyte bidx : Nat} (c : Char) (h : cbyte < 2 ^ bidx) :
    ((if c = '1' then cbyte ||| (1 <<< bidx) else cbyte).testBit bidx = true ↔ c = '1') := by
  split
  · rename_i hc
    rw [Nat.one_shiftLeft, Nat.testBit_or, Nat.testBit_two_pow_self, Bool.or_true]
    simp [hc]
  · rename_i hc
    rw [Nat.testBit_lt_two_pow h]
    simp [hc]

theorem step_lt {cbyte bidx : Nat} (c : Char) (h : cbyte < 2 ^ bidx) :
    (if c = '1' then cbyte ||| (1 <<< bidx) else cbyte) < 2 ^ (bidx + 1) := by
  have h1 : cbyte < 2 ^ (bidx + 1) := by
    rw [Nat.pow_succ]; omega
  split
  · rw [Nat.one_shiftLeft]
    exact Nat.or_lt_two_pow h1 (Nat.pow_lt_pow_right (by decide) (Nat.lt_succ_self _))
  · exact h1

theorem Packed.empty : Packed [] 0 0 [] where
  idx := by decide
  len := rfl
  small := by decide
  full := by intro i j b _ h; simp at h
  part := by intro j h; omega

/-- One round of the inner loop of `write_encoding`. -/
theorem Packed.step {w : List Char} {cbyte bidx : Nat} {out : List Byte}
    (h : Packed w cbyte bidx out) (c : Char) :
    Packed (w ++ [c]) (write_encoding_bits [c] cbyte bidx out).1
      (write_encoding_bits [c] cbyte bidx out).2.1 (write_encoding_bits [c] cbyte bidx out).2.2 := by
  have hidx := h.idx
  have hlen := h.len
  have hsm := step_lt c h.small
  have old : ∀ k, k < w.length → (w ++ [c])[k]? = w[k]? := fun k hk =>
    List.getElem?_append_left hk
  have new : (w ++ [c])[w.length]? = some c := List.getElem?_concat_length _ _
  have hfull : ∀ (i j : Nat) (b : Byte), j < 8 → out[i]? = some b →
      (b.val.testBit j = true ↔ (w ++ [c])[i * 8 + j]? = some '1') := by
    intro i j b hj hb
    have hi : i < out.length := (List.getElem?_eq_some.mp hb).1
    rw [old _ (by omega)]
    exact h.full i j b hj hb
  have hpart : ∀ j, j < bidx + 1 →
      ((if c = '1' then cbyte ||| (1 <<< bidx) else cbyte).testBit j = true ↔
        (w ++ [c])[out.length * 8 + j]? = some '1') := by
    intro j hj
    by_cases hjb : j < bidx
    · rw [testBit_step_lt c hjb, old _ (by omega)]
      exact h.part j hjb
    · have : j = bidx := by omega
      subst this
      rw [testBit_step_eq c h.small, hlen, new]
      simp
  simp only [write_encoding_bits]
  by_cases h8 : bidx + 1 = 8
  · simp only [h8, if_true]
    have hval : (toByte (if c = '1' then cbyte ||| (1 <<< bidx) else cbyte)).val =
        (if c = '1' then cbyte ||| (1 <<< bidx) else cbyte) := by
      rw [h8] at hsm
      simp only [toByte]
      exact Nat.mod_eq_of_lt (by simpa using hsm)
    constructor
    · decide
    · simp; omega
    · decide
    · intro i j b hj hb
      by_cases hi : i < out.length
      · rw [List.getElem?_append_left hi] at hb
        exact hfull i j b hj hb
      · have hi' : i = out.length := by
          by_contra hne
          rw [List.getElem?_append_right (by omega)] at hb
          have : i - out.length ≠ 0 := by omega
          obtain ⟨k, hk⟩ := Nat.exists_eq_succ_of_ne_zero this
          rw [hk] at hb
          simp at hb
        subst hi'
        rw [List.getElem?_concat_length] at hb
        injection hb with hb
        rw [← hb, hval]
        exact hpart j (by omega)
    · intro j hj; omega
  · simp only [h8, if_false]
    constructor
    · omega
    · simp; omega
    · exact hsm
    · exact hfull
    · exact hpart

theorem Packed.run {w : List Char} {cbyte bidx : Nat} {out : List Byte}
    (h : Packed w cbyte bidx out) (bits : List Char) :
    Packed (w ++ bits) (write_encoding_bits bits cbyte bidx out).1
      (write_encoding_bits bits cbyte bidx out).2.1 (write_encoding_bits bits cbyte bidx out).2.2 := by
  induction bits generalizing w cbyte bidx out with
  | nil => simpa [write_encoding_bits] using h
  | cons c bits ih =>
    have := ih (h.step c)
    rw [List.append_assoc] at this
    have e := write_encoding_bits_append [c] bits cbyte bidx out
    simp only [List.singleton_append] at e this
    rw [e]
    exact this

theorem code_bits_length (heap : List HNode) (freqs : List (Byte × Nat)) (msg : List Byte) :
    (msg.flatMap (code_of heap freqs)).length =
      (msg.map fun ch => (code_of heap freqs ch).length).sum := by
  induction msg with
  | nil => rfl
  | cons ch msg ih => simp [List.flatMap_cons, ih]

/-- Function `write_encoding` returns when every byte of the message has a record, and
its output is the code strings of the message packed eight to a byte, low bit first. -/
theorem write_encoding_spec (heap : List HNode) (freqs : List (Byte × Nat)) (msg : List Byte)
    (h : ∀ ch ∈ msg, ∃ n, deref heap (freqs.lookup ch) = .ok n) :
    ∃ out, write_encoding heap freqs msg = .ok out ∧
      out.length = ((msg.flatMap (code_of heap freqs)).length + 7) / 8 ∧
      ∀ i, i < 8 * out.length → ∃ b, out[i / 8]? = some b ∧
        (b.val.testBit (i % 8) = true ↔ (msg.flatMap (code_of heap freqs))[i]? = some '1') := by
  have hP := Packed.empty.run (msg.flatMap (code_of heap freqs))
  rw [List.nil_append] at hP
  generalize hs : write_encoding_bits (msg.flatMap (code_of heap freqs)) 0 0 [] = s at hP
  obtain ⟨cbyte, bidx, out0⟩ := s
  simp only at hP
  have hidx := hP.idx
  have hlen := hP.len
  refine ⟨if bidx ≠ 0 then out0 ++ [toByte cbyte] else out0, ?_, ?_, ?_⟩
  · simp only [write_encoding, write_encoding_loop_eq heap freqs msg 0 0 [] h, hs,
      Run.ok_bind, Run.pure_eq]
  · by_cases hb : bidx = 0
    · simp only [hb, ne_eq, not_true_eq_false, if_false]; omega
    · simp only [hb, ne_eq, not_false_eq_true, if_true, List.length_append,
        List.length_singleton]; omega
  · intro i hi
    have hdm : i / 8 * 8 + i % 8 = i := Nat.div_add_mod' i 8
    have hmod : i % 8 < 8 := Nat.mod_lt _ (by decide)
    by_cases h0 : i / 8 < out0.length
    · refine ⟨out0[i / 8], ?_, ?_⟩
      · split
        · rw [List.getElem?_append_left h0]; exact List.getElem?_eq_getElem h0
        · exact List.getElem?_eq_getElem h0
      · have := hP.full (i / 8) (i % 8) _ hmod (List.getElem?_eq_getElem h0)
        rw [hdm] at this
        exact this
    · have hb : bidx ≠ 0 := by
        intro hb
        simp only [hb, ne_eq, not_true_eq_false, if_false] at hi
        omega
      simp only [hb, ne_eq, not_false_eq_true, if_true, List.length_append,
        List.length_singleton] at hi ⊢
      have h1 : i / 8 = out0.length := by omega
      refine ⟨toByte cbyte, ?_, ?_⟩
      · rw [h1]; exact List.getElem?_concat_length _ _
      · have hsm := hP.small
        have h256 : cbyte < 256 := by
          have : 2 ^ bidx ≤ 2 ^ 8 := Nat.pow_le_pow_right (by decide) (by omega)
          have e : (2 : Nat) ^ 8 = 256 := by norm_num
          omega
        have hval : (toByte cbyte).val = cbyte := by
          simp only [toByte]; exact Nat.mod_eq_of_lt h256
        rw [hval]
        by_cases hj : i % 8 < bidx
        · have := hP.part (i % 8) hj
          rw [← h1, hdm] at this
          exact this
        · have hlt : cbyte < 2 ^ (i % 8) :=
            lt_of_lt_of_le hsm (Nat.pow_le_pow_right (by decide) (by omega))
          rw [Nat.testBit_lt_two_pow hlt, List.getElem?_eq_none (by omega)]
          simp

/-! ## The header -/

theorem toByte_val {n : Nat} (h : n < 256) : (toByte n).val = n := by
  simp only [toByte]; exact Nat.mod_eq_of_lt h

theorem isdigit_toByte {d : Nat} (h : d < 10) : isdigit (toByte (48 + d)) = true := by
  simp only [isdigit, toByte_val (show 48 + d < 256 by omega)]
  simp; omega

theorem isspace_toByte {d : Nat} (h : d < 10) : isspace (toByte (48 + d)) = false := by
  simp only [isspace, toByte_val (show 48 + d < 256 by omega)]
  simp; omega

theorem decimal_digits_spec (fuel n : Nat) (acc : List Byte) (h : n < fuel) :
    ∃ d ds, d < 10 ∧ decimal_digits fuel n acc = toByte (48 + d) :: ds ++ acc ∧
      (∀ b ∈ ds, isdigit b = true) ∧
      ∀ v, (toByte (48 + d) :: ds).foldl (fun a b => 10 * a + (b.val - 48)) v =
        v * 10 ^ (ds.length + 1) + n := by
  induction fuel generalizing n acc with
  | zero => omega
  | succ fuel ih =>
    simp only [decimal_digits]
    by_cases hn : n < 10
    · refine ⟨n, [], hn, by simp [hn], by simp, ?_⟩
      intro v
      simp [toByte_val (show 48 + n < 256 by omega)]
      omega
    · have hdiv : n / 10 < fuel := by omega
      obtain ⟨d, ds, hd, he, hall, hv⟩ := ih (n / 10) (toByte (48 + n % 10) :: acc) hdiv
      have hmod : n % 10 < 10 := Nat.mod_lt _ (by decide)
      refine ⟨d, ds ++ [toByte (48 + n % 10)], hd, ?_, ?_, ?_⟩
      · simp [hn, he]
      · intro b hb
        rcases List.mem_append.mp hb with hb | hb
        · exact hall b hb
        · simp only [List.mem_singleton] at hb
          subst hb; exact isdigit_toByte hmod
      · intro v
        have e0 : toByte (48 + d) :: (ds ++ [toByte (48 + n % 10)]) =
            (toByte (48 + d) :: ds) ++ [toByte (48 + n % 10)] := rfl
        rw [e0, List.foldl_append, hv v]
        simp only [List.foldl_cons, List.foldl_nil,
          toByte_val (show 48 + n % 10 < 256 by omega), List.length_append,
          List.length_singleton]
        have e : 48 + n % 10 - 48 = n % 10 := by omega
        rw [e, show (10 : Nat) ^ (ds.length + 1 + 1) = 10 ^ (ds.length + 1) * 10 from
          pow_succ 10 (ds.length + 1), ← Nat.mul_assoc]
        have := Nat.div_add_mod n 10
        generalize v * 10 ^ (ds.length + 1) = x
        omega

theorem takeWhile_run {p : Byte → Bool} {ds : List Byte} {x : Byte} (rest : List Byte)
    (h : ∀ b ∈ ds, p b = true) (hx : p x = false) :
    List.takeWhile p (ds ++ x :: rest) = ds := by
  induction ds with
  | nil => simp [List.takeWhile_cons, hx]
  | cons a ds ih =>
    have ha : p a = true := h a (List.mem_cons_self _ _)
    simp only [List.cons_append, List.takeWhile_cons, ha, if_true]
    rw [ih (fun b hb => h b (List.mem_cons_of_mem _ hb))]

theorem dropWhile_run {p : Byte → Bool} {ds : List Byte} {x : Byte} (rest : List Byte)
    (h : ∀ b ∈ ds, p b = true) (hx : p x = false) :
    List.dropWhile p (ds ++ x :: rest) = x :: rest := by
  induction ds with
  | nil => simp [List.dropWhile_cons, hx]
  | cons a ds ih =>
    have ha : p a = true := h a (List.mem_cons_self _ _)
    simp only [List.cons_append, List.dropWhile_cons, ha, if_true]
    exact ih (fun b hb => h b (List.mem_cons_of_mem _ hb))

/-- Reading back the decimal text written by `write_table`. -/
theorem read_size_decimal (n : Nat) (rest : List Byte) (h : n ≤ SIZE_MAX) :
    read_size (decimal n ++ 32 :: rest) = some (n, 32 :: rest) := by
  obtain ⟨d, ds, hd, he, hall, hv⟩ := decimal_digits_spec (n + 1) n [] (Nat.lt_succ_self n)
  have hdec : decimal n = toByte (48 + d) :: ds := by
    simpa [decimal] using he
  have hdig := isdigit_toByte hd
  have hsp := isspace_toByte hd
  have hval : (toByte (48 + d)).val = 48 + d := toByte_val (by omega)
  have h45 : toByte (48 + d) ≠ (45 : Byte) := by
    intro e
    have := congrArg Fin.val e
    rw [hval] at this
    have e45 : ((45 : Byte) : Nat) = 45 := rfl
    omega
  have h43 : toByte (48 + d) ≠ (43 : Byte) := by
    intro e
    have := congrArg Fin.val e
    rw [hval] at this
    have e43 : ((43 : Byte) : Nat) = 43 := rfl
    omega
  have h32 : isdigit (32 : Byte) = false := by decide
  have hall' : ∀ b ∈ toByte (48 + d) :: ds, isdigit b = true := by
    intro b hb
    rcases List.mem_cons.mp hb with hb | hb
    · rw [hb]; exact hdig
    · exact hall b hb
  have htake : List.takeWhile isdigit (toByte (48 + d) :: (ds ++ 32 :: rest)) =
      toByte (48 + d) :: ds := takeWhile_run rest hall' h32
  have hdrop : List.dropWhile isdigit (toByte (48 + d) :: (ds ++ 32 :: rest)) = 32 :: rest :=
    dropWhile_run rest hall' h32
  have hvalue : digits_value (toByte (48 + d) :: ds) = n := by
    have := hv 0
    simpa [digits_value] using this
  unfold read_size
  simp only [hdec, List.cons_append, List.dropWhile_cons, hsp, Bool.false_eq_true, if_false,
    List.head?_cons, Option.some.injEq, h45, h43, or_self, htake, hdrop, hvalue]
  simp [Nat.not_lt.mpr h]

/-! ## The records and the map of the decoder -/

theorem create_nodes_spec (count k : Nat) :
    create_nodes count
        { num_nodes := k, heap := (List.range k).map fun i => fresh (i + 1) }
        ((List.range k).map fun i => (i + 1, i)) =
      ({ num_nodes := k + count, heap := (List.range (k + count)).map fun i => fresh (i + 1) },
        (List.range (k + count)).map fun i => (i + 1, i)) := by
  induction count generalizing k with
  | zero => rfl
  | succ count ih =>
    have := ih (k + 1)
    simp only [create_nodes, create_node, List.length_map, List.length_range]
    rw [show k + (count + 1) = k + 1 + count by omega, ← this]
    simp [List.range_succ, fresh]

theorem lookup_ids (n id : Nat) :
    ((List.range n).map fun i => (i + 1, i)).lookup id =
      if 0 < id ∧ id ≤ n then some (id - 1) else none := by
  induction n with
  | zero =>
    have : ¬ (0 < id ∧ id ≤ 0) := by omega
    rw [if_neg this]; rfl
  | succ n ih =>
    rw [List.range_succ, List.map_append, List.lookup_append, ih]
    by_cases h : 0 < id ∧ id ≤ n
    · have h' : 0 < id ∧ id ≤ n + 1 := ⟨h.1, by omega⟩
      simp [h, h']
    · by_cases h1 : id = n + 1
      · subst h1
        simp [List.lookup_cons]
      · have h' : ¬ (0 < id ∧ id ≤ n + 1) := by omega
        have hb : (id == n + 1) = false := by simpa using h1
        simp [h, h', List.lookup_cons, hb]

/-! ## `write_tree` -/

theorem node_at_eq {heap : List HNode} {p : Nat} {n : HNode} (h : heap[p]? = some n) :
    node_at heap p = n := by
  simp [node_at, h]

/-- On records linked as a tree, `write_tree` returns the records' bytes in pre-order. -/
theorem write_tree_shape {heap : List HNode} {t : Tree} (fuel : Nat)
    (hs : Shape heap t) (hf : t.depth ≤ fuel) :
    write_tree fuel heap (some t.root) = .ok (t.ptrs.flatMap (record heap)) := by
  induction t generalizing fuel with
  | leaf p =>
    rcases hs with ⟨n, hn, hl⟩
    cases fuel with
    | zero => simp [Tree.depth] at hf
    | succ fuel =>
      simp [write_tree, deref_some hn, hl, Tree.ptrs, record, node_at_eq hn]
  | node p l r ihl ihr =>
    rcases hs with ⟨n, hn, hl, hr, sl, sr⟩
    cases fuel with
    | zero => simp [Tree.depth] at hf
    | succ fuel =>
      simp only [Tree.depth] at hf
      obtain ⟨nl, hnl⟩ := sl.root_some
      obtain ⟨nr, hnr⟩ := sr.root_some
      simp only [write_tree, Tree.root_node, deref_some hn, hl, hr, Run.ok_bind,
        deref_some hnl, deref_some hnr, ihl fuel sl (by omega), ihr fuel sr (by omega)]
      simp [Tree.ptrs, record, node_at_eq hn, hl, hr, node_at_eq hnl, node_at_eq hnr]

/-! ## The table loop of `huffman_decode` -/

theorem getElem?_load_one (E D : List HNode) (p q : Nat) :
    (load_one E D p)[q]? =
      if p = q then (D[q]?).map (loaded (node_at E q)) else D[q]? := by
  unfold load_one store
  by_cases hpq : p = q
  · subst hpq
    simp only [if_true]
    cases hd : D[p]? with
    | none =>
      have : D.length ≤ p := List.getElem?_eq_none_iff.mp hd
      simp [List.getElem?_eq_none_iff.mpr, this]
    | some d =>
      have hlt : p < D.length := (List.getElem?_eq_some.mp hd).1
      simp [List.getElem?_set_self hlt, node_at, hd]
  · simp [hpq, List.getElem?_set_ne hpq]

theorem length_load_one (E D : List HNode) (p : Nat) : (load_one E D p).length = D.length := by
  simp [load_one, store]

theorem getElem?_foldl_load_one (E : List HNode) (ps : List Nat) (D : List HNode) (q : Nat)
    (hnd : ps.Nodup) :
    (ps.foldl (load_one E) D)[q]? =
      if q ∈ ps then (D[q]?).map (loaded (node_at E q)) else D[q]? := by
  induction ps generalizing D with
  | nil => simp
  | cons p ps ih =>
    simp only [List.nodup_cons] at hnd
    simp only [List.foldl_cons]
    rw [ih _ hnd.2, getElem?_load_one]
    by_cases hq : q ∈ ps
    · have hpq : p ≠ q := fun h => hnd.1 (h ▸ hq)
      simp [hq, hpq]
    · by_cases hpq : p = q
      · subst hpq; simp [hq]
      · have : q ≠ p := fun h => hpq h.symm
        simp [hq, hpq, this]

/-- One round of the table loop, on the bytes of one record. -/
theorem read_table_step {E D : List HNode} {N : Nat} (hE : Linked E) (hEN : E.length = N)
    (hDN : D.length = N) (hN : N ≤ 255) {p : Nat} (hp : p < N) (c i : Nat)
    (top : Option Nat) (s : List Byte) :
    read_table ((List.range N).map fun i => (i + 1, i)) (c + 1) i D top (record E p ++ s) =
      read_table ((List.range N).map fun i => (i + 1, i)) c (i + 1) (load_one E D p)
        (if i = 0 then some p else top) s := by
  have hpE : p < E.length := by omega
  have hpD : p < D.length := by omega
  have he := List.getElem?_eq_getElem hpE
  have hd := List.getElem?_eq_getElem hpD
  obtain ⟨hid, hlink⟩ := hE p _ he
  have hidb : (toByte (p + 1)).val = p + 1 := toByte_val (by omega)
  have hlk : ((List.range N).map fun i => (i + 1, i)).lookup (p + 1) = some p := by
    rw [lookup_ids]; simp; omega
  cases hln : (E[p]).ln with
  | none =>
    have hrec : record E p = [toByte (p + 1), (E[p]).ch, 0, 0] := by
      simp [record, node_at_eq he, hln, hid]
    simp only [hrec, List.cons_append, List.nil_append, read_table, read_8bit_number,
      Run.ok_bind, hidb, hlk, deref_some hd, List.head?_cons, Option.getD_some,
      List.tail_cons]
    simp [load_one, loaded, node_at_eq he, node_at_eq hd, hln]
  | some a =>
    obtain ⟨ha, b, hrn, hb⟩ := hlink a hln
    have hea := List.getElem?_eq_getElem ha
    have heb := List.getElem?_eq_getElem hb
    have hida := (hE a _ hea).1
    have hidb' := (hE b _ heb).1
    have hva : (toByte (a + 1)).val = a + 1 := toByte_val (by omega)
    have hvb : (toByte (b + 1)).val = b + 1 := toByte_val (by omega)
    have hla : ((List.range N).map fun i => (i + 1, i)).lookup (a + 1) = some a := by
      rw [lookup_ids]; simp; omega
    have hlb : ((List.range N).map fun i => (i + 1, i)).lookup (b + 1) = some b := by
      rw [lookup_ids]; simp; omega
    have hrec : record E p =
        [toByte (p + 1), (E[p]).ch, toByte (a + 1), toByte (b + 1)] := by
      simp [record, node_at_eq he, hln, hrn, hid, node_at_eq hea, node_at_eq heb, hida, hidb']
    simp only [hrec, List.cons_append, List.nil_append, read_table, read_8bit_number,
      Run.ok_bind, hidb, hlk, deref_some hd, List.head?_cons, Option.getD_some,
      List.tail_cons, hva, hvb, hla, hlb]
    simp [load_one, loaded, node_at_eq he, node_at_eq hd, hln, hrn]

/-- The table loop on the bytes of a list of records. -/
theorem read_table_records {E : List HNode} {N : Nat} (hE : Linked E) (hEN : E.length = N)
    (hN : N ≤ 255) (ps : List Nat) (hps : ∀ p ∈ ps, p < N) (c i : Nat) (D : List HNode)
    (hDN : D.length = N) (top : Option Nat) (s : List Byte) :
    read_table ((List.range N).map fun i => (i + 1, i)) (ps.length + c) i D top
        (ps.flatMap (record E) ++ s) =
      read_table ((List.range N).map fun i => (i + 1, i)) c (i + ps.length)
        (ps.foldl (load_one E) D)
        (if i = 0 ∧ ps ≠ [] then ps.head? else top) s := by
  induction ps generalizing i D top with
  | nil => simp
  | cons p ps ih =>
    have hp := hps p (List.mem_cons_self _ _)
    have hps' : ∀ q ∈ ps, q < N := fun q hq => hps q (List.mem_cons_of_mem _ hq)
    simp only [List.length_cons, List.flatMap_cons, List.append_assoc, List.foldl_cons]
    rw [show ps.length + 1 + c = (ps.length + c) + 1 by omega,
      read_table_step hE hEN hDN hN hp, ih hps' (i + 1) _ (by rw [length_load_one]; exact hDN)]
    rw [show i + 1 + ps.length = i + (ps.length + 1) by omega]
    simp

/-! ## Code strings of a tree -/

theorem Tree.codes_prefix {t : Tree} {binary : List Char} {p : Nat} {c : List Char}
    (h : (p, c) ∈ t.codes binary) : binary <+: c := by
  induction t generalizing binary with
  | leaf q =>
    simp only [Tree.codes, List.mem_singleton, Prod.mk.injEq] at h
    rw [h.2]
  | node q l r ihl ihr =>
    simp only [Tree.codes, List.mem_append] at h
    rcases h with h | h
    · exact (List.prefix_append _ _).trans (ihr h)
    · exact (List.prefix_append _ _).trans (ihl h)

theorem not_prefix_of_branch {binary c d : List Char} {x y : Char} (hxy : x ≠ y)
    (hc : binary ++ [x] <+: c) (hd : binary ++ [y] <+: d) : ¬ c <+: d := by
  intro hcd
  obtain ⟨c1, rfl⟩ := hc
  obtain ⟨d1, rfl⟩ := hd
  have : binary ++ [x] <+: binary ++ [y] ++ d1 := (List.prefix_append _ _).trans hcd
  rw [List.append_assoc, List.prefix_append_right_inj] at this
  simp only [List.singleton_append, List.cons_prefix_cons] at this
  exact hxy this.1

/-- No code string of a tree is a prefix of the code string of another leaf. -/
theorem Tree.codes_no_prefix {t : Tree} {binary : List Char} {p q : Nat} {c d : List Char}
    (hc : (p, c) ∈ t.codes binary) (hd : (q, d) ∈ t.codes binary) (h : c <+: d) :
    p = q ∧ c = d := by
  induction t generalizing binary with
  | leaf r =>
    simp only [Tree.codes, List.mem_singleton, Prod.mk.injEq] at hc hd
    exact ⟨hc.1.trans hd.1.symm, hc.2.trans hd.2.symm⟩
  | node r l1 r1 ihl ihr =>
    simp only [Tree.codes, List.mem_append] at hc hd
    rcases hc with hc | hc <;> rcases hd with hd | hd
    · exact ihr hc hd
    · exact absurd h (not_prefix_of_branch (by decide) (Tree.codes_prefix hc)
        (Tree.codes_prefix hd))
    · exact absurd h (not_prefix_of_branch (by decide) (Tree.codes_prefix hc)
        (Tree.codes_prefix hd))
    · exact ihl hc hd

theorem Tree.codes_chars {t : Tree} {binary : List Char} {p : Nat} {c : List Char}
    (h : (p, c) ∈ t.codes binary) : ∀ x ∈ c, x ∈ binary ∨ x = '0' ∨ x = '1' := by
  induction t generalizing binary with
  | leaf q =>
    simp only [Tree.codes, List.mem_singleton, Prod.mk.injEq] at h
    intro x hx; rw [h.2] at hx; exact Or.inl hx
  | node q l r ihl ihr =>
    simp only [Tree.codes, List.mem_append] at h
    intro x hx
    rcases h with h | h
    · rcases ihr h x hx with h1 | h1
      · rcases List.mem_append.mp h1 with h2 | h2
        · exact Or.inl h2
        · simp only [List.mem_singleton] at h2; exact Or.inr (Or.inl h2)
      · exact Or.inr h1
    · rcases ihl h x hx with h1 | h1
      · rcases List.mem_append.mp h1 with h2 | h2
        · exact Or.inl h2
        · simp only [List.mem_singleton] at h2; exact Or.inr (Or.inr h2)
      · exact Or.inr h1

theorem Tree.find_some {t : Tree} {binary e : List Char} {p : Nat}
    (h : t.find binary e = some p) : (p, e) ∈ t.codes binary := by
  induction t generalizing binary with
  | leaf q =>
    simp only [Tree.find] at h
    split at h
    · rename_i hb
      injection h with h
      simp [Tree.codes, hb, h]
    · cases h
  | node q l r ihl ihr =>
    simp only [Tree.find] at h
    split at h
    · simp only [Tree.codes, List.mem_append]
      split at h
      · rename_i p1 hp1
        injection h with h
        subst h
        exact Or.inr (ihl hp1)
      · exact Or.inl (ihr h)
    · cases h

theorem Tree.find_of_mem {t : Tree} {binary e : List Char} {p : Nat}
    (h : (p, e) ∈ t.codes binary) : t.find binary e = some p := by
  induction t generalizing binary with
  | leaf q =>
    simp only [Tree.codes, List.mem_singleton, Prod.mk.injEq] at h
    simp [Tree.find, h.1, h.2]
  | node q l r ihl ihr =>
    simp only [Tree.codes, List.mem_append] at h
    have hlen : e.length ≠ binary.length := by
      have : binary ++ [if (p, e) ∈ r.codes (binary ++ ['0']) then '0' else '1'] <+: e := by
        split
        · rename_i h1; exact Tree.codes_prefix h1
        · rename_i h1
          rcases h with h | h
          · exact absurd h h1
          · exact Tree.codes_prefix h
      have := this.length_le
      simp only [List.length_append, List.length_singleton] at this
      omega
    simp only [Tree.find, hlen, ne_eq, not_false_eq_true, if_true]
    rcases h with h | h
    · cases hl : l.find (binary ++ ['1']) e with
      | none => exact ihr h
      | some p1 =>
        have h1 := Tree.find_some hl
        exact absurd (List.prefix_refl e) (not_prefix_of_branch (by decide)
          (Tree.codes_prefix h) (Tree.codes_prefix h1))
    · rw [ihl h]

/-! ## `get_node` -/

/-- On records linked as a tree and carrying the code strings of the tree, `get_node`
returns the leaf whose code string is `e`, if there is one. -/
theorem get_node_shape {H : List HNode} {t : Tree} (fuel : Nat) (binary e : List Char)
    (hs : Shape H t)
    (hc : ∀ (p : Nat) (c : List Char), (p, c) ∈ t.codes binary →
      ∃ n, H[p]? = some n ∧ n.encoding = c)
    (hle : binary.length ≤ e.length) (hf : e.length - binary.length < fuel) :
    get_node fuel H (some t.root) e binary.length = .ok (t.find binary e) := by
  induction t generalizing fuel binary with
  | leaf p =>
    rcases hs with ⟨n, hn, hl⟩
    obtain ⟨n1, hn1, hc1⟩ := hc p binary (by simp [Tree.codes])
    rw [hn] at hn1
    injection hn1 with hn1
    subst hn1
    cases fuel with
    | zero => omega
    | succ fuel =>
      simp only [get_node, Tree.root_leaf, deref_some hn, Run.ok_bind, hl, hc1, Tree.find]
      by_cases hb : binary = e <;> simp [hb]
  | node p l r ihl ihr =>
    rcases hs with ⟨n, hn, hl, hr, sl, sr⟩
    cases fuel with
    | zero => omega
    | succ fuel =>
      simp only [get_node, Tree.root_node, deref_some hn, Run.ok_bind, hl, hr, Tree.find]
      by_cases hlen : e.length = binary.length
      · simp [hlen]
      · have hcl : ∀ (p : Nat) (c : List Char), (p, c) ∈ l.codes (binary ++ ['1']) →
            ∃ n, H[p]? = some n ∧ n.encoding = c := fun p c h =>
          hc p c (by simp only [Tree.codes, List.mem_append]; exact Or.inr h)
        have hcr : ∀ (p : Nat) (c : List Char), (p, c) ∈ r.codes (binary ++ ['0']) →
            ∃ n, H[p]? = some n ∧ n.encoding = c := fun p c h =>
          hc p c (by simp only [Tree.codes, List.mem_append]; exact Or.inl h)
        have h1 := ihl fuel (binary ++ ['1']) sl hcl (by simp; omega) (by simp; omega)
        have h2 := ihr fuel (binary ++ ['0']) sr hcr (by simp; omega) (by simp; omega)
        simp only [List.length_append, List.length_singleton] at h1 h2
        simp only [ne_eq, hlen, not_false_eq_true, reduceCtorEq, and_self, if_true, h1,
          Run.ok_bind, h2]
        cases l.find (binary ++ ['1']) e with
        | some p1 => simp
        | none =>
          cases r.find (binary ++ ['0']) e <;> simp

/-! ## The decoding loop -/

theorem decode_bits_eq (heap : List HNode) (top : Option Nat) (msg_size : Nat) (cbyte : Byte)
    (count bidx : Nat) (encoding : List Char) (num_chars : Nat) (out : List Byte) :
    decode_bits heap top msg_size cbyte count bidx encoding num_chars out =
      decode_chars heap top msg_size (byte_bits cbyte bidx count) encoding num_chars out := by
  induction count generalizing bidx encoding num_chars out with
  | zero => rfl
  | succ count ih =>
    simp only [decode_bits, byte_bits, decode_chars, bit_char, ih]

theorem decode_chars_append (heap : List HNode) (top : Option Nat) (msg_size : Nat)
    (a b : List Char) (encoding : List Char) (num_chars : Nat) (out : List Byte) :
    decode_chars heap top msg_size (a ++ b) encoding num_chars out =
      (decode_chars heap top msg_size a encoding num_chars out >>= fun r =>
        if r.1 then pure r else decode_chars heap top msg_size b r.2.1 r.2.2.1 r.2.2.2) := by
  induction a generalizing encoding num_chars out with
  | nil => simp [decode_chars]
  | cons x a ih =>
    simp only [List.cons_append, decode_chars]
    cases get_node ((encoding ++ [x]).length + 1) heap top (encoding ++ [x]) 0 with
    | undefined => rfl
    | fuel => rfl
    | ok node =>
      simp only [Run.ok_bind]
      by_cases hnode : node = none
      · simp only [hnode, ne_eq, not_true_eq_false, if_false]
        exact ih _ _ _
      · simp only [hnode, ne_eq, not_false_eq_true, if_true]
        cases deref heap node with
        | undefined => rfl
        | fuel => rfl
        | ok n =>
          simp only [Run.ok_bind]
          by_cases hfin : num_chars + 1 = msg_size
          · simp [hfin]
          · simp only [hfin, if_false]
            exact ih _ _ _

theorem decode_loop_eq (heap : List HNode) (top : Option Nat) (msg_size : Nat)
    (bytes : List Byte) (encoding : List Char) (num_chars : Nat) (out : List Byte) :
    decode_loop heap top msg_size bytes encoding num_chars out =
      (decode_chars heap top msg_size (unpack bytes) encoding num_chars out >>= fun r =>
        pure r.2.2.2) := by
  induction bytes generalizing encoding num_chars out with
  | nil => rfl
  | cons b bytes ih =>
    simp only [decode_loop, unpack, List.flatMap_cons, decode_bits_eq, decode_chars_append]
    cases decode_chars heap top msg_size (byte_bits b 0 8) encoding num_chars out with
    | undefined => rfl
    | fuel => rfl
    | ok r =>
      simp only [Run.ok_bind]
      by_cases hr : r.1 = true
      · simp [hr]
      · simp only [hr, Bool.false_eq_true, if_false]
        exact ih _ _ _

/-- The decoding loop on the characters of one code string, `e` being the part of it
already in `encoding`. -/
theorem decode_chars_word {H : List HNode} {t : Tree} (msg_size : Nat) (hs : Shape H t)
    (hc : ∀ (p : Nat) (c : List Char), (p, c) ∈ t.codes [] →
      ∃ n, H[p]? = some n ∧ n.encoding = c)
    {p : Nat} {n : HNode} (hn : H[p]? = some n) (suf : List Char) (hsuf : suf ≠ [])
    (e : List Char) (hp : (p, e ++ suf) ∈ t.codes []) (rest : List Char)
    (num_chars : Nat) (out : List Byte) :
    decode_chars H (some t.root) msg_size (suf ++ rest) e num_chars out =
      if num_chars + 1 = msg_size then
        .ok (true, e ++ suf, num_chars + 1, out ++ [n.ch])
      else decode_chars H (some t.root) msg_size rest [] (num_chars + 1) (out ++ [n.ch]) := by
  induction suf generalizing e with
  | nil => exact absurd rfl hsuf
  | cons x suf ih =>
    have hg := get_node_shape ((e ++ [x]).length + 1) [] (e ++ [x]) hs hc (Nat.zero_le _)
      (by simp)
    simp only [List.length_nil] at hg
    simp only [List.cons_append, decode_chars, hg, Run.ok_bind]
    have hp' : (p, (e ++ [x]) ++ suf) ∈ t.codes [] := by
      rw [List.append_assoc]; exact hp
    by_cases hnil : suf = []
    · subst hnil
      rw [List.append_nil] at hp'
      rw [Tree.find_of_mem hp']
      simp [deref_some hn]
    · have hnone : t.find [] (e ++ [x]) = none := by
        cases hf : t.find [] (e ++ [x]) with
        | none => rfl
        | some q =>
          have := (Tree.codes_no_prefix (Tree.find_some hf) hp' (List.prefix_append _ _)).2
          have := congrArg List.length this
          simp only [List.length_append] at this
          have : suf.length = 0 := by omega
          exact absurd (List.length_eq_zero.mp this) hnil
      rw [hnone]
      simp only [ne_eq, not_true_eq_false, if_false]
      have := ih hnil (e ++ [x]) hp'
      simp only [List.append_assoc, List.singleton_append] at this ⊢
      exact this

/-- The decoding loop on the code strings of a run of leaves, followed by anything. -/
theorem decode_chars_words {H : List HNode} {t : Tree} (hs : Shape H t)
    (hc : ∀ (p : Nat) (c : List Char), (p, c) ∈ t.codes [] →
      ∃ n, H[p]? = some n ∧ n.encoding = c)
    (hne : ∀ (p : Nat) (c : List Char), (p, c) ∈ t.codes [] → c ≠ [])
    (words : List (Nat × List Char)) (hw : ∀ w ∈ words, w ∈ t.codes []) (hw0 : words ≠ [])
    (rest : List Char) (num_chars : Nat) (out : List Byte) :
    ∃ enc, decode_chars H (some t.root) (num_chars + words.length)
        (words.flatMap Prod.snd ++ rest) [] num_chars out =
      .ok (true, enc, num_chars + words.length,
        out ++ words.map fun w => (node_at H w.1).ch) := by
  induction words generalizing num_chars out with
  | nil => exact absurd rfl hw0
  | cons w words ih =>
    obtain ⟨p, c⟩ := w
    have hpc : (p, c) ∈ t.codes [] := hw _ (List.mem_cons_self _ _)
    obtain ⟨n, hn, _⟩ := hc p c hpc
    have := decode_chars_word (num_chars + (words.length + 1)) hs hc hn c (hne p c hpc) []
      (by simpa using hpc) (words.flatMap Prod.snd ++ rest) num_chars out
    simp only [List.flatMap_cons, List.append_assoc, List.length_cons, List.map_cons,
      node_at_eq hn]
    rw [this]
    by_cases hnil : words = []
    · subst hnil
      exact ⟨c, by simp⟩
    · have hlen : words.length ≠ 0 := fun h => hnil (List.length_eq_zero.mp h)
      have hne1 : ¬ (num_chars + 1 = num_chars + (words.length + 1)) := by omega
      simp only [hne1, if_false]
      obtain ⟨enc, henc⟩ := ih (fun w hw' => hw w (List.mem_cons_of_mem _ hw')) hnil
        (num_chars + 1) (out ++ [n.ch])
      refine ⟨enc, ?_⟩
      rw [show num_chars + (words.length + 1) = num_chars + 1 + words.length by omega, henc]
      simp

/-! ## Bits of the payload -/

theorem land_shift_ne_zero (x j : Nat) : x &&& (1 <<< j) ≠ 0 ↔ x.testBit j = true := by
  rw [Nat.one_shiftLeft]
  constructor
  · intro h
    by_contra hb
    apply h
    apply Nat.eq_of_testBit_eq
    intro i
    rw [Nat.testBit_and, Nat.testBit_two_pow, Nat.zero_testBit]
    by_cases hji : j = i
    · subst hji; simp [hb]
    · simp [hji]
  · intro h h0
    have := Nat.testBit_and x (2 ^ j) j
    rw [h0, Nat.zero_testBit, h, Nat.testBit_two_pow_self] at this
    simp at this

theorem bit_char_eq (b : Byte) (j : Nat) :
    bit_char b j = if b.val.testBit j = true then '1' else '0' := by
  unfold bit_char
  by_cases h : b.val.testBit j = true
  · rw [if_pos ((land_shift_ne_zero _ _).mpr h), if_pos h]
  · rw [if_neg (fun h' => h ((land_shift_ne_zero _ _).mp h')), if_neg h]

theorem length_byte_bits (b : Byte) (bidx count : Nat) :
    (byte_bits b bidx count).length = count := by
  induction count generalizing bidx with
  | zero => rfl
  | succ count ih => simp [byte_bits, ih]

theorem getElem?_byte_bits (b : Byte) (bidx count i : Nat) (h : i < count) :
    (byte_bits b bidx count)[i]? = some (bit_char b (bidx + i)) := by
  induction count generalizing bidx i with
  | zero => omega
  | succ count ih =>
    cases i with
    | zero => simp [byte_bits]
    | succ i =>
      simp only [byte_bits, List.getElem?_cons_succ]
      rw [ih (bidx + 1) i (by omega)]
      congr 2; omega

theorem length_unpack (bytes : List Byte) : (unpack bytes).length = 8 * bytes.length := by
  induction bytes with
  | nil => rfl
  | cons b bytes ih =>
    simp only [unpack, List.flatMap_cons, List.length_append, length_byte_bits,
      List.length_cons] at ih ⊢
    rw [ih]; omega

theorem getElem?_unpack (bytes : List Byte) (i : Nat) (b : Byte) (h : bytes[i / 8]? = some b) :
    (unpack bytes)[i]? = some (bit_char b (i % 8)) := by
  induction bytes generalizing i with
  | nil => simp at h
  | cons a bytes ih =>
    simp only [unpack, List.flatMap_cons]
    by_cases hi : i < 8
    · have h0 : i / 8 = 0 := by omega
      rw [h0] at h
      simp only [List.getElem?_cons_zero, Option.some.injEq] at h
      subst h
      rw [List.getElem?_append_left (by rw [length_byte_bits]; exact hi),
        getElem?_byte_bits _ _ _ _ hi]
      congr 2; omega
    · have h1 : i / 8 = (i - 8) / 8 + 1 := by omega
      rw [h1, List.getElem?_cons_succ] at h
      rw [List.getElem?_append_right (by rw [length_byte_bits]; omega), length_byte_bits]
      have := ih (i - 8) h
      simp only [unpack] at this
      rw [this]
      congr 2; omega

/-- Reading the payload bits back gives the characters that were packed, followed by
the zero bits that fill the last byte. -/
theorem unpack_packed {bits : List Char} {out : List Byte}
    (hbits : ∀ x ∈ bits, x = '0' ∨ x = '1')
    (hlen : out.length = (bits.length + 7) / 8)
    (hout : ∀ i, i < 8 * out.length → ∃ b, out[i / 8]? = some b ∧
      (b.val.testBit (i % 8) = true ↔ bits[i]? = some '1')) :
    unpack out = bits ++ List.replicate (8 * out.length - bits.length) '0' := by
  apply List.ext_getElem?
  intro i
  by_cases hi : i < 8 * out.length
  · obtain ⟨b, hb, hbit⟩ := hout i hi
    rw [getElem?_unpack out i b hb, bit_char_eq]
    by_cases hiB : i < bits.length
    · rw [List.getElem?_append_left hiB]
      have hx := List.getElem?_eq_getElem hiB
      rw [hx] at hbit ⊢
      rcases hbits _ (List.getElem_mem hiB) with h0 | h1
      · rw [h0] at hbit ⊢
        have : ¬ (b.val.testBit (i % 8) = true) := by
          intro h; have := hbit.mp h; simp at this
        rw [if_neg this]
      · rw [h1] at hbit ⊢
        rw [if_pos (hbit.mpr rfl)]
    · rw [List.getElem?_append_right (by omega)]
      have hnone : bits[i]? = none := List.getElem?_eq_none (by omega)
      rw [hnone] at hbit
      have : ¬ (b.val.testBit (i % 8) = true) := by
        intro h; have := hbit.mp h; simp at this
      rw [if_neg this]
      have hr : i - bits.length < (List.replicate (8 * out.length - bits.length) '0').length := by
        rw [List.length_replicate]; omega
      rw [List.getElem?_eq_getElem hr]
      simp
  · rw [List.getElem?_eq_none (by rw [length_unpack]; omega),
      List.getElem?_eq_none (by
        rw [List.length_append, List.length_replicate]; omega)]

/-! ## Consequences of the shape -/

theorem Shape.links {H : List HNode} {t : Tree} (hs : Shape H t) {p : Nat} (hp : p ∈ t.ptrs)
    {e : HNode} (he : H[p]? = some e) {a : Nat} (ha : e.ln = some a) :
    a ∈ t.ptrs ∧ ∃ b, e.rn = some b ∧ b ∈ t.ptrs := by
  induction t with
  | leaf q =>
    rcases hs with ⟨n, hn, hl⟩
    simp only [Tree.ptrs, List.mem_singleton] at hp
    subst hp
    rw [hn] at he; injection he with he; subst he
    rw [hl] at ha; cases ha
  | node q l r ihl ihr =>
    rcases hs with ⟨n, hn, hl, hr, sl, sr⟩
    simp only [Tree.ptrs, List.mem_cons, List.mem_append] at hp ⊢
    by_cases hpq : p = q
    · subst hpq
      rw [hn] at he; injection he with he; subst he
      rw [hl] at ha; injection ha with ha; subst ha
      exact ⟨Or.inr (Or.inl l.root_mem_ptrs), r.root, hr, Or.inr (Or.inr r.root_mem_ptrs)⟩
    · rcases hp with hp | hp | hp
      · exact absurd hp hpq
      · obtain ⟨h1, b, h2, h3⟩ := ihl sl hp
        exact ⟨Or.inr (Or.inl h1), b, h2, Or.inr (Or.inl h3)⟩
      · obtain ⟨h1, b, h2, h3⟩ := ihr sr hp
        exact ⟨Or.inr (Or.inr h1), b, h2, Or.inr (Or.inr h3)⟩

theorem Shape.mem_leaves {H : List HNode} {t : Tree} (hs : Shape H t) {p : Nat}
    (hp : p ∈ t.ptrs) {e : HNode} (he : H[p]? = some e) (hl : e.ln = none) :
    p ∈ t.leaves := by
  induction t with
  | leaf q => simpa [Tree.ptrs, Tree.leaves] using hp
  | node q l r ihl ihr =>
    rcases hs with ⟨n, hn, hln, hr, sl, sr⟩
    simp only [Tree.ptrs, List.mem_cons, List.mem_append] at hp
    simp only [Tree.leaves, List.mem_append]
    by_cases hpq : p = q
    · subst hpq
      rw [hn] at he; injection he with he; subst he
      rw [hln] at hl; cases hl
    · rcases hp with hp | hp | hp
      · exact absurd hp hpq
      · exact Or.inl (ihl sl hp)
      · exact Or.inr (ihr sr hp)

theorem Tree.codes_ne_nil {p : Nat} {l r : Tree} {q : Nat} {c : List Char}
    (h : (q, c) ∈ (Tree.node p l r).codes []) : c ≠ [] := by
  simp only [Tree.codes, List.mem_append, List.nil_append] at h
  intro hc
  subst hc
  rcases h with h | h
  · have := (Tree.codes_prefix h).length_le
    simp at this
  · have := (Tree.codes_prefix h).length_le
    simp at this

/-! ## Consequences of the encoder's invariant -/

theorem BuiltInv.nodup {msg : List Byte} {b : Built} {t : Tree} (h : BuiltInv msg b t) :
    t.ptrs.Nodup :=
  h.cover.nodup_iff.mpr (List.nodup_range _)

theorem BuiltInv.mem_ptrs {msg : List Byte} {b : Built} {t : Tree} (h : BuiltInv msg b t)
    {p : Nat} : p ∈ t.ptrs ↔ p < b.mem.heap.length := by
  rw [h.cover.mem_iff, List.mem_range]

theorem BuiltInv.length_ptrs {msg : List Byte} {b : Built} {t : Tree} (h : BuiltInv msg b t) :
    t.ptrs.length = b.mem.heap.length := by
  simpa using h.cover.length_eq

theorem BuiltInv.linked {msg : List Byte} {b : Built} {t : Tree} (h : BuiltInv msg b t) :
    Linked b.mem.heap := by
  intro p e he
  refine ⟨(h.recs p e he).1, ?_⟩
  intro a ha
  have hp : p ∈ t.ptrs := h.mem_ptrs.mpr (List.getElem?_eq_some.mp he).1
  obtain ⟨h1, c, h2, h3⟩ := h.shape.links hp he ha
  exact ⟨h.mem_ptrs.mp h1, c, h2, h.mem_ptrs.mp h3⟩

/-- Every byte of the message has a leaf, reached through `freqs`, that carries the
byte and its code string. -/
theorem BuiltInv.symbol {msg : List Byte} {b : Built} {t : Tree} (h : BuiltInv msg b t)
    {ch : Byte} (hch : ch ∈ msg) :
    ∃ p c e, b.freqs.lookup ch = some p ∧ (p, c) ∈ t.codes [] ∧
      b.mem.heap[p]? = some e ∧ e.ch = ch ∧ e.encoding = c := by
  have hk : ch ∈ b.freqs.map Prod.fst := (h.mem_keys ch).mpr hch
  obtain ⟨⟨ch', p⟩, hmem, hfst⟩ := List.mem_map.mp hk
  simp only at hfst
  subst hfst
  have hlook := lookup_of_mem h.keys hmem
  obtain ⟨i, hi⟩ := List.mem_iff_getElem?.mp hmem
  have hip : i = p := by
    have h1 : (b.freqs.map Prod.snd)[i]? = some p := by
      rw [List.getElem?_map, hi]; rfl
    rw [h.ptrs] at h1
    have hlt : i < msg.toFinset.card := by
      by_contra hge
      rw [List.getElem?_eq_none (by simpa using Nat.le_of_not_lt hge)] at h1
      cases h1
    rw [List.getElem?_range hlt] at h1
    injection h1
  subst hip
  have hik : i < msg.toFinset.card := by
    have : i < b.freqs.length := (List.getElem?_eq_some.mp hi).1
    have e := congrArg List.length h.ptrs
    simp only [List.length_map, List.length_range] at e
    omega
  have hlt : i < b.mem.heap.length := by
    have := h.size; omega
  have he := List.getElem?_eq_getElem hlt
  obtain ⟨_, hleaf, _, hfr⟩ := h.recs i _ he
  have hch' : (b.mem.heap[i]).ch = ch' := by
    have := hfr hik
    rw [hi] at this
    injection this with this
    injection this with this
    exact this.symm
  have hl : i ∈ t.leaves := h.shape.mem_leaves (h.mem_ptrs.mpr hlt) he (hleaf.mpr hik)
  have : i ∈ (t.codes []).map Prod.fst := (t.codes_fst_perm []).mem_iff.mpr hl
  obtain ⟨⟨q, c⟩, hqc, hq⟩ := List.mem_map.mp this
  simp only at hq
  subst hq
  obtain ⟨n, hn, hnc⟩ := h.codes q c hqc
  rw [he] at hn
  injection hn with hn
  refine ⟨q, c, _, hlook, hqc, he, hch', ?_⟩
  rw [hn]; exact hnc

theorem BuiltInv.deref_ok {msg : List Byte} {b : Built} {t : Tree} (h : BuiltInv msg b t) :
    ∀ ch ∈ msg, ∃ n, deref b.mem.heap (b.freqs.lookup ch) = .ok n := by
  intro ch hch
  obtain ⟨p, c, e, h1, _, h3, _⟩ := h.symbol hch
  exact ⟨e, by rw [h1]; exact deref_some h3⟩

theorem BuiltInv.code_of_mem {msg : List Byte} {b : Built} {t : Tree} (h : BuiltInv msg b t)
    {ch : Byte} (hch : ch ∈ msg) :
    ∃ p e, ((p, code_of b.mem.heap b.freqs ch) ∈ t.codes []) ∧
      b.mem.heap[p]? = some e ∧ e.ch = ch := by
  obtain ⟨p, c, e, h1, h2, h3, h4, h5⟩ := h.symbol hch
  refine ⟨p, e, ?_, h3, h4⟩
  simp only [Huffman.code_of, h1, deref_some h3, h5]
  exact h2

/-! ## The output of the encoder -/

/-- For a message that is not empty the encoder returns: header, node count, the
records in pre-order, the payload. -/
theorem huffman_encode_spec (tie : List HNode → List Nat → Nat) (num_nodes : Nat)
    {msg : List Byte} (hmsg : msg ≠ []) :
    ∃ b t payload, build tie { num_nodes := 0, heap := [] } msg = .ok b ∧ BuiltInv msg b t ∧
      write_encoding b.mem.heap b.freqs msg = .ok payload ∧
      huffman_encode tie num_nodes msg =
        .ok (decimal msg.length ++ 32 :: toByte b.mem.num_nodes ::
          (t.ptrs.flatMap (record b.mem.heap) ++ payload)) := by
  obtain ⟨b, t, hb, hI⟩ := build_spec tie hmsg
  obtain ⟨payload, hp, _⟩ := write_encoding_spec b.mem.heap b.freqs msg hI.deref_ok
  refine ⟨b, t, payload, hb, hI, hp, ?_⟩
  have hd : t.depth ≤ b.mem.heap.length := by
    rw [← hI.length_ptrs]; exact t.depth_le
  have hw := write_tree_shape b.mem.heap.length hI.shape hd
  rw [← hI.top] at hw
  simp only [huffman_encode, hmsg, if_false, hb, Run.ok_bind, write_table, hw, hp, Run.pure_eq]
  simp

/-! ## The decoder on the output of the encoder -/

theorem loaded_fresh {e : HNode} {q : Nat} (hid : e.id = q + 1)
    (hl : e.ln = none ↔ e.rn = none) : loaded e (fresh (q + 1)) = strip e := by
  obtain ⟨id, value, ln, rn, encoding, ch⟩ := e
  simp only at hid hl
  subst hid
  cases ln with
  | none =>
    have : rn = none := hl.mp rfl
    subst this
    simp [loaded, fresh, strip]
  | some a => simp [loaded, fresh, strip]

/-- The table loop of the decoder rebuilds the records of the encoder, without the
weights and the code strings. -/
theorem read_table_built {msg : List Byte} {b : Built} {t : Tree} (h : BuiltInv msg b t)
    (hN : b.mem.heap.length ≤ 255) (s : List Byte) :
    read_table ((List.range b.mem.heap.length).map fun i => (i + 1, i)) b.mem.heap.length 0
        ((List.range b.mem.heap.length).map fun i => fresh (i + 1)) none
        (t.ptrs.flatMap (record b.mem.heap) ++ s) =
      .ok (b.mem.heap.map strip, some t.root, s) := by
  have hrec := read_table_records h.linked rfl hN t.ptrs (fun p hp => h.mem_ptrs.mp hp) 0 0
    ((List.range b.mem.heap.length).map fun i => fresh (i + 1)) (by simp) none s
  rw [h.length_ptrs, Nat.add_zero] at hrec
  rw [hrec]
  have htop : (if 0 = 0 ∧ t.ptrs ≠ [] then t.ptrs.head? else none) = some t.root := by
    cases t <;> simp [Tree.ptrs]
  rw [htop]
  simp only [read_table]
  congr 2
  apply List.ext_getElem?
  intro q
  rw [getElem?_foldl_load_one _ _ _ _ h.nodup, List.getElem?_map, List.getElem?_map]
  by_cases hq : q < b.mem.heap.length
  · have he := List.getElem?_eq_getElem hq
    obtain ⟨hid, _, hlr, _⟩ := h.recs q _ he
    rw [if_pos (h.mem_ptrs.mpr hq), List.getElem?_range hq, he]
    simp only [Option.map_some']
    rw [node_at_eq he, loaded_fresh hid hlr]
  · rw [if_neg (fun hm => hq (h.mem_ptrs.mp hm)),
      List.getElem?_eq_none (by simpa using Nat.le_of_not_lt hq),
      List.getElem?_eq_none (Nat.le_of_not_lt hq)]
    rfl

theorem getElem?_map_strip (E : List HNode) (p : Nat) :
    (E.map strip)[p]? = (E[p]?).map strip := List.getElem?_map _ _ _

theorem Shape.of_strip {E : List HNode} {t : Tree} (hs : Shape E t) : Shape (E.map strip) t := by
  refine Shape.congr ?_ hs
  intro p n hn
  exact ⟨Huffman.strip n, by rw [getElem?_map_strip, hn]; rfl, rfl, rfl⟩

/-- Running `huffman_decode` on the output of `huffman_encode` gives back the message,
when the tree has at most 255 records and at least two leaves. -/
theorem decode_encode (tie : List HNode → List Nat → Nat) (g1 g2 fuel : Nat) {msg : List Byte}
    (h2 : 2 ≤ msg.toFinset.card) (h128 : msg.toFinset.card ≤ 128)
    (hsize : msg.length ≤ SIZE_MAX) (hfuel : 255 ≤ fuel) :
    ∃ out, huffman_encode tie g1 msg = .ok out ∧ huffman_decode g2 fuel out = .ok msg := by
  have hmsg : msg ≠ [] := by
    intro h; subst h; simp at h2
  obtain ⟨b, t, payload, _, hI, hp, henc⟩ := huffman_encode_spec tie g1 hmsg
  refine ⟨_, henc, ?_⟩
  have hsz := hI.size
  have hN : b.mem.heap.length ≤ 255 := by omega
  have hcount := hI.count
  -- the header
  have hread := read_size_decimal msg.length
    (toByte b.mem.num_nodes :: (t.ptrs.flatMap (record b.mem.heap) ++ payload)) hsize
  have hnum : (toByte b.mem.num_nodes).val = b.mem.heap.length := by
    rw [hcount]; exact toByte_val (by omega)
  have hcreate := create_nodes_spec b.mem.heap.length 0
  simp only [List.range_zero, List.map_nil, Nat.zero_add] at hcreate
  -- the table
  have htable := read_table_built hI hN payload
  -- the code strings
  have hd : t.depth ≤ fuel := by
    have := t.depth_le
    rw [hI.length_ptrs] at this
    omega
  have hce := create_encodings_shape fuel [] hI.shape.of_strip hd
  -- the payload
  obtain ⟨payload', hp', hplen, hpbits⟩ :=
    write_encoding_spec b.mem.heap b.freqs msg hI.deref_ok
  rw [hp] at hp'
  injection hp' with hp'
  subst hp'
  have hshape : Shape (assign_codes (t.codes []) (b.mem.heap.map strip)) t :=
    hI.shape.of_strip.of_assign_codes _
  have hcodes : ∀ (p : Nat) (c : List Char), (p, c) ∈ t.codes [] →
      ∃ n, (assign_codes (t.codes []) (b.mem.heap.map strip))[p]? = some n ∧
        n.encoding = c := by
    intro p c hpc
    obtain ⟨n, hn, _⟩ := hI.codes p c hpc
    refine ⟨{ strip n with encoding := code_after (t.codes []) p (strip n).encoding }, ?_,
      code_after_mem _ (t.codes_fst_nodup hI.nodup []) hpc⟩
    rw [getElem?_assign_codes, getElem?_map_strip, hn]
    rfl
  have hnode : ∀ (p : Nat) (c : List Char), (p, c) ∈ t.codes [] → c ≠ [] := by
    have hlen := hI.length_ptrs
    cases t with
    | leaf p => simp only [Tree.ptrs, List.length_singleton] at hlen; omega
    | node p l r => intro q c hqc; exact Tree.codes_ne_nil hqc
  have hchars : ∀ x ∈ msg.flatMap (code_of b.mem.heap b.freqs), x = '0' ∨ x = '1' := by
    intro x hx
    obtain ⟨ch, hch, hx⟩ := List.mem_flatMap.mp hx
    obtain ⟨p, e, hpc, _, _⟩ := hI.code_of_mem hch
    rcases Tree.codes_chars hpc x hx with h | h
    · simp at h
    · exact h
  have hunpack := unpack_packed hchars hplen hpbits
  -- the message as a run of leaves
  have hwords : ∃ words : List (Nat × List Char), (∀ w ∈ words, w ∈ t.codes []) ∧
      words.flatMap Prod.snd = msg.flatMap (code_of b.mem.heap b.freqs) ∧
      words.length = msg.length ∧
      words.map (fun w => (node_at (assign_codes (t.codes []) (b.mem.heap.map strip)) w.1).ch)
        = msg := by
    have : ∀ l : List Byte, (∀ ch ∈ l, ch ∈ msg) →
        ∃ words : List (Nat × List Char), (∀ w ∈ words, w ∈ t.codes []) ∧
          words.flatMap Prod.snd = l.flatMap (code_of b.mem.heap b.freqs) ∧
          words.length = l.length ∧
          words.map (fun w =>
            (node_at (assign_codes (t.codes []) (b.mem.heap.map strip)) w.1).ch) = l := by
      intro l
      induction l with
      | nil => intro _; exact ⟨[], by simp, rfl, rfl, rfl⟩
      | cons ch l ih =>
        intro hl
        obtain ⟨words, hw1, hw2, hw3, hw4⟩ := ih (fun c hc => hl c (List.mem_cons_of_mem _ hc))
        obtain ⟨p, e, hpc, he, hech⟩ := hI.code_of_mem (hl ch (List.mem_cons_self _ _))
        refine ⟨(p, code_of b.mem.heap b.freqs ch) :: words, ?_, ?_, ?_, ?_⟩
        · intro w hw
          rcases List.mem_cons.mp hw with hw | hw
          · rw [hw]; exact hpc
          · exact hw1 w hw
        · simp [List.flatMap_cons, hw2]
        · simp [hw3]
        · simp only [List.map_cons, hw4]
          congr 1
          simp [node_at, getElem?_assign_codes, getElem?_map_strip, he, strip, hech]
    exact this msg (fun _ h => h)
  obtain ⟨words, hw1, hw2, hw3, hw4⟩ := hwords
  have hw0 : words ≠ [] := by
    intro h; rw [h] at hw3
    exact hmsg (List.length_eq_zero.mp hw3.symm)
  obtain ⟨enc, hdec⟩ := decode_chars_words hshape hcodes hnode words hw1 hw0
    (List.replicate (8 * payload.length -
      (msg.flatMap (code_of b.mem.heap b.freqs)).length) '0') 0 []
  rw [hw2, ← hunpack, hw3, hw4, Nat.zero_add, List.nil_append] at hdec
  simp only [huffman_decode, hread, List.tail_cons, read_8bit_number, Run.ok_bind, hnum,
    hcreate, htable, hce, decode_loop_eq, hdec, Run.pure_eq]

/-! ## Messages made of one byte value -/

theorem calculate_frequences_loop_replicate (c : Byte) (n v : Nat) :
    calculate_frequences_loop (List.replicate n c) [(c, 0)]
        { num_nodes := 1, heap := [{ id := 1, value := v, ln := none, rn := none,
                                     encoding := [], ch := c }] } =
      ([(c, 0)], { num_nodes := 1, heap := [{ id := 1, value := v + n, ln := none, rn := none,
                                              encoding := [], ch := c }] }) := by
  induction n generalizing v with
  | zero => rfl
  | succ n ih =>
    simp only [List.replicate_succ, calculate_frequences_loop, List.lookup_cons, beq_self_eq_true,
      incr_value, store]
    simp only [List.getElem?_cons_zero, List.set_cons_zero]
    rw [ih (v + 1)]
    simp only [Prod.mk.injEq, Mem.mk.injEq, List.cons.injEq, HNode.mk.injEq, and_true, true_and]
    omega

/-- The encoder on `n + 1` copies of one byte: one leaf, a table of one record and no
payload. -/
theorem huffman_encode_replicate (tie : List HNode → List Nat → Nat) (g : Nat) (c : Byte)
    (n : Nat) :
    huffman_encode tie g (List.replicate (n + 1) c) =
      .ok (decimal (n + 1) ++ [32, 1, 1, c, 0, 0]) := by
  have hne : List.replicate (n + 1) c ≠ [] := by simp
  have hfreq : calculate_frequences { num_nodes := 0, heap := [] } (List.replicate (n + 1) c) =
      ([(c, 0)], { num_nodes := 1, heap := [{ id := 1, value := 1 + n, ln := none, rn := none,
                                              encoding := [], ch := c }] }) := by
    simp only [calculate_frequences, List.replicate_succ, calculate_frequences_loop,
      List.lookup_nil, create_node, List.nil_append, List.length_nil]
    exact calculate_frequences_loop_replicate c n 1
  have hbuild : build tie { num_nodes := 0, heap := [] } (List.replicate (n + 1) c) =
      .ok { mem := { num_nodes := 1, heap := [{ id := 1, value := 1 + n, ln := none, rn := none,
                                                encoding := [], ch := c }] },
            freqs := [(c, 0)], node_queue := [0], top := 0 } := by
    simp only [build, hfreq, List.map_cons, List.map_nil, List.length_singleton, merge_loop,
      if_true, Run.ok_bind, pq_top_singleton, create_encodings, deref, List.getElem?_cons_zero,
      ne_eq, not_true_eq_false, if_false, Run.pure_eq, store, List.set_cons_zero]
  have hcode : ∀ ch ∈ List.replicate (n + 1) c,
      ∃ e, deref [{ id := 1, value := 1 + n, ln := none, rn := none, encoding := [],
                    ch := c }] (List.lookup ch [(c, 0)]) = .ok e := by
    intro ch hch
    rw [List.eq_of_mem_replicate hch]
    exact ⟨{ id := 1, value := 1 + n, ln := none, rn := none, encoding := [], ch := c },
      by simp [deref, List.lookup_cons]⟩
  have hbits : (List.replicate (n + 1) c).flatMap
      (code_of [{ id := 1, value := 1 + n, ln := none, rn := none, encoding := [], ch := c }]
        [(c, 0)]) = [] := by
    rw [List.flatMap_eq_nil_iff]
    intro ch hch
    rw [List.eq_of_mem_replicate hch]
    simp [code_of, deref, List.lookup_cons]
  simp only [huffman_encode, hne, if_false, hbuild, Run.ok_bind, write_table, write_tree, deref,
    List.length_singleton, List.getElem?_cons_zero, ne_eq, not_true_eq_false, Run.pure_eq,
    write_encoding, write_encoding_loop_eq _ _ _ _ _ _ hcode, hbits, write_encoding_bits]
  simp [toByte]

/-- The decoder on a table of one leaf record: no byte is written, whatever the count
in the header and whatever follows the table. -/
theorem huffman_decode_one_leaf (g fuel n : Nat) (c : Byte) (hn : n ≤ SIZE_MAX) :
    huffman_decode g (fuel + 1) (decimal n ++ [32, 1, 1, c, 0, 0]) = .ok [] := by
  have hread := read_size_decimal n [1, 1, c, 0, 0] hn
  have e : decimal n ++ [32, 1, 1, c, 0, 0] = decimal n ++ 32 :: [1, 1, c, 0, 0] := rfl
  rw [e]
  simp only [huffman_decode, hread, List.tail_cons, read_8bit_number, Run.ok_bind]
  simp [create_nodes, create_node, read_table, read_8bit_number, List.lookup_cons, deref,
    store, create_encodings, decode_loop]

/-! ## The decoder on any input -/

theorem huffman_decode_eq (g fuel : Nat) (input : List Byte) :
    huffman_decode g fuel input =
      match decode_front fuel input with
      | none => .ok []
      | some r => r >>= fun x => decode_loop x.2.1 x.2.2.1 x.1 x.2.2.2 [] 0 [] := by
  unfold huffman_decode decode_front
  cases read_size input with
  | none => rfl
  | some x =>
    obtain ⟨msg_size, s⟩ := x
    simp only
    cases read_8bit_number s.tail with
    | undefined => rfl
    | fuel => rfl
    | ok r =>
      simp only [Run.ok_bind]
      cases read_table (create_nodes r.1 { num_nodes := 0, heap := [] } []).2 r.1 0
          (create_nodes r.1 { num_nodes := 0, heap := [] } []).1.heap none r.2 with
      | undefined => rfl
      | fuel => rfl
      | ok t =>
        simp only [Run.ok_bind]
        cases create_encodings fuel t.1 t.2.1 [] with
        | undefined => rfl
        | fuel => rfl
        | ok heap => rfl

/-- When the characters hold fewer symbols than the count asks for, the decoding loop
runs to the end of the characters and has written the symbols it found. -/
theorem decode_chars_short (heap : List HNode) (top : Option Nat) (msg_size : Nat)
    (bits encoding : List Char) (num_chars : Nat) (out syms : List Byte)
    (hs : symbols_in heap top bits encoding = .ok syms)
    (hlt : num_chars + syms.length < msg_size) :
    ∃ enc, decode_chars heap top msg_size bits encoding num_chars out =
      .ok (false, enc, num_chars + syms.length, out ++ syms) := by
  induction bits generalizing encoding num_chars out syms with
  | nil =>
    simp only [symbols_in] at hs
    injection hs with hs
    subst hs
    exact ⟨encoding, by simp [decode_chars]⟩
  | cons x bits ih =>
    simp only [symbols_in] at hs
    simp only [decode_chars]
    cases hg : get_node ((encoding ++ [x]).length + 1) heap top (encoding ++ [x]) 0 with
    | undefined => rw [hg] at hs; cases hs
    | fuel => rw [hg] at hs; cases hs
    | ok node =>
      rw [hg] at hs
      simp only [Run.ok_bind] at hs ⊢
      by_cases hnode : node = none
      · simp only [hnode, ne_eq, not_true_eq_false, if_false] at hs ⊢
        exact ih _ _ _ _ hs hlt
      · simp only [hnode, ne_eq, not_false_eq_true, if_true] at hs ⊢
        cases hd : deref heap node with
        | undefined => rw [hd] at hs; cases hs
        | fuel => rw [hd] at hs; cases hs
        | ok n =>
          rw [hd] at hs
          simp only [Run.ok_bind] at hs ⊢
          cases hr : symbols_in heap top bits [] with
          | undefined => rw [hr] at hs; cases hs
          | fuel => rw [hr] at hs; cases hs
          | ok rest =>
            rw [hr] at hs
            simp only [Run.ok_bind, Run.pure_eq] at hs
            injection hs with hs
            subst hs
            simp only [List.length_cons] at hlt
            have hne : ¬ (num_chars + 1 = msg_size) := by omega
            simp only [hne, if_false]
            obtain ⟨enc, henc⟩ := ih [] (num_chars + 1) (out ++ [n.ch]) rest hr (by omega)
            refine ⟨enc, ?_⟩
            rw [henc]
            simp only [List.length_cons, List.append_assoc, List.singleton_append]
            congr 4
            omega

/-! ## Leaves and inner records of the encoder's heap -/

theorem BuiltInv.leaf_count {msg : List Byte} {b : Built} {t : Tree} (h : BuiltInv msg b t)
    (hk : 1 ≤ msg.toFinset.card) :
    (b.mem.heap.filter fun n => decide (n.ln = none)).length = msg.toFinset.card ∧
    (b.mem.heap.filter fun n => decide (n.ln ≠ none)).length = msg.toFinset.card - 1 := by
  have hsz := h.size
  have hsplit := List.take_append_drop msg.toFinset.card b.mem.heap
  have htake : ∀ n ∈ b.mem.heap.take msg.toFinset.card, n.ln = none := by
    intro n hn
    obtain ⟨i, hi, hin⟩ := List.mem_take_iff_getElem.mp hn
    have hik : i < msg.toFinset.card := by omega
    have hil : i < b.mem.heap.length := by omega
    have := h.recs i n (by rw [List.getElem?_eq_getElem hil, hin])
    exact this.2.1.mpr hik
  have hdrop : ∀ n ∈ b.mem.heap.drop msg.toFinset.card, n.ln ≠ none := by
    intro n hn
    obtain ⟨i, hi, hin⟩ := List.mem_drop_iff_getElem.mp hn
    have := h.recs (msg.toFinset.card + i) n (by
      rw [List.getElem?_eq_getElem (by omega), hin])
    intro hl
    have := this.2.1.mp hl
    omega
  constructor
  · rw [← hsplit, List.filter_append]
    rw [List.filter_eq_self.mpr (fun n hn => by simpa using htake n hn),
      List.filter_eq_nil_iff.mpr (fun n hn => by simpa using hdrop n hn)]
    simp; omega
  · rw [← hsplit, List.filter_append]
    rw [List.filter_eq_nil_iff.mpr (fun n hn => by simpa using htake n hn),
      List.filter_eq_self.mpr (fun n hn => by simpa using hdrop n hn)]
    simp; omega

/-! ## What a successful `create_encodings` says about the records -/

theorem Shape.of_assigned {heap : List HNode} {t : Tree} {cs : List (Nat × List Char)}
    (hs : Shape (assign_codes cs heap) t) : Shape heap t := by
  refine Shape.congr ?_ hs
  intro p n hn
  rw [getElem?_assign_codes] at hn
  cases h0 : heap[p]? with
  | none => rw [h0] at hn; cases hn
  | some n0 =>
    rw [h0] at hn
    simp only [Option.map_some', Option.some.injEq] at hn
    subst hn
    exact ⟨n0, rfl, rfl, rfl⟩

/-- When `create_encodings` returns, the records it went through are linked as a tree
(a record reached twice counts twice), and what it did is the assignments of that tree. -/
theorem create_encodings_returns {fuel : Nat} {heap heap1 : List HNode} {node : Option Nat}
    {binary : List Char} (h : create_encodings fuel heap node binary = .ok heap1) :
    ∃ t, node = some t.root ∧ Shape heap t ∧ heap1 = assign_codes (t.codes binary) heap := by
  induction fuel generalizing heap heap1 node binary with
  | zero => simp [create_encodings] at h
  | succ fuel ih =>
    simp only [create_encodings] at h
    obtain ⟨n, hn, h⟩ := Run.bind_eq_ok.mp h
    obtain ⟨p, hp, hnp⟩ := deref_eq_ok hn
    subst hp
    by_cases hl : n.ln = none
    · simp only [hl, ne_eq, not_true_eq_false, if_false, Run.pure_eq] at h
      injection h with h
      refine ⟨Tree.leaf p, rfl, ⟨n, hnp, hl⟩, ?_⟩
      rw [← h]
      simp [Tree.codes, assign_codes, set_encoding, hnp, store, hl]
    · simp only [hl, ne_eq, not_false_eq_true, if_true] at h
      obtain ⟨heap0, h0, h⟩ := Run.bind_eq_ok.mp h
      obtain ⟨tr, hr, sr, er⟩ := ih h0
      obtain ⟨tl, hln, sl, el⟩ := ih h
      subst er
      refine ⟨Tree.node p tl tr, rfl, ⟨n, hnp, hln, hr, sl.of_assigned, sr⟩, ?_⟩
      rw [el, Tree.codes, assign_codes_append]

/-- On records linked as a tree `get_node` returns, and the pointer it returns, if any,
is the pointer of a record. -/
theorem get_node_returns {H : List HNode} {t : Tree} (hs : Shape H t) (fuel : Nat)
    (e : List Char) (depth : Nat) (hle : depth ≤ e.length) (hf : e.length - depth < fuel) :
    ∃ r, get_node fuel H (some t.root) e depth = .ok r ∧
      ∀ p, r = some p → ∃ n, H[p]? = some n := by
  induction t generalizing fuel depth with
  | leaf p =>
    rcases hs with ⟨n, hn, hl⟩
    cases fuel with
    | zero => omega
    | succ fuel =>
      simp only [get_node, Tree.root_leaf, deref_some hn, Run.ok_bind, hl]
      by_cases hb : n.encoding = e
      · refine ⟨some p, by simp [hb], ?_⟩
        intro q hq; injection hq with hq; subst hq; exact ⟨n, hn⟩
      · exact ⟨none, by simp [hb], by intro q hq; cases hq⟩
  | node p l r ihl ihr =>
    rcases hs with ⟨n, hn, hl, hr, sl, sr⟩
    cases fuel with
    | zero => omega
    | succ fuel =>
      simp only [get_node, Tree.root_node, deref_some hn, Run.ok_bind, hl, hr]
      by_cases hlen : e.length = depth
      · exact ⟨none, by simp [hlen], by intro q hq; cases hq⟩
      · obtain ⟨r1, h1, p1⟩ := ihl sl fuel (depth + 1) (by omega) (by omega)
        obtain ⟨r2, h2, p2⟩ := ihr sr fuel (depth + 1) (by omega) (by omega)
        simp only [ne_eq, hlen, not_false_eq_true, reduceCtorEq, and_self, if_true, h1,
          Run.ok_bind, h2]
        cases r1 with
        | some q => exact ⟨some q, by simp, p1⟩
        | none =>
          cases r2 with
          | some q => exact ⟨some q, by simp, p2⟩
          | none => exact ⟨none, by simp, by intro q hq; cases hq⟩

/-- On records linked as a tree the symbols held by a run of characters are defined. -/
theorem symbols_in_returns {H : List HNode} {t : Tree} (hs : Shape H t) (bits : List Char)
    (encoding : List Char) : ∃ syms, symbols_in H (some t.root) bits encoding = .ok syms := by
  induction bits generalizing encoding with
  | nil => exact ⟨[], rfl⟩
  | cons x bits ih =>
    obtain ⟨r, hr, hp⟩ := get_node_returns hs ((encoding ++ [x]).length + 1) (encoding ++ [x]) 0
      (Nat.zero_le _) (by omega)
    simp only [symbols_in, hr, Run.ok_bind]
    cases r with
    | none => simpa using ih (encoding ++ [x])
    | some p =>
      obtain ⟨n, hn⟩ := hp p rfl
      obtain ⟨rest, hrest⟩ := ih []
      exact ⟨n.ch :: rest, by simp [deref_some hn, hrest]⟩

/-- When the part of `huffman_decode` before the decoding loop goes through, the
records are linked as a tree below the top. -/
theorem decode_front_shape {fuel : Nat} {input : List Byte} {msg_size : Nat}
    {heap : List HNode} {top : Option Nat} {payload : List Byte}
    (h : decode_front fuel input = some (.ok (msg_size, heap, top, payload))) :
    ∃ t, top = some t.root ∧ Shape heap t := by
  unfold decode_front at h
  cases hr : read_size input with
  | none => rw [hr] at h; cases h
  | some x =>
    obtain ⟨m, s⟩ := x
    rw [hr] at h
    simp only [Option.some.injEq] at h
    obtain ⟨r, _, h⟩ := Run.bind_eq_ok.mp h
    obtain ⟨tb, _, h⟩ := Run.bind_eq_ok.mp h
    obtain ⟨hp, hce, h⟩ := Run.bind_eq_ok.mp h
    simp only [Run.pure_eq, Run.ok.injEq, Prod.mk.injEq] at h
    obtain ⟨_, h1, h2, _⟩ := h
    obtain ⟨t, ht, hs, he⟩ := create_encodings_returns hce
    refine ⟨t, by rw [← h2]; exact ht, ?_⟩
    rw [← h1, he]
    exact hs.of_assign_codes _

/-! ## `get_node` as a walk -/

theorem Tree.find_none_of_not_prefix {t : Tree} {binary e : List Char}
    (h : ¬ binary <+: e) : t.find binary e = none := by
  cases hf : t.find binary e with
  | none => rfl
  | some p => exact absurd (Tree.codes_prefix (Tree.find_some hf)) h

theorem not_prefix_branch (binary e : List Char) {x c : Char} (hxc : x ≠ c) :
    ¬ binary ++ [x] <+: binary ++ c :: e := by
  intro h
  rw [List.prefix_append_right_inj] at h
  simp only [List.singleton_append, List.cons_prefix_cons] at h
  exact hxc h.1

/-- The search of `get_node` below a record is the walk along the rest of the string. -/
theorem Tree.find_eq_walk {H : List HNode} {t : Tree} (hs : Shape H t) (binary e : List Char) :
    t.find binary (binary ++ e) = walk H (some t.root) e := by
  induction t generalizing binary e with
  | leaf p =>
    rcases hs with ⟨n, hn, hl⟩
    cases e with
    | nil => simp [Tree.find, walk, deref_some hn, hl]
    | cons c e =>
      have : ¬ binary = binary ++ c :: e := by
        intro h
        have := congrArg List.length h
        simp at this
      simp [Tree.find, walk, deref_some hn, hl, this]
  | node p l r ihl ihr =>
    rcases hs with ⟨n, hn, hl, hr, sl, sr⟩
    cases e with
    | nil => simp [Tree.find, walk, deref_some hn, hl]
    | cons c e =>
      have hlen : (binary ++ c :: e).length ≠ binary.length := by simp
      simp only [Tree.find, hlen, ne_eq, not_false_eq_true, if_true, walk, Tree.root_node,
        deref_some hn, hl, hr, reduceCtorEq, if_false]
      by_cases h0 : c = '0'
      · subst h0
        rw [Tree.find_none_of_not_prefix (not_prefix_branch binary e (by decide))]
        have := ihr sr (binary ++ ['0']) e
        simp only [List.append_assoc, List.singleton_append] at this
        simp [this]
      · by_cases h1 : c = '1'
        · subst h1
          have hr0 := Tree.find_none_of_not_prefix (t := r)
            (not_prefix_branch binary e (x := '0') (c := '1') (by decide))
          have := ihl sl (binary ++ ['1']) e
          simp only [List.append_assoc, List.singleton_append] at this
          simp only [this, hr0, h0, if_false, if_true]
          cases walk H (some l.root) e <;> rfl
        · rw [Tree.find_none_of_not_prefix (not_prefix_branch binary e (Ne.symm h1)),
            Tree.find_none_of_not_prefix (not_prefix_branch binary e (Ne.symm h0))]
          simp [h0, h1]

theorem Shape.unique {H : List HNode} {t t1 : Tree} (hs : Shape H t) (hs1 : Shape H t1)
    (hr : t.root = t1.root) : t = t1 := by
  induction t generalizing t1 with
  | leaf p =>
    rcases hs with ⟨n, hn, hl⟩
    cases t1 with
    | leaf q => simp only [Tree.root_leaf] at hr; rw [hr]
    | node q l r =>
      rcases hs1 with ⟨n1, hn1, hl1, _⟩
      simp only [Tree.root_leaf, Tree.root_node] at hr
      subst hr
      rw [hn] at hn1; injection hn1 with hn1; subst hn1
      rw [hl] at hl1; cases hl1
  | node p l r ihl ihr =>
    rcases hs with ⟨n, hn, hl, hr', sl, sr⟩
    cases t1 with
    | leaf q =>
      rcases hs1 with ⟨n1, hn1, hl1⟩
      simp only [Tree.root_leaf, Tree.root_node] at hr
      subst hr
      rw [hn] at hn1; injection hn1 with hn1; subst hn1
      rw [hl] at hl1; cases hl1
    | node q l1 r1 =>
      rcases hs1 with ⟨n1, hn1, hl1, hr1, sl1, sr1⟩
      simp only [Tree.root_node] at hr
      subst hr
      rw [hn] at hn1; injection hn1 with hn1; subst hn1
      rw [hl] at hl1; injection hl1 with hl1
      rw [hr'] at hr1; injection hr1 with hr1
      rw [ihl sl sl1 hl1, ihr sr sr1 hr1]

theorem Shape.ptr_some {H : List HNode} {t : Tree} (hs : Shape H t) {p : Nat}
    (hp : p ∈ t.ptrs) : ∃ n, H[p]? = some n := by
  induction t with
  | leaf q =>
    rcases hs with ⟨n, hn, _⟩
    simp only [Tree.ptrs, List.mem_singleton] at hp
    subst hp; exact ⟨n, hn⟩
  | node q l r ihl ihr =>
    rcases hs with ⟨n, hn, _, _, sl, sr⟩
    simp only [Tree.ptrs, List.mem_cons, List.mem_append] at hp
    rcases hp with hp | hp | hp
    · subst hp; exact ⟨n, hn⟩
    · exact ihl sl hp
    · exact ihr sr hp

/-- After `create_encodings` on records linked as a tree, each record of the tree once,
the leaves carry the code strings of the tree. -/
theorem create_encodings_codes {H0 H : List HNode} {t : Tree} {fuel : Nat} (hs : Shape H0 t)
    (hnd : t.ptrs.Nodup) (hce : create_encodings fuel H0 (some t.root) [] = .ok H) :
    Shape H t ∧ ∀ (p : Nat) (c : List Char), (p, c) ∈ t.codes [] →
      ∃ n, H[p]? = some n ∧ n.encoding = c := by
  obtain ⟨t1, ht1, hs1, hH⟩ := create_encodings_returns hce
  injection ht1 with ht1
  have := Shape.unique hs hs1 ht1
  subst this
  subst hH
  refine ⟨hs.of_assign_codes _, ?_⟩
  intro p c hpc
  have hp : p ∈ t.ptrs := t.leaves_sublist.subset
    ((t.codes_fst_perm []).mem_iff.mp (List.mem_map.mpr ⟨(p, c), hpc, rfl⟩))
  obtain ⟨n0, hn0⟩ := hs.ptr_some hp
  refine ⟨{ n0 with encoding := code_after (t.codes []) p n0.encoding }, ?_,
    code_after_mem _ (t.codes_fst_nodup hnd []) hpc⟩
  rw [getElem?_assign_codes, hn0]; rfl

/-- After `create_encodings` on records linked as a tree, each record of the tree once,
`get_node` from the top is the walk. -/
theorem get_node_eq_walk {H0 H : List HNode} {t : Tree} {fuel : Nat} (hs : Shape H0 t)
    (hnd : t.ptrs.Nodup) (hce : create_encodings fuel H0 (some t.root) [] = .ok H)
    (e : List Char) :
    get_node (e.length + 1) H (some t.root) e 0 = .ok (walk H (some t.root) e) := by
  obtain ⟨hshape, hcodes⟩ := create_encodings_codes hs hnd hce
  have := get_node_shape (e.length + 1) [] e hshape hcodes (Nat.zero_le _) (by simp)
  simp only [List.length_nil] at this
  rw [this]
  have := Tree.find_eq_walk hshape [] e
  simpa using this

/-! ## The weights of `calculate_frequences` -/

theorem FreqInv.key_of_ptr {freqs : List (Byte × Nat)} {m : Mem} (h : FreqInv freqs m)
    {c : Byte} {p : Nat} (hmem : (c, p) ∈ freqs) :
    ∃ n, m.heap[p]? = some n ∧ n.ch = c := by
  obtain ⟨i, hi⟩ := List.mem_iff_getElem?.mp hmem
  have hlen := h.length
  have hil : i < freqs.length := (List.getElem?_eq_some.mp hi).1
  have hip : i = p := by
    have h1 : (freqs.map Prod.snd)[i]? = some p := by
      rw [List.getElem?_map, hi]; rfl
    rw [h.ptrs, List.getElem?_range (by omega)] at h1
    injection h1
  subst hip
  have he := List.getElem?_eq_getElem (show i < m.heap.length by omega)
  refine ⟨_, he, ?_⟩
  have := (h.recs i _ he).2.2.2.2
  rw [hi] at this
  injection this with this
  injection this with this
  exact this.symm

theorem FreqInv.key_mem {freqs : List (Byte × Nat)} {m : Mem} (h : FreqInv freqs m)
    {p : Nat} {n : HNode} (hn : m.heap[p]? = some n) : (n.ch, p) ∈ freqs :=
  List.getElem?_mem (h.recs p n hn).2.2.2.2

theorem CountInv.step_byte {seen : List Byte} {freqs : List (Byte × Nat)} {m : Mem}
    (h : CountInv seen freqs m) (ch : Byte) :
    CountInv (seen ++ [ch]) (calculate_frequences_loop [ch] freqs m).1
      (calculate_frequences_loop [ch] freqs m).2 := by
  simp only [calculate_frequences_loop]
  cases hl : freqs.lookup ch with
  | none =>
    have hc := (lookup_none_iff freqs ch).mp hl
    have hseen : ch ∉ seen := fun hs => hc ((h.keys ch).mpr hs)
    refine ⟨h.inv.create hc, ?_, ?_⟩
    · intro c
      simp only [List.map_append, List.map_cons, List.map_nil, List.mem_append,
        List.mem_singleton, h.keys c]
    · intro p n hn
      simp only [create_node] at hn
      by_cases hp : p < m.heap.length
      · rw [List.getElem?_append_left hp] at hn
        have hk : n.ch ∈ freqs.map Prod.fst :=
          List.mem_map.mpr ⟨(n.ch, p), h.inv.key_mem hn, rfl⟩
        have hne : ch ≠ n.ch := fun e => hc (e ▸ hk)
        rw [h.vals p n hn, List.count_append, List.count_singleton]
        simp [hne]
      · rw [List.getElem?_append_right (by omega)] at hn
        have hp2 : p = m.heap.length := by
          by_contra hne
          have : p - m.heap.length ≠ 0 := by omega
          obtain ⟨k, hk⟩ := Nat.exists_eq_succ_of_ne_zero this
          rw [hk] at hn
          simp at hn
        subst hp2
        simp at hn
        subst hn
        simp [List.count_eq_zero.mpr hseen]
  | some p =>
    have hmem := lookup_some_mem hl
    obtain ⟨n0, hn0, hch0⟩ := h.inv.key_of_ptr hmem
    refine ⟨h.inv.incr p, ?_, ?_⟩
    · intro c
      simp only [List.mem_append, List.mem_singleton, h.keys c]
      constructor
      · exact Or.inl
      · rintro (hc | hc)
        · exact hc
        · subst hc
          exact (h.keys c).mp (List.mem_map.mpr ⟨(c, p), hmem, rfl⟩)
    · intro q n hn
      simp only [getElem?_incr_value] at hn
      cases hq : m.heap[q]? with
      | none => simp [hq] at hn
      | some n1 =>
        simp only [hq, Option.map_some', Option.some.injEq] at hn
        by_cases hpq : p = q
        · subst hpq
          rw [hn0] at hq
          injection hq with hq
          subst hq
          simp only [if_true] at hn
          subst hn
          simp only
          rw [h.vals p n0 hn0, List.count_append, List.count_singleton, hch0]
          simp
        · simp only [hpq, if_false] at hn
          subst hn
          have hne : ch ≠ n1.ch := by
            intro e
            have := lookup_of_mem h.inv.keys (h.inv.key_mem hq)
            rw [← e, hl] at this
            injection this with this
            exact hpq this
          rw [h.vals q n1 hq, List.count_append, List.count_singleton]
          simp [hne]

theorem calculate_frequences_loop_append (a b : List Byte) (freqs : List (Byte × Nat))
    (m : Mem) :
    calculate_frequences_loop (a ++ b) freqs m =
      calculate_frequences_loop b (calculate_frequences_loop a freqs m).1
        (calculate_frequences_loop a freqs m).2 := by
  induction a generalizing freqs m with
  | nil => rfl
  | cons c a ih =>
    simp only [List.cons_append, calculate_frequences_loop]
    split <;> exact ih _ _

theorem CountInv.loop {seen : List Byte} {freqs : List (Byte × Nat)} {m : Mem}
    (h : CountInv seen freqs m) (msg : List Byte) :
    CountInv (seen ++ msg) (calculate_frequences_loop msg freqs m).1
      (calculate_frequences_loop msg freqs m).2 := by
  induction msg generalizing seen freqs m with
  | nil => simpa [calculate_frequences_loop] using h
  | cons ch msg ih =>
    have := ih (h.step_byte ch)
    rw [List.append_assoc] at this
    have e := calculate_frequences_loop_append [ch] msg freqs m
    simp only [List.singleton_append] at e this
    rw [e]
    exact this

theorem CountInv.initial : CountInv [] [] { num_nodes := 0, heap := [] } where
  inv := FreqInv.start
  keys := by intro c; simp
  vals := by intro p n hn; simp at hn

/-- The map and the records `calculate_frequences` returns, from the state in which
`huffman_encode` calls it. -/
theorem calculate_frequences_counts (msg : List Byte) :
    CountInv msg (calculate_frequences { num_nodes := 0, heap := [] } msg).1
      (calculate_frequences { num_nodes := 0, heap := [] } msg).2 := by
  have := CountInv.initial.loop msg
  simpa [calculate_frequences] using this

theorem CountInv.weight_eq {seen : List Byte} {freqs : List (Byte × Nat)} {m : Mem}
    (h : CountInv seen freqs m) {c : Byte} {p : Nat} (hmem : (c, p) ∈ freqs) :
    weight m.heap p = seen.count c := by
  obtain ⟨n, hn, hch⟩ := h.inv.key_of_ptr hmem
  simp only [weight, hn]
  rw [h.vals p n hn, hch]

theorem CountInv.sum_weights {seen : List Byte} {freqs : List (Byte × Nat)} {m : Mem}
    (h : CountInv seen freqs m) :
    (freqs.map fun e => weight m.heap e.2).sum = seen.length := by
  have h1 : (freqs.map fun e => weight m.heap e.2) =
      (freqs.map Prod.fst).map fun c => seen.count c := by
    rw [List.map_map]
    apply List.map_congr_left
    intro e he
    exact h.weight_eq (c := e.1) (p := e.2) he
  have hperm : (freqs.map Prod.fst).Perm seen.dedup := by
    rw [List.perm_ext_iff_of_nodup h.inv.keys (List.nodup_dedup _)]
    intro c
    rw [h.keys c, List.mem_dedup]
  rw [h1, (hperm.map _).sum_eq, List.sum_map_count_dedup_eq_length]

/-! ## The count of the header -/

/-- With a count of at least one still to reach, the decoding loop writes the first
symbols held by the characters, as many as the count asks for. -/
theorem decode_chars_take (heap : List HNode) (top : Option Nat) (msg_size : Nat)
    (bits encoding : List Char) (num_chars : Nat) (out syms : List Byte)
    (hs : symbols_in heap top bits encoding = .ok syms) (hlt : num_chars < msg_size) :
    ∃ r, decode_chars heap top msg_size bits encoding num_chars out = .ok r ∧
      r.2.2.2 = out ++ syms.take (msg_size - num_chars) := by
  induction bits generalizing encoding num_chars out syms with
  | nil =>
    simp only [symbols_in] at hs
    injection hs with hs
    subst hs
    exact ⟨_, rfl, by simp⟩
  | cons x bits ih =>
    simp only [symbols_in] at hs
    simp only [decode_chars]
    cases hg : get_node ((encoding ++ [x]).length + 1) heap top (encoding ++ [x]) 0 with
    | undefined => rw [hg] at hs; cases hs
    | fuel => rw [hg] at hs; cases hs
    | ok node =>
      rw [hg] at hs
      simp only [Run.ok_bind] at hs ⊢
      by_cases hnode : node = none
      · simp only [hnode, ne_eq, not_true_eq_false, if_false] at hs ⊢
        exact ih _ _ _ _ hs hlt
      · simp only [hnode, ne_eq, not_false_eq_true, if_true] at hs ⊢
        cases hd : deref heap node with
        | undefined => rw [hd] at hs; cases hs
        | fuel => rw [hd] at hs; cases hs
        | ok n =>
          rw [hd] at hs
          simp only [Run.ok_bind] at hs ⊢
          cases hr : symbols_in heap top bits [] with
          | undefined => rw [hr] at hs; cases hs
          | fuel => rw [hr] at hs; cases hs
          | ok rest =>
            rw [hr] at hs
            simp only [Run.ok_bind, Run.pure_eq] at hs
            injection hs with hs
            subst hs
            by_cases hfin : num_chars + 1 = msg_size
            · refine ⟨(true, encoding ++ [x], msg_size, out ++ [n.ch]),
                by simp only [hfin, if_true, Run.pure_eq], ?_⟩
              have : msg_size - num_chars = 1 := by omega
              simp [this]
            · simp only [hfin, if_false]
              obtain ⟨r, hr1, hr2⟩ := ih [] (num_chars + 1) (out ++ [n.ch]) rest hr (by omega)
              refine ⟨r, hr1, ?_⟩
              rw [hr2]
              have : msg_size - num_chars = (msg_size - (num_chars + 1)) + 1 := by omega
              rw [this, List.take_succ_cons]
              simp

/-- Once the number of symbols written is not below the count of the header, the test
`num_chars == msg_size` after the increment never holds and the loop writes every
symbol held by the characters. -/
theorem decode_chars_past (heap : List HNode) (top : Option Nat) (msg_size : Nat)
    (bits encoding : List Char) (num_chars : Nat) (out syms : List Byte)
    (hs : symbols_in heap top bits encoding = .ok syms) (hle : msg_size ≤ num_chars) :
    ∃ r, decode_chars heap top msg_size bits encoding num_chars out = .ok r ∧
      r.2.2.2 = out ++ syms := by
  induction bits generalizing encoding num_chars out syms with
  | nil =>
    simp only [symbols_in] at hs
    injection hs with hs
    subst hs
    exact ⟨_, rfl, by simp⟩
  | cons x bits ih =>
    simp only [symbols_in] at hs
    simp only [decode_chars]
    cases hg : get_node ((encoding ++ [x]).length + 1) heap top (encoding ++ [x]) 0 with
    | undefined => rw [hg] at hs; cases hs
    | fuel => rw [hg] at hs; cases hs
    | ok node =>
      rw [hg] at hs
      simp only [Run.ok_bind] at hs ⊢
      by_cases hnode : node = none
      · simp only [hnode, ne_eq, not_true_eq_false, if_false] at hs ⊢
        exact ih _ _ _ _ hs hle
      · simp only [hnode, ne_eq, not_false_eq_true, if_true] at hs ⊢
        cases hd : deref heap node with
        | undefined => rw [hd] at hs; cases hs
        | fuel => rw [hd] at hs; cases hs
        | ok n =>
          rw [hd] at hs
          simp only [Run.ok_bind] at hs ⊢
          cases hr : symbols_in heap top bits [] with
          | undefined => rw [hr] at hs; cases hs
          | fuel => rw [hr] at hs; cases hs
          | ok rest =>
            rw [hr] at hs
            simp only [Run.ok_bind, Run.pure_eq] at hs
            injection hs with hs
            subst hs
            have hfin : ¬ num_chars + 1 = msg_size := by omega
            simp only [hfin, if_false]
            obtain ⟨r, hr1, hr2⟩ := ih [] (num_chars + 1) (out ++ [n.ch]) rest hr (by omega)
            refine ⟨r, hr1, ?_⟩
            rw [hr2]
            simp

/-! ## Child ids of a table -/

theorem Strict.read_table {n : Nat} :
    ∀ (count i : Nat) (heap : List HNode) (top : Option Nat) (s : List Byte)
      (out : List HNode × Option Nat × List Byte),
      Strict heap → child_ids_ok n count s = true →
      read_table ((List.range n).map fun i => (i + 1, i)) count i heap top s = .ok out →
      Strict out.1 := by
  intro count
  induction count with
  | zero =>
    intro i heap top s out hst _ h
    simp only [Huffman.read_table] at h
    injection h with h
    rw [← h]; exact hst
  | succ count ih =>
    intro i heap top s out hst hok h
    simp only [Huffman.read_table] at h
    obtain ⟨r1, hr1, h⟩ := Run.bind_eq_ok.mp h
    obtain ⟨e, he, h⟩ := Run.bind_eq_ok.mp h
    obtain ⟨l, hl, h⟩ := Run.bind_eq_ok.mp h
    obtain ⟨r, hr, h⟩ := Run.bind_eq_ok.mp h
    obtain ⟨p, hp, hpe⟩ := deref_eq_ok he
    -- the stream holds the four bytes of the record
    obtain ⟨b1, s1, hs1⟩ : ∃ b1 s1, s = b1 :: s1 := by
      cases s with
      | nil => simp [read_8bit_number] at hr1
      | cons b1 s1 => exact ⟨b1, s1, rfl⟩
    subst hs1
    simp only [read_8bit_number] at hr1
    injection hr1 with hr1
    subst hr1
    simp only at hl hp h hok
    obtain ⟨b2, s2, hs2⟩ : ∃ b2 s2, s1 = b2 :: s2 := by
      cases s1 with
      | nil => simp [read_8bit_number] at hl
      | cons b2 s2 => exact ⟨b2, s2, rfl⟩
    subst hs2
    simp only [List.tail_cons] at hl
    obtain ⟨b3, s3, hs3⟩ : ∃ b3 s3, s2 = b3 :: s3 := by
      cases s2 with
      | nil => simp [read_8bit_number] at hl
      | cons b3 s3 => exact ⟨b3, s3, rfl⟩
    subst hs3
    simp only [read_8bit_number] at hl
    injection hl with hl
    subst hl
    simp only at hr h
    obtain ⟨b4, s4, hs4⟩ : ∃ b4 s4, s3 = b4 :: s4 := by
      cases s3 with
      | nil => simp [read_8bit_number] at hr
      | cons b4 s4 => exact ⟨b4, s4, rfl⟩
    subst hs4
    simp only [read_8bit_number] at hr
    injection hr with hr
    subst hr
    simp only [child_ids_ok, Bool.and_eq_true, Bool.or_eq_true, decide_eq_true_eq] at hok
    obtain ⟨hids, hok'⟩ := hok
    refine ih _ _ _ _ _ ?_ hok' h
    intro q e1 hq
    rw [hp] at hq
    simp only [store] at hq
    by_cases hpq : p = q
    · subst hpq
      have hlt : p < heap.length := (List.getElem?_eq_some.mp hpe).1
      rw [List.getElem?_set_self hlt] at hq
      injection hq with hq
      subst hq
      by_cases h0 : b3.val = 0
      · simp only [h0, ne_eq, not_true_eq_false, if_false]
        exact hst p e hpe
      · simp only [h0, ne_eq, not_false_eq_true, if_true]
        rcases hids with hids | ⟨⟨ha1, ha2⟩, hb1, hb2⟩
        · exact absurd hids h0
        · rw [lookup_ids, lookup_ids]
          simp [show 0 < b3.val ∧ b3.val ≤ n from ⟨ha1, ha2⟩,
            show 0 < b4.val ∧ b4.val ≤ n from ⟨hb1, hb2⟩]
    · rw [List.getElem?_set_ne hpq] at hq
      exact hst q e1 hq

theorem Strict.fresh (n : Nat) : Strict ((List.range n).map fun i => fresh (i + 1)) := by
  intro p e he
  simp only [List.getElem?_map] at he
  cases hr : (List.range n)[p]? with
  | none => rw [hr] at he; cases he
  | some i =>
    rw [hr] at he
    simp only [Option.map_some', Option.some.injEq] at he
    rw [← he]
    simp [Huffman.fresh]

/-! ## The table of the encoder read back -/

theorem build_nil (tie : List HNode → List Nat → Nat) (m : Mem) : build tie m [] = .fuel := rfl

/-- The state `build` returns satisfies the invariant of the encoder. -/
theorem build_inv {tie : List HNode → List Nat → Nat} {msg : List Byte} {b : Built}
    (hb : build tie { num_nodes := 0, heap := [] } msg = .ok b) : ∃ t, BuiltInv msg b t := by
  have hmsg : msg ≠ [] := by
    intro h; subst h; rw [build_nil] at hb; cases hb
  obtain ⟨b1, t, hb1, hI⟩ := build_spec tie hmsg
  rw [hb] at hb1
  injection hb1 with hb1
  subst hb1
  exact ⟨t, hI⟩

/-- The part of `huffman_decode` before the decoding loop, on a table written for the
records of the encoder. -/
theorem decode_front_built {msg : List Byte} {b : Built} {t : Tree} (hI : BuiltInv msg b t)
    (hN : b.mem.heap.length ≤ 255) (msg_size fuel : Nat) (hsize : msg_size ≤ SIZE_MAX)
    (hfuel : 255 ≤ fuel) (payload : List Byte) :
    decode_front fuel (decimal msg_size ++ 32 :: toByte b.mem.num_nodes ::
        (t.ptrs.flatMap (record b.mem.heap) ++ payload)) =
      some (.ok (msg_size, assign_codes (t.codes []) (b.mem.heap.map strip), some t.root,
        payload)) := by
  have hread := read_size_decimal msg_size
    (toByte b.mem.num_nodes :: (t.ptrs.flatMap (record b.mem.heap) ++ payload)) hsize
  have hnum : (toByte b.mem.num_nodes).val = b.mem.heap.length := by
    rw [hI.count]; exact toByte_val (by omega)
  have hcreate := create_nodes_spec b.mem.heap.length 0
  simp only [List.range_zero, List.map_nil, Nat.zero_add] at hcreate
  have htable := read_table_built hI hN payload
  have hd : t.depth ≤ fuel := by
    have := t.depth_le
    rw [hI.length_ptrs] at this
    omega
  have hce := create_encodings_shape fuel [] hI.shape.of_strip hd
  simp only [decode_front, hread, List.tail_cons, read_8bit_number, Run.ok_bind, hnum, hcreate,
    htable, hce, Run.pure_eq]

/-- The records after `create_encodings` in the decoder, against those of the
encoder. -/
theorem assigned_strip_built {msg : List Byte} {b : Built} {t : Tree} (hI : BuiltInv msg b t)
    (p : Nat) (e : HNode) (he : b.mem.heap[p]? = some e) :
    ∃ h, (assign_codes (t.codes []) (b.mem.heap.map strip))[p]? = some h ∧
      h.id = e.id ∧ h.ch = e.ch ∧ h.ln = e.ln ∧ h.rn = e.rn ∧
      (e.ln = none → h.encoding = e.encoding) := by
  refine ⟨{ strip e with encoding := code_after (t.codes []) p (strip e).encoding }, ?_,
    rfl, rfl, rfl, rfl, ?_⟩
  · rw [getElem?_assign_codes, getElem?_map_strip, he]
    rfl
  · intro hl
    have hp : p ∈ t.ptrs := hI.mem_ptrs.mpr (List.getElem?_eq_some.mp he).1
    have hleaf : p ∈ t.leaves := hI.shape.mem_leaves hp he hl
    obtain ⟨x, hx, hx1⟩ := List.mem_map.mp ((Tree.codes_fst_perm t []).mem_iff.mpr hleaf)
    obtain ⟨q, c⟩ := x
    simp only at hx1
    subst hx1
    obtain ⟨n, hn, hc⟩ := hI.codes q c hx
    rw [he] at hn
    injection hn with hn
    subst hn
    simp only
    rw [code_after_mem _ (t.codes_fst_nodup hI.nodup []) hx, hc]

/-! ## Runs that come to an end -/

theorem read_table_ne_fuel (nodes : List (Nat × Nat)) (count i : Nat) (heap : List HNode)
    (top : Option Nat) (s : List Byte) : read_table nodes count i heap top s ≠ .fuel := by
  induction count generalizing i heap top s with
  | zero => simp [read_table]
  | succ count ih =>
    simp only [read_table]
    cases h1 : read_8bit_number s with
    | fuel => cases s <;> simp [read_8bit_number] at h1
    | undefined => simp
    | ok r =>
      simp only [Run.ok_bind]
      cases h2 : deref heap (List.lookup r.1 nodes) with
      | fuel =>
        unfold deref at h2
        split at h2
        · cases h2
        · split at h2 <;> cases h2
      | undefined => simp
      | ok n =>
        simp only [Run.ok_bind]
        cases h3 : read_8bit_number r.2.tail with
        | fuel => cases hr : r.2.tail <;> simp [hr, read_8bit_number] at h3
        | undefined => simp
        | ok l =>
          simp only [Run.ok_bind]
          cases h4 : read_8bit_number l.2 with
          | fuel => cases hr : l.2 <;> simp [hr, read_8bit_number] at h4
          | undefined => simp
          | ok r2 =>
            simp only [Run.ok_bind]
            exact ih _ _ _ _

theorem deref_ne_fuel (heap : List HNode) (node : Option Nat) : deref heap node ≠ .fuel := by
  unfold deref
  split
  · simp
  · split <;> simp

theorem get_node_ne_fuel (fuel : Nat) (heap : List HNode) (node : Option Nat)
    (encoding : List Char) (depth : Nat) (hd : depth ≤ encoding.length)
    (hf : encoding.length - depth < fuel) :
    get_node fuel heap node encoding depth ≠ .fuel := by
  induction fuel generalizing node depth with
  | zero => omega
  | succ fuel ih =>
    simp only [get_node]
    cases h1 : deref heap node with
    | fuel => exact absurd h1 (deref_ne_fuel _ _)
    | undefined => simp
    | ok n =>
      simp only [Run.ok_bind]
      by_cases hc : encoding.length ≠ depth ∧ n.ln ≠ none
      · rw [if_pos hc]
        have hd1 : depth + 1 ≤ encoding.length := by omega
        have hf1 : encoding.length - (depth + 1) < fuel := by omega
        cases h2 : get_node fuel heap n.ln encoding (depth + 1) with
        | fuel => exact absurd h2 (ih _ _ hd1 hf1)
        | undefined => simp
        | ok ln =>
          simp only [Run.ok_bind]
          by_cases hl : ln ≠ none
          · rw [if_pos hl]; simp
          · rw [if_neg hl]
            cases h3 : get_node fuel heap n.rn encoding (depth + 1) with
            | fuel => exact absurd h3 (ih _ _ hd1 hf1)
            | undefined => simp
            | ok rn =>
              simp only [Run.ok_bind]
              split <;> simp
      · rw [if_neg hc]
        split <;> simp

theorem decode_chars_ne_fuel (heap : List HNode) (top : Option Nat) (msg_size : Nat)
    (bits encoding : List Char) (num_chars : Nat) (out : List Byte) :
    decode_chars heap top msg_size bits encoding num_chars out ≠ .fuel := by
  induction bits generalizing encoding num_chars out with
  | nil => simp [decode_chars]
  | cons x bits ih =>
    simp only [decode_chars]
    cases h1 : get_node ((encoding ++ [x]).length + 1) heap top (encoding ++ [x]) 0 with
    | fuel => exact absurd h1 (get_node_ne_fuel _ _ _ _ _ (Nat.zero_le _) (by omega))
    | undefined => simp
    | ok node =>
      simp only [Run.ok_bind]
      by_cases hn : node ≠ none
      · rw [if_pos hn]
        cases h2 : deref heap node with
        | fuel => exact absurd h2 (deref_ne_fuel _ _)
        | undefined => simp
        | ok n =>
          simp only [Run.ok_bind]
          split
          · simp
          · exact ih _ _ _
      · rw [if_neg hn]
        exact ih _ _ _

theorem decode_loop_ne_fuel (heap : List HNode) (top : Option Nat) (msg_size : Nat)
    (bytes : List Byte) : decode_loop heap top msg_size bytes [] 0 [] ≠ .fuel := by
  rw [decode_loop_eq]
  cases h : decode_chars heap top msg_size (unpack bytes) [] 0 [] with
  | fuel => exact absurd h (decode_chars_ne_fuel _ _ _ _ _ _ _)
  | undefined => simp
  | ok r => simp

theorem decode_front_eq_table (fuel : Nat) (input : List Byte) :
    decode_front fuel input =
      (decode_table input).map fun r => r >>= fun x =>
        create_encodings fuel x.2.1 x.2.2.1 [] >>= fun heap =>
          pure (x.1, heap, x.2.2.1, x.2.2.2) := by
  unfold decode_front decode_table
  cases read_size input with
  | none => rfl
  | some x =>
    obtain ⟨msg_size, s⟩ := x
    simp only [Option.map_some', Option.some.injEq]
    cases read_8bit_number s.tail with
    | undefined => rfl
    | fuel => rfl
    | ok r =>
      simp only [Run.ok_bind]
      cases read_table (create_nodes r.1 { num_nodes := 0, heap := [] } []).2 r.1 0
          (create_nodes r.1 { num_nodes := 0, heap := [] } []).1.heap none r.2 with
      | undefined => rfl
      | fuel => rfl
      | ok t => rfl

theorem decode_table_ne_fuel (input : List Byte) : decode_table input ≠ some .fuel := by
  unfold decode_table
  cases read_size input with
  | none => simp
  | some x =>
    obtain ⟨msg_size, s⟩ := x
    simp only [ne_eq, Option.some.injEq]
    cases h1 : read_8bit_number s.tail with
    | fuel => cases hr : s.tail <;> simp [hr, read_8bit_number] at h1
    | undefined => simp
    | ok r =>
      simp only [Run.ok_bind]
      cases h2 : read_table (create_nodes r.1 { num_nodes := 0, heap := [] } []).2 r.1 0
          (create_nodes r.1 { num_nodes := 0, heap := [] } []).1.heap none r.2 with
      | fuel => exact absurd h2 (read_table_ne_fuel _ _ _ _ _ _)
      | undefined => simp
      | ok t => simp

/-- Only `create_encodings` can use up the recursion budget of `huffman_decode`. -/
theorem huffman_decode_fuel {g fuel : Nat} {input : List Byte}
    (h : huffman_decode g fuel input = .fuel) :
    ∃ x, decode_table input = some (.ok x) ∧ create_encodings fuel x.2.1 x.2.2.1 [] = .fuel := by
  rw [huffman_decode_eq, decode_front_eq_table] at h
  cases ht : decode_table input with
  | none => rw [ht] at h; cases h
  | some r =>
    rw [ht] at h
    simp only [Option.map_some'] at h
    cases r with
    | fuel => exact absurd ht (decode_table_ne_fuel input)
    | undefined => cases h
    | ok x =>
      refine ⟨x, rfl, ?_⟩
      simp only [Run.ok_bind] at h
      cases hc : create_encodings fuel x.2.1 x.2.2.1 [] with
      | fuel => rfl
      | undefined => rw [hc] at h; cases h
      | ok heap =>
        rw [hc] at h
        simp only [Run.ok_bind, Run.pure_eq] at h
        exact absurd h (decode_loop_ne_fuel _ _ _ _)

/-! ## A record that is its own child -/

theorem create_encodings_self_child (fuel : Nat) (binary : List Char) :
    create_encodings fuel
      [{ id := 1, value := 0, ln := some 0, rn := some 0, encoding := [], ch := 36 }]
      (some 0) binary = .fuel := by
  induction fuel generalizing binary with
  | zero => rfl
  | succ fuel ih =>
    simp only [create_encodings, deref, List.getElem?_cons_zero, Run.ok_bind, ne_eq,
      not_false_eq_true, if_true, ih, Run.fuel_bind, reduceCtorEq]

theorem decode_table_cyclic_file :
    decode_table cyclic_file = some (.ok (1,
      [{ id := 1, value := 0, ln := some 0, rn := some 0, encoding := [], ch := 36 }],
      some 0, [])) := by
  decide

theorem huffman_decode_cyclic_file (g fuel : Nat) : huffman_decode g fuel cyclic_file = .fuel := by
  rw [huffman_decode_eq, decode_front_eq_table, decode_table_cyclic_file]
  simp only [Option.map_some', Run.ok_bind, create_encodings_self_child, Run.fuel_bind]

/-! ## Tables without a cycle -/

theorem Child.lt {heap : List HNode} {q p : Nat} (h : Child heap q p) : p < heap.length := by
  obtain ⟨n, hn, _⟩ := h
  exact (List.getElem?_eq_some.mp hn).1

theorem Acyclic.acc {heap : List HNode} (h : Acyclic heap) (p : Nat) : Acc (Child heap) p := by
  have hout : ∀ q, ¬ q < heap.length → Acc (Child heap) q := fun q hq =>
    Acc.intro _ fun q1 hq1 => absurd hq1.lt hq
  let r : Fin heap.length → Fin heap.length → Prop := fun a b =>
    Relation.TransGen (Child heap) a.val b.val
  haveI : IsTrans (Fin heap.length) r := ⟨fun _ _ _ hab hbc => Relation.TransGen.trans hab hbc⟩
  haveI : IsIrrefl (Fin heap.length) r := ⟨fun a haa => h a.val haa⟩
  have wf : WellFounded r := Finite.wellFounded_of_trans_of_irrefl r
  have key : ∀ a : Fin heap.length, Acc (Child heap) a.val := fun a =>
    wf.induction a fun a ih => Acc.intro _ fun q hq => by
      by_cases hqn : q < heap.length
      · exact ih ⟨q, hqn⟩ (Relation.TransGen.single hq)
      · exact hout q hqn
  by_cases hp : p < heap.length
  · exact key ⟨p, hp⟩
  · exact hout p hp

/-- A rank that goes down from every record to its children shows that no record is its
own descendant. -/
theorem Acyclic.of_rank {heap : List HNode} (rank : Nat → Nat)
    (h : ∀ q p, Child heap q p → rank q < rank p) : Acyclic heap := by
  have : ∀ q p, Relation.TransGen (Child heap) q p → rank q < rank p := by
    intro q p hqp
    induction hqp with
    | single h1 => exact h _ _ h1
    | tail _ h2 ih => exact Nat.lt_trans ih (h _ _ h2)
  intro p hp
  exact Nat.lt_irrefl _ (this p p hp)

/-- The function `create_encodings` leaves the children of every record as they are. -/
theorem create_encodings_links {fuel : Nat} {heap heap1 : List HNode} {node : Option Nat}
    {binary : List Char} (h : create_encodings fuel heap node binary = .ok heap1) (i : Nat) :
    (heap1[i]?).map (fun n : HNode => (n.ln, n.rn)) = (heap[i]?).map (fun n : HNode => (n.ln, n.rn)) := by
  obtain ⟨t, _, _, he⟩ := create_encodings_returns h
  rw [he, getElem?_assign_codes]
  cases heap[i]? <;> rfl

theorem Child.of_links {heap heap1 : List HNode}
    (h : ∀ i : Nat, (heap1[i]?).map (fun n : HNode => (n.ln, n.rn)) = (heap[i]?).map (fun n : HNode => (n.ln, n.rn)))
    {q p : Nat} (hc : Child heap1 q p) : Child heap q p := by
  obtain ⟨n, hn, h1, h2⟩ := hc
  have hp := h p
  rw [hn] at hp
  cases hh : heap[p]? with
  | none => rw [hh] at hp; cases hp
  | some m =>
    rw [hh] at hp
    simp only [Option.map_some', Option.some.injEq, Prod.mk.injEq] at hp
    exact ⟨m, hh, by rw [← hp.1]; exact h1, by rw [← hp.1, ← hp.2]; exact h2⟩

theorem create_encodings_none (fuel : Nat) (heap : List HNode) (binary : List Char) :
    create_encodings (fuel + 1) heap none binary = .undefined := rfl

/-- From a record that is not its own descendant, `create_encodings` comes to an end. -/
theorem create_encodings_terminates {heap : List HNode} {p : Nat} (hacc : Acc (Child heap) p) :
    ∀ (heap1 : List HNode) (binary : List Char),
      (∀ i : Nat, (heap1[i]?).map (fun n : HNode => (n.ln, n.rn)) = (heap[i]?).map (fun n : HNode => (n.ln, n.rn))) →
      ∃ fuel r, r ≠ .fuel ∧
        ∀ fuel1, fuel ≤ fuel1 → create_encodings fuel1 heap1 (some p) binary = r := by
  induction hacc with
  | intro p _ ih =>
    intro heap1 binary hlinks
    -- a call on any pointer that is a child of `p`, or null
    have sub : ∀ (node : Option Nat), (∀ q, node = some q → Child heap q p) →
        ∀ (heap2 : List HNode) (bin : List Char),
          (∀ i : Nat, (heap2[i]?).map (fun n : HNode => (n.ln, n.rn)) =
            (heap[i]?).map (fun n : HNode => (n.ln, n.rn))) →
          ∃ fuel r, r ≠ .fuel ∧
            ∀ fuel1, fuel ≤ fuel1 → create_encodings fuel1 heap2 node bin = r := by
      intro node hnode heap2 bin hl2
      cases node with
      | none =>
        refine ⟨1, .undefined, by simp, ?_⟩
        intro fuel1 hf
        obtain ⟨k, rfl⟩ : ∃ k, fuel1 = k + 1 := ⟨fuel1 - 1, by omega⟩
        rfl
      | some q => exact ih q (hnode q rfl) heap2 bin hl2
    cases hp : heap1[p]? with
    | none =>
      refine ⟨1, .undefined, by simp, ?_⟩
      intro fuel1 hf
      obtain ⟨k, rfl⟩ : ∃ k, fuel1 = k + 1 := ⟨fuel1 - 1, by omega⟩
      simp [create_encodings, deref, hp]
    | some n =>
      by_cases hl : n.ln = none
      · refine ⟨1, .ok (store heap1 (some p) { n with encoding := binary }), by simp, ?_⟩
        intro fuel1 hf
        obtain ⟨k, rfl⟩ : ∃ k, fuel1 = k + 1 := ⟨fuel1 - 1, by omega⟩
        simp [create_encodings, deref, hp, hl]
      · have hchild : ∀ (node : Option Nat), node = n.ln ∨ node = n.rn →
            ∀ q, node = some q → Child heap q p := by
          intro node hnode q hq
          apply Child.of_links hlinks
          refine ⟨n, hp, hl, ?_⟩
          rcases hnode with h1 | h1
          · left; rw [← h1, hq]
          · right; rw [← h1, hq]
        obtain ⟨f1, r1, hr1, hs1⟩ := sub n.rn (hchild _ (Or.inr rfl)) heap1 (binary ++ ['0']) hlinks
        cases r1 with
        | fuel => exact absurd rfl hr1
        | undefined =>
          refine ⟨f1 + 1, .undefined, by simp, ?_⟩
          intro fuel1 hf
          obtain ⟨k, rfl⟩ : ∃ k, fuel1 = k + 1 := ⟨fuel1 - 1, by omega⟩
          simp [create_encodings, deref, hp, hl, hs1 k (by omega)]
        | ok heap2 =>
          have hl2 : ∀ i : Nat, (heap2[i]?).map (fun n : HNode => (n.ln, n.rn)) =
              (heap[i]?).map (fun n : HNode => (n.ln, n.rn)) := by
            intro i
            rw [create_encodings_links (hs1 f1 (Nat.le_refl _)) i]
            exact hlinks i
          obtain ⟨f2, r2, hr2, hs2⟩ := sub n.ln (hchild _ (Or.inl rfl)) heap2 (binary ++ ['1']) hl2
          refine ⟨max f1 f2 + 1, r2, hr2, ?_⟩
          intro fuel1 hf
          obtain ⟨k, rfl⟩ : ∃ k, fuel1 = k + 1 := ⟨fuel1 - 1, by omega⟩
          have hk1 : f1 ≤ k := by have := Nat.le_max_left f1 f2; omega
          have hk2 : f2 ≤ k := by have := Nat.le_max_right f1 f2; omega
          simp [create_encodings, deref, hp, hl, hs1 k hk1, hs2 k hk2]

/-- When the table of the input makes no record its own descendant, `huffman_decode`
comes to an end. -/
theorem huffman_decode_terminates (g : Nat) (input : List Byte)
    (hacyc : ∀ x, decode_table input = some (.ok x) → Acyclic x.2.1) :
    Terminates fun fuel => huffman_decode g fuel input := by
  unfold Terminates
  simp only [huffman_decode_eq, decode_front_eq_table]
  cases ht : decode_table input with
  | none => exact ⟨0, .ok [], by simp, fun _ _ => rfl⟩
  | some r =>
    cases r with
    | fuel => exact absurd ht (decode_table_ne_fuel input)
    | undefined => exact ⟨0, .undefined, by simp, fun _ _ => rfl⟩
    | ok x =>
      have hA := hacyc x ht
      have hce : ∃ fuel r, r ≠ .fuel ∧
          ∀ fuel1, fuel ≤ fuel1 → create_encodings fuel1 x.2.1 x.2.2.1 [] = r := by
        cases htop : x.2.2.1 with
        | none =>
          refine ⟨1, .undefined, by simp, ?_⟩
          intro fuel1 hf
          obtain ⟨k, rfl⟩ : ∃ k, fuel1 = k + 1 := ⟨fuel1 - 1, by omega⟩
          rfl
        | some p => exact create_encodings_terminates (hA.acc p) x.2.1 [] (fun _ => rfl)
      obtain ⟨f, r, hr, hs⟩ := hce
      cases r with
      | fuel => exact absurd rfl hr
      | undefined =>
        refine ⟨f, .undefined, by simp, ?_⟩
        intro fuel1 hf
        simp only [Option.map_some', Run.ok_bind, hs fuel1 hf, Run.undefined_bind]
      | ok heap =>
        refine ⟨f, decode_loop heap x.2.2.1 x.1 x.2.2.2 [] 0 [], decode_loop_ne_fuel _ _ _ _, ?_⟩
        intro fuel1 hf
        simp only [Option.map_some', Run.ok_bind, hs fuel1 hf, Run.pure_eq]

/-- The function `huffman_encode` returns on every input. -/
theorem huffman_encode_returns (tie : List HNode → List Nat → Nat) (g : Nat) (msg : List Byte) :
    ∃ out, huffman_encode tie g msg = .ok out := by
  by_cases hmsg : msg = []
  · exact ⟨[], by simp [huffman_encode, hmsg]⟩
  · obtain ⟨b, t, payload, _, _, _, h⟩ := huffman_encode_spec tie g hmsg
    exact ⟨_, h⟩

/-- When the part of `huffman_decode` before the decoding loop has returned,
`huffman_decode` returns. -/
theorem huffman_decode_returns (g fuel : Nat) {input : List Byte}
    {x : Nat × List HNode × Option Nat × List Byte}
    (hfront : decode_front fuel input = some (.ok x)) :
    ∃ out, huffman_decode g fuel input = .ok out := by
  obtain ⟨msg_size, heap, top, payload⟩ := x
  obtain ⟨t, ht, hs⟩ := decode_front_shape hfront
  subst ht
  obtain ⟨syms, hsyms⟩ := symbols_in_returns hs (unpack payload) []
  rw [huffman_decode_eq, hfront]
  by_cases h0 : msg_size = 0
  · obtain ⟨r, hr, hout⟩ := decode_chars_past heap (some t.root) msg_size (unpack payload) [] 0 []
      syms hsyms (by omega)
    exact ⟨r.2.2.2, by simp only [Run.ok_bind, decode_loop_eq, hr, Run.pure_eq]⟩
  · obtain ⟨r, hr, hout⟩ := decode_chars_take heap (some t.root) msg_size (unpack payload) [] 0 []
      syms hsyms (by omega)
    exact ⟨r.2.2.2, by simp only [Run.ok_bind, decode_loop_eq, hr, Run.pure_eq]⟩

/-! ## Codes as lists of weights and lengths -/

theorem kraft_cons (x : Nat × Nat) (c : List (Nat × Nat)) :
    kraft (x :: c) = (1 / 2 : ℚ) ^ x.2 + kraft c := by
  simp [kraft]

theorem code_cost_cons (x : Nat × Nat) (c : List (Nat × Nat)) :
    code_cost (x :: c) = x.1 * x.2 + code_cost c := by
  simp [code_cost]

theorem kraft_append (c d : List (Nat × Nat)) : kraft (c ++ d) = kraft c + kraft d := by
  simp [kraft]

theorem code_cost_append (c d : List (Nat × Nat)) :
    code_cost (c ++ d) = code_cost c + code_cost d := by
  simp [code_cost]

theorem kraft_perm {c d : List (Nat × Nat)} (h : c.Perm d) : kraft c = kraft d :=
  (h.map _).sum_eq

theorem code_cost_perm {c d : List (Nat × Nat)} (h : c.Perm d) : code_cost c = code_cost d :=
  (h.map _).sum_eq

/-- Swapping the lengths of two entries so that the lighter gets the longer does not
raise the cost. -/
theorem swap_le {a x da dx : Nat} (h1 : a ≤ x) (h2 : da ≤ dx) :
    a * dx + x * da ≤ a * da + x * dx := by
  obtain ⟨e, rfl⟩ := Nat.exists_eq_add_of_le h1
  obtain ⟨f, rfl⟩ := Nat.exists_eq_add_of_le h2
  nlinarith [Nat.zero_le (e * f)]

/-- An entry not heavier than any entry of `r` can be given the greatest length, the
lengths being exchanged, without raising the cost. -/
theorem lift_deepest (a da : Nat) (r : List (Nat × Nat)) (hr : ∀ y ∈ r, a ≤ y.1) :
    ∃ da1 r1, r1.map Prod.fst = r.map Prod.fst ∧
      (1 / 2 : ℚ) ^ da1 + kraft r1 = (1 / 2 : ℚ) ^ da + kraft r ∧
      (∀ y ∈ r1, y.2 ≤ da1) ∧ da ≤ da1 ∧
      (∀ B : Nat, (∀ y ∈ r, y.2 ≤ B) → ∀ y ∈ r1, y.2 ≤ B) ∧
      a * da1 + code_cost r1 ≤ a * da + code_cost r := by
  induction r with
  | nil => exact ⟨da, [], rfl, rfl, by simp, Nat.le_refl _, by simp, Nat.le_refl _⟩
  | cons x r ih =>
    obtain ⟨da1, r1, h1, h2, h3, h4, h5, h6⟩ := ih fun y hy => hr y (List.mem_cons_of_mem _ hy)
    have hax : a ≤ x.1 := hr x (List.mem_cons_self _ _)
    by_cases hx : x.2 ≤ da1
    · refine ⟨da1, x :: r1, by simp [h1], ?_, ?_, h4, ?_, ?_⟩
      · rw [kraft_cons, kraft_cons]; linarith
      · intro y hy
        rcases List.mem_cons.mp hy with rfl | hy
        · exact hx
        · exact h3 y hy
      · intro B hB y hy
        rcases List.mem_cons.mp hy with rfl | hy
        · exact hB _ (List.mem_cons_self _ _)
        · exact h5 B (fun z hz => hB z (List.mem_cons_of_mem _ hz)) y hy
      · rw [code_cost_cons, code_cost_cons]; omega
    · have hlt : da1 < x.2 := Nat.lt_of_not_le hx
      refine ⟨x.2, (x.1, da1) :: r1, by simp [h1], ?_, ?_, by omega, ?_, ?_⟩
      · rw [kraft_cons, kraft_cons]; simp only; linarith
      · intro y hy
        rcases List.mem_cons.mp hy with rfl | hy
        · exact Nat.le_of_lt hlt
        · exact Nat.le_trans (h3 y hy) (Nat.le_of_lt hlt)
      · intro B hB y hy
        rcases List.mem_cons.mp hy with rfl | hy
        · exact Nat.le_trans (Nat.le_of_lt hlt) (hB _ (List.mem_cons_self _ _))
        · exact h5 B (fun z hz => hB z (List.mem_cons_of_mem _ hz)) y hy
      · rw [code_cost_cons, code_cost_cons]
        have := swap_le hax (Nat.le_of_lt hlt)
        simp only
        omega

theorem half_pow_scaled {d E : Nat} (h : d ≤ E) :
    (1 / 2 : ℚ) ^ d = ((2 ^ (E - d) : Nat) : ℚ) / 2 ^ E := by
  obtain ⟨j, rfl⟩ := Nat.exists_eq_add_of_le h
  rw [Nat.add_sub_cancel_left, eq_div_iff (by positivity), pow_add]
  push_cast
  rw [← mul_assoc, ← mul_pow]
  norm_num

/-- With no length above `E`, the Kraft sum is a whole number of `2 ^ -E`. -/
theorem kraft_scaled (E : Nat) (r : List (Nat × Nat)) (h : ∀ y ∈ r, y.2 ≤ E) :
    ∃ N : Nat, kraft r = (N : ℚ) / 2 ^ E := by
  induction r with
  | nil => exact ⟨0, by simp [kraft]⟩
  | cons x r ih =>
    obtain ⟨N, hN⟩ := ih fun y hy => h y (List.mem_cons_of_mem _ hy)
    refine ⟨2 ^ (E - x.2) + N, ?_⟩
    rw [kraft_cons, hN, half_pow_scaled (h x (List.mem_cons_self _ _))]
    push_cast
    ring

/-- Two entries at least as long as every other can be replaced by one entry a
character shorter than the shorter of the two. -/
theorem kraft_merge_le {E F : Nat} (r : List (Nat × Nat)) (hE : ∀ y ∈ r, y.2 ≤ E)
    (hk : kraft r + (1 / 2 : ℚ) ^ E + (1 / 2 : ℚ) ^ F ≤ 1) :
    1 ≤ E ∧ kraft r + (1 / 2 : ℚ) ^ (E - 1) ≤ 1 := by
  obtain ⟨N, hN⟩ := kraft_scaled E r hE
  have hpos : (0 : ℚ) < (1 / 2 : ℚ) ^ F := by positivity
  have h2 : (0 : ℚ) < 2 ^ E := by positivity
  have hlt : (N : ℚ) / 2 ^ E + (1 / 2 : ℚ) ^ E < 1 := by rw [← hN]; linarith
  rw [half_pow_scaled (Nat.le_refl E), Nat.sub_self, ← add_div, div_lt_one h2] at hlt
  have hlt' : N + 1 < 2 ^ E := by exact_mod_cast hlt
  have hE1 : 1 ≤ E := by
    rcases Nat.eq_zero_or_pos E with h0 | h0
    · rw [h0] at hlt'; simp at hlt'
    · exact h0
  refine ⟨hE1, ?_⟩
  rw [hN, half_pow_scaled (show E - 1 ≤ E by omega), ← add_div, div_le_one h2]
  have : E - (E - 1) = 1 := by omega
  rw [this]
  have : N + 2 ≤ 2 ^ E := hlt'
  exact_mod_cast this

theorem kraft_merge (A B : Nat) (r : List (Nat × Nat)) (hA : ∀ y ∈ r, y.2 ≤ A)
    (hB : ∀ y ∈ r, y.2 ≤ B) (hk : kraft r + (1 / 2 : ℚ) ^ A + (1 / 2 : ℚ) ^ B ≤ 1) :
    1 ≤ min A B ∧ kraft r + (1 / 2 : ℚ) ^ (min A B - 1) ≤ 1 := by
  rcases Nat.le_total A B with h | h
  · rw [Nat.min_eq_left h]
    exact kraft_merge_le r hA hk
  · rw [Nat.min_eq_right h]
    exact kraft_merge_le (F := A) r hB (by linarith)

/-- An entry of a list whose image is given up to the order. -/
theorem perm_map_cons {α β : Type} [DecidableEq α] {f : α → β} {c : List α} {x : β}
    {l : List β} (h : (c.map f).Perm (x :: l)) :
    ∃ y c1, c.Perm (y :: c1) ∧ f y = x ∧ (c1.map f).Perm l := by
  have hx : x ∈ c.map f := h.mem_iff.mpr (List.mem_cons_self _ _)
  obtain ⟨y, hy, hfy⟩ := List.mem_map.mp hx
  refine ⟨y, c.erase y, List.perm_cons_erase hy, hfy, ?_⟩
  have h1 : (c.map f).Perm (f y :: (c.erase y).map f) := (List.perm_cons_erase hy).map f
  rw [hfy] at h1
  exact (List.Perm.cons_inv (h1.symm.trans h))

/-- The step of the optimality argument: a code for weights of which `a` and `b` are
the two smallest yields a code for the weights with `a` and `b` replaced by `a + b`,
cheaper by at least `a + b`. -/
theorem exchange (a b : Nat) (rest : List Nat) (c : List (Nat × Nat)) (hab : a ≤ b)
    (hrest : ∀ x ∈ rest, b ≤ x) (hperm : (c.map Prod.fst).Perm (a :: b :: rest))
    (hk : kraft c ≤ 1) :
    ∃ c1 : List (Nat × Nat), (c1.map Prod.fst).Perm (rest ++ [a + b]) ∧ kraft c1 ≤ 1 ∧
      code_cost c1 + (a + b) ≤ code_cost c := by
  obtain ⟨ya, ca, hca, hya, hpa⟩ := perm_map_cons hperm
  obtain ⟨yb, r, hcb, hyb, hpr⟩ := perm_map_cons hpa
  have hc : c.Perm (ya :: yb :: r) := hca.trans (List.Perm.cons _ hcb)
  obtain ⟨wa, da⟩ := ya
  obtain ⟨wb, db⟩ := yb
  simp only at hya hyb
  subst hya hyb
  have hr_b : ∀ y ∈ r, wb ≤ y.1 := fun y hy =>
    hrest _ (hpr.mem_iff.mp (List.mem_map_of_mem _ hy))
  have hr_a : ∀ y ∈ (wb, db) :: r, wa ≤ y.1 := by
    intro y hy
    rcases List.mem_cons.mp hy with rfl | hy
    · exact hab
    · exact Nat.le_trans hab (hr_b y hy)
  -- `a` gets the greatest length
  obtain ⟨A, r1, h1, h2, h3, _, _, h6⟩ := lift_deepest wa da ((wb, db) :: r) hr_a
  obtain ⟨yb1, r2, hr12⟩ : ∃ yb1 r2, r1 = yb1 :: r2 := by
    cases r1 with
    | nil => simp at h1
    | cons y r2 => exact ⟨y, r2, rfl⟩
  subst hr12
  obtain ⟨wb1, db1⟩ := yb1
  simp only [List.map_cons, List.cons.injEq] at h1
  obtain ⟨hwb, h1⟩ := h1
  subst hwb
  have hr2_b : ∀ y ∈ r2, wb1 ≤ y.1 := by
    intro y hy
    have : y.1 ∈ r.map Prod.fst := by rw [← h1]; exact List.mem_map_of_mem _ hy
    obtain ⟨z, hz, hzy⟩ := List.mem_map.mp this
    rw [← hzy]; exact hr_b z hz
  -- `b` gets the greatest length of the rest
  obtain ⟨B, r3, g1, g2, g3, _, g5, g6⟩ := lift_deepest wb1 db1 r2 hr2_b
  have hA3 : ∀ y ∈ r3, y.2 ≤ A :=
    g5 A fun y hy => h3 y (List.mem_cons_of_mem _ hy)
  have hkraft : kraft r3 + (1 / 2 : ℚ) ^ A + (1 / 2 : ℚ) ^ B ≤ 1 := by
    have e1 := kraft_perm hc
    simp only [kraft_cons] at e1 h2
    linarith
  obtain ⟨hE, hK⟩ := kraft_merge A B r3 hA3 g3 hkraft
  refine ⟨r3 ++ [(wa + wb1, min A B - 1)], ?_, ?_, ?_⟩
  · rw [List.map_append, g1, h1]
    exact List.Perm.append hpr (List.Perm.refl _)
  · have hnil : kraft [] = 0 := rfl
    rw [kraft_append, kraft_cons, hnil, add_zero]
    exact hK
  · have e1 := code_cost_perm hc
    simp only [code_cost_cons] at e1 h6
    have hnil : code_cost [] = 0 := rfl
    rw [code_cost_append, code_cost_cons, e1, hnil]
    simp only
    have hmA : min A B ≤ A := Nat.min_le_left _ _
    have hmB : min A B ≤ B := Nat.min_le_right _ _
    have k1 : (wa + wb1) * (min A B - 1) + (wa + wb1) = (wa + wb1) * min A B := by
      obtain ⟨j, hj⟩ : ∃ j, min A B = j + 1 := ⟨min A B - 1, by omega⟩
      rw [hj, Nat.add_sub_cancel]; ring
    have k2 : (wa + wb1) * min A B ≤ wa * A + wb1 * B := by
      rw [Nat.add_mul]
      exact Nat.add_le_add (Nat.mul_le_mul_left _ hmA) (Nat.mul_le_mul_left _ hmB)
    omega

/-! ## The merge loop and the cost of a code -/

theorem weight_append_left {heap : List HNode} (extra : List HNode) {p : Nat}
    (h : p < heap.length) : weight (heap ++ extra) p = weight heap p := by
  simp only [weight, List.getElem?_append_left h]

theorem weight_append_length (heap : List HNode) (n : HNode) (extra : List HNode) :
    weight (heap ++ n :: extra) heap.length = n.value := by
  unfold weight
  rw [List.getElem?_append_right (Nat.le_refl _)]
  simp

/-- The merge loop only appends records; the values it gives them add up to at most the
cost of any code for the weights in the queue; and the value of each record it appends
is the sum of the values of its two children, which are older records. -/
theorem merge_loop_sums (tie : List HNode → List Nat → Nat) :
    ∀ (fuel : Nat) (m : Mem) (q : List Nat) (m1 : Mem) (q1 : List Nat),
      (∀ p ∈ q, p < m.heap.length) → merge_loop tie fuel m q = .ok (m1, q1) →
      ∃ extra, m1.heap = m.heap ++ extra ∧
        (∀ c : List (Nat × Nat), (c.map Prod.fst).Perm (q.map (weight m.heap)) → kraft c ≤ 1 →
          (extra.map HNode.value).sum ≤ code_cost c) ∧
        ∀ (i : Nat) (n : HNode), extra[i]? = some n →
          ∃ l r, n.ln = some l ∧ n.rn = some r ∧ l < m.heap.length + i ∧
            r < m.heap.length + i ∧ n.value = weight m1.heap l + weight m1.heap r := by
  intro fuel
  induction fuel with
  | zero => intro m q m1 q1 _ h; simp [merge_loop] at h
  | succ fuel ih =>
    intro m q m1 q1 hq h
    by_cases hlen : q.length = 1
    · simp only [merge_loop, hlen, if_true, Run.ok.injEq, Prod.mk.injEq] at h
      obtain ⟨h1, _⟩ := h
      subst h1
      exact ⟨[], by simp, fun c _ _ => by simp, fun i n hn => by simp at hn⟩
    · simp only [merge_loop, hlen, if_false] at h
      obtain ⟨sn1, hs1, h⟩ := Run.bind_eq_ok.mp h
      obtain ⟨sn2, hs2, h⟩ := Run.bind_eq_ok.mp h
      obtain ⟨hm1, hmin1⟩ := pq_top_spec hs1
      obtain ⟨hm2, hmin2⟩ := pq_top_spec hs2
      simp only [pq_pop] at hm2 hmin2 h
      have hlt1 : sn1 < m.heap.length := hq sn1 hm1
      have hlt2 : sn2 < m.heap.length := hq sn2 (List.mem_of_mem_erase hm2)
      have hq2 : ∀ p ∈ (q.erase sn1).erase sn2, p < m.heap.length := fun p hp =>
        hq p (List.mem_of_mem_erase (List.mem_of_mem_erase hp))
      have hheap : (create_node m (weight m.heap sn1 + weight m.heap sn2) (some sn1) (some sn2)
          DEFAULT_CHAR).2.heap = m.heap ++
            [⟨m.num_nodes + 1, weight m.heap sn1 + weight m.heap sn2, some sn1, some sn2, [],
              DEFAULT_CHAR⟩] := rfl
      have hptr : (create_node m (weight m.heap sn1 + weight m.heap sn2) (some sn1) (some sn2)
          DEFAULT_CHAR).1 = m.heap.length := rfl
      have hq' : ∀ p ∈ (q.erase sn1).erase sn2 ++ [(create_node m
          (weight m.heap sn1 + weight m.heap sn2) (some sn1) (some sn2) DEFAULT_CHAR).1],
          p < (create_node m (weight m.heap sn1 + weight m.heap sn2) (some sn1) (some sn2)
            DEFAULT_CHAR).2.heap.length := by
        intro p hp
        rw [hheap]
        rw [hptr] at hp
        simp only [List.length_append, List.length_singleton]
        rcases List.mem_append.mp hp with hp | hp
        · have := hq2 p hp; omega
        · simp only [List.mem_singleton] at hp; omega
      obtain ⟨extra, he, hopt, hval⟩ := ih _ _ m1 q1 hq' h
      rw [hheap] at he hopt hval
      rw [hptr] at hopt
      refine ⟨⟨m.num_nodes + 1, weight m.heap sn1 + weight m.heap sn2, some sn1, some sn2, [],
        DEFAULT_CHAR⟩ :: extra, by rw [he]; simp, ?_, ?_⟩
      · intro c hc hk
        have hperm : (q.map (weight m.heap)).Perm (weight m.heap sn1 :: weight m.heap sn2 ::
            ((q.erase sn1).erase sn2).map (weight m.heap)) := by
          have p1 : q.Perm (sn1 :: sn2 :: (q.erase sn1).erase sn2) :=
            (List.perm_cons_erase hm1).trans (List.Perm.cons _ (List.perm_cons_erase hm2))
          simpa using p1.map (weight m.heap)
        obtain ⟨c1, hc1, hk1, hcost⟩ := exchange (weight m.heap sn1) (weight m.heap sn2)
          (((q.erase sn1).erase sn2).map (weight m.heap)) c
          (hmin1 sn2 (List.mem_of_mem_erase hm2))
          (by
            intro x hx
            obtain ⟨p, hp, rfl⟩ := List.mem_map.mp hx
            exact hmin2 p (List.mem_of_mem_erase hp))
          (hc.trans hperm) hk
        have hmap : ((q.erase sn1).erase sn2 ++ [m.heap.length]).map
            (weight (m.heap ++ [⟨m.num_nodes + 1, weight m.heap sn1 + weight m.heap sn2,
              some sn1, some sn2, [], DEFAULT_CHAR⟩])) =
            ((q.erase sn1).erase sn2).map (weight m.heap) ++
              [weight m.heap sn1 + weight m.heap sn2] := by
          rw [List.map_append]
          congr 1
          · apply List.map_congr_left
            intro p hp
            exact weight_append_left _ (hq2 p hp)
          · simp only [List.map_cons, List.map_nil, weight_append_length]
        have := hopt c1 (by rw [hmap]; exact hc1) hk1
        simp only [List.map_cons, List.sum_cons]
        omega
      · intro i n hn
        cases i with
        | zero =>
          simp only [List.getElem?_cons_zero, Option.some.injEq] at hn
          subst hn
          refine ⟨sn1, sn2, rfl, rfl, by omega, by omega, ?_⟩
          simp only
          rw [he, List.append_assoc, weight_append_left _ hlt1, weight_append_left _ hlt2]
        | succ i =>
          simp only [List.getElem?_cons_succ] at hn
          obtain ⟨l, r, h1, h2, h3, h4, h5⟩ := hval i n hn
          simp only [List.length_append, List.length_singleton] at h3 h4
          exact ⟨l, r, h1, h2, by omega, by omega, h5⟩

/-! ## The cost of a tree -/

/-- When the value of every record with children is the sum of the values of its
children, the weighted length of the code strings of a tree is the sum of the values of
its records with children (plus, for each character of `binary`, the value of the
root). -/
theorem Tree.codes_cost {H : List HNode} {t : Tree} (hs : Shape H t)
    (hv : ∀ (p : Nat) (n : HNode) (l r : Nat), H[p]? = some n → n.ln = some l →
      n.rn = some r → n.value = weight H l + weight H r) (binary : List Char) :
    ((t.codes binary).map fun x => weight H x.1 * x.2.length).sum =
      binary.length * weight H t.root + (t.inner.map (weight H)).sum := by
  induction t generalizing binary with
  | leaf p => simp [Tree.codes, Tree.inner, Nat.mul_comm]
  | node p l r ihl ihr =>
    obtain ⟨n, hn, hl, hr, sl, sr⟩ := hs
    have hw : weight H p = weight H l.root + weight H r.root := by
      have := hv p n _ _ hn hl hr
      simpa [weight, hn] using this
    simp only [Tree.codes, Tree.inner, List.map_append, List.sum_append, List.map_cons,
      List.sum_cons, ihl sl, ihr sr, List.length_append, List.length_singleton, Tree.root_node,
      hw]
    ring

/-- With the leaves at the pointers below `k` and the other records from `k` on. -/
theorem Tree.inner_leaves_filter {H : List HNode} {t : Tree} {k : Nat} (hs : Shape H t)
    (hrec : ∀ (p : Nat) (n : HNode), H[p]? = some n → (n.ln = none ↔ p < k)) :
    t.inner = t.ptrs.filter (fun p => decide (k ≤ p)) ∧
      t.leaves = t.ptrs.filter (fun p => decide (p < k)) := by
  induction t with
  | leaf p =>
    obtain ⟨n, hn, hl⟩ := hs
    have hp : p < k := (hrec p n hn).mp hl
    have hp' : ¬ k ≤ p := by omega
    simp [Tree.inner, Tree.leaves, Tree.ptrs, hp, hp']
  | node p l r ihl ihr =>
    obtain ⟨n, hn, hl, hr, sl, sr⟩ := hs
    have hp : ¬ p < k := fun h => by
      have := (hrec p n hn).mpr h
      rw [hl] at this; cases this
    have hp' : k ≤ p := by omega
    obtain ⟨i1, l1⟩ := ihl sl
    obtain ⟨i2, l2⟩ := ihr sr
    simp [Tree.inner, Tree.leaves, Tree.ptrs, hp, hp', ← i1, ← i2, ← l1, ← l2]

theorem range_filter_lt {k N : Nat} (h : k ≤ N) :
    (List.range N).filter (fun p => decide (p < k)) = List.range k := by
  induction N with
  | zero =>
    have : k = 0 := by omega
    subst this; rfl
  | succ N ih =>
    rcases Nat.eq_or_lt_of_le h with h1 | h1
    · subst h1
      apply List.filter_eq_self.mpr
      intro p hp
      simpa using List.mem_range.mp hp
    · rw [List.range_succ, List.filter_append, ih (by omega)]
      have : ¬ N < k := by omega
      simp [this]

/-- The values of the records from position `k` on. -/
theorem sum_weight_from (k : Nat) (H : List HNode) :
    (((List.range H.length).filter (fun p => decide (k ≤ p))).map (weight H)).sum =
      ((H.drop k).map HNode.value).sum := by
  induction H using List.reverseRecOn with
  | nil => simp
  | append_singleton H x ih =>
    have hmap : ((List.range H.length).filter (fun p => decide (k ≤ p))).map (weight (H ++ [x])) =
        ((List.range H.length).filter (fun p => decide (k ≤ p))).map (weight H) := by
      apply List.map_congr_left
      intro p hp
      exact weight_append_left _ (List.mem_range.mp (List.mem_of_mem_filter hp))
    rw [List.length_append, List.length_singleton, List.range_succ, List.filter_append,
      List.map_append, List.sum_append, hmap, ih]
    by_cases hk : k ≤ H.length
    · rw [List.drop_append_of_le_length hk]
      simp [hk, weight_append_length]
    · have h1 : H.drop k = [] := List.drop_eq_nil_of_le (by omega)
      have h2 : (H ++ [x]).drop k = [] := List.drop_eq_nil_of_le (by simp; omega)
      simp [hk, h1, h2]

/-! ## The tree of the encoder is optimal -/

theorem build_unfold {tie : List HNode → List Nat → Nat} {m : Mem} {msg : List Byte} {b : Built}
    (hb : build tie m msg = .ok b) :
    ∃ m1 q1 top heap,
      merge_loop tie ((calculate_frequences m msg).1.map Prod.snd).length
        (calculate_frequences m msg).2 ((calculate_frequences m msg).1.map Prod.snd) =
          .ok (m1, q1) ∧
      pq_top tie m1.heap q1 = .ok top ∧
      create_encodings m1.heap.length m1.heap (some top) [] = .ok heap ∧
      b.mem.heap = heap ∧ b.freqs = (calculate_frequences m msg).1 := by
  unfold build at hb
  simp only at hb
  obtain ⟨l, hl, hb⟩ := Run.bind_eq_ok.mp hb
  obtain ⟨top, ht, hb⟩ := Run.bind_eq_ok.mp hb
  obtain ⟨heap, hh, hb⟩ := Run.bind_eq_ok.mp hb
  simp only [Run.pure_eq, Run.ok.injEq] at hb
  subst hb
  exact ⟨l.1, l.2, top, heap, hl, ht, hh, rfl, rfl⟩

theorem weight_assign_codes (cs : List (Nat × List Char)) (H : List HNode) (p : Nat) :
    weight (assign_codes cs H) p = weight H p := by
  simp only [weight, getElem?_assign_codes]
  cases H[p]? <;> rfl

theorem map_value_assign_codes (cs : List (Nat × List Char)) (H : List HNode) :
    (assign_codes cs H).map HNode.value = H.map HNode.value := by
  apply List.ext_getElem?
  intro i
  simp only [List.getElem?_map, getElem?_assign_codes]
  cases H[i]? <;> rfl

/-- The weighted length of the code strings of the tree `build` returns is at most the
cost of any code for the weights `calculate_frequences` put in the queue. -/
theorem build_codes_cost {tie : List HNode → List Nat → Nat} {msg : List Byte} {b : Built}
    {t : Tree} (hb : build tie { num_nodes := 0, heap := [] } msg = .ok b)
    (hI : BuiltInv msg b t) :
    (∀ p, p < msg.toFinset.card → weight b.mem.heap p =
      weight (calculate_frequences { num_nodes := 0, heap := [] } msg).2.heap p) ∧
    ∀ c : List (Nat × Nat),
      (c.map Prod.fst).Perm (((calculate_frequences { num_nodes := 0, heap := [] } msg).1.map
        Prod.snd).map (weight (calculate_frequences { num_nodes := 0, heap := [] } msg).2.heap)) →
      kraft c ≤ 1 →
      ((t.codes []).map fun x => weight b.mem.heap x.1 * x.2.length).sum ≤ code_cost c := by
  obtain ⟨m1, q1, top, heap, hl, _, hh, hheap, hfreqs⟩ := build_unfold hb
  have hcnt := calculate_frequences_counts msg
  have hF := hcnt.inv
  have hklen : (calculate_frequences { num_nodes := 0, heap := [] } msg).2.heap.length =
      msg.toFinset.card := by
    rw [← hF.length, calculate_frequences_length]
  have hq : ∀ p ∈ (calculate_frequences { num_nodes := 0, heap := [] } msg).1.map Prod.snd,
      p < (calculate_frequences { num_nodes := 0, heap := [] } msg).2.heap.length := by
    intro p hp
    rw [hF.ptrs] at hp
    exact List.mem_range.mp hp
  obtain ⟨extra, he, hopt, hval⟩ := merge_loop_sums tie _ _ _ m1 q1 hq hl
  obtain ⟨t1, _, _, hassign⟩ := create_encodings_returns hh
  rw [← hheap] at hassign
  have hw : ∀ p, weight b.mem.heap p = weight m1.heap p := by
    intro p; rw [hassign, weight_assign_codes]
  have hw0 : ∀ p, p < msg.toFinset.card → weight b.mem.heap p =
      weight (calculate_frequences { num_nodes := 0, heap := [] } msg).2.heap p := by
    intro p hp
    rw [hw, he, weight_append_left _ (by omega)]
  refine ⟨hw0, ?_⟩
  intro c hc hk
  -- the value of a record with children is the sum of the values of the children
  have hv : ∀ (p : Nat) (n : HNode) (l r : Nat), b.mem.heap[p]? = some n → n.ln = some l →
      n.rn = some r → n.value = weight b.mem.heap l + weight b.mem.heap r := by
    intro p n l r hn hln hrn
    have hnk : ¬ p < msg.toFinset.card := by
      intro hp
      have := (hI.recs p n hn).2.1.mpr hp
      rw [hln] at this; cases this
    have hn1 : ∃ n1, m1.heap[p]? = some n1 ∧ n1.ln = n.ln ∧ n1.rn = n.rn ∧
        n1.value = n.value := by
      rw [hassign, getElem?_assign_codes] at hn
      cases h1 : m1.heap[p]? with
      | none => rw [h1] at hn; cases hn
      | some n1 =>
        rw [h1] at hn
        simp only [Option.map_some', Option.some.injEq] at hn
        exact ⟨n1, rfl, by rw [← hn], by rw [← hn], by rw [← hn]⟩
    obtain ⟨n1, h1, h2, h3, h4⟩ := hn1
    rw [he, List.getElem?_append_right (by omega)] at h1
    obtain ⟨l1, r1, g1, g2, _, _, g5⟩ := hval _ n1 h1
    rw [h2, hln] at g1
    rw [h3, hrn] at g2
    injection g1 with g1
    injection g2 with g2
    rw [← h4, g5, hw, hw, g1, g2]
  have hcost := Tree.codes_cost hI.shape hv []
  simp only [List.length_nil, Nat.zero_mul, Nat.zero_add] at hcost
  rw [hcost]
  have hfilter := (Tree.inner_leaves_filter hI.shape
    (fun p n hn => (hI.recs p n hn).2.1)).1
  have hperm : t.inner.Perm ((List.range b.mem.heap.length).filter
      fun p => decide (msg.toFinset.card ≤ p)) := by
    rw [hfilter]; exact hI.cover.filter _
  have hvals : b.mem.heap.map HNode.value = m1.heap.map HNode.value := by
    rw [hassign, map_value_assign_codes]
  rw [(hperm.map _).sum_eq, sum_weight_from, List.map_drop, hvals, ← List.map_drop, he, ← hklen,
    List.drop_left]
  exact hopt c hc hk

/-- The keys of the map of `calculate_frequences` are the distinct bytes of the
message. -/
theorem CountInv.keys_perm {seen : List Byte} {freqs : List (Byte × Nat)} {m : Mem}
    (h : CountInv seen freqs m) : (freqs.map Prod.fst).Perm seen.dedup := by
  rw [List.perm_ext_iff_of_nodup h.inv.keys (List.nodup_dedup _)]
  intro c
  rw [h.keys, List.mem_dedup]

/-- The weights in the queue the merge loop starts from are the numbers of occurrences
of the distinct bytes of the message. -/
theorem CountInv.queue_weights {seen : List Byte} {freqs : List (Byte × Nat)} {m : Mem}
    (h : CountInv seen freqs m) :
    ((freqs.map Prod.snd).map (weight m.heap)).Perm (seen.dedup.map fun c => seen.count c) := by
  have h1 : (freqs.map Prod.snd).map (weight m.heap) =
      (freqs.map Prod.fst).map fun c => seen.count c := by
    rw [List.map_map, List.map_map]
    apply List.map_congr_left
    intro e he
    exact h.weight_eq (c := e.1) (p := e.2) he
  rw [h1]
  exact h.keys_perm.map _

/-- The sum over the distinct bytes of the message of occurrences times length of the
code string is the weighted length of the code strings of the tree. -/
theorem build_symbol_cost {tie : List HNode → List Nat → Nat} {msg : List Byte} {b : Built}
    {t : Tree} (hb : build tie { num_nodes := 0, heap := [] } msg = .ok b)
    (hI : BuiltInv msg b t) :
    (msg.dedup.map fun ch => msg.count ch * (code_of b.mem.heap b.freqs ch).length).sum =
      ((t.codes []).map fun x => weight b.mem.heap x.1 * x.2.length).sum := by
  obtain ⟨_, _, _, _, _, _, _, _, hfreqs⟩ := build_unfold hb
  have hw0 := (build_codes_cost hb hI).1
  have hcnt := calculate_frequences_counts msg
  rw [← hfreqs] at hcnt
  have hsz := hI.size
  have hkN : msg.toFinset.card ≤ b.mem.heap.length := by omega
  -- over the leaves
  have s1 : ((t.codes []).map fun x => weight b.mem.heap x.1 * x.2.length) =
      ((t.codes []).map Prod.fst).map fun p =>
        weight b.mem.heap p * (node_at b.mem.heap p).encoding.length := by
    rw [List.map_map]
    apply List.map_congr_left
    intro x hx
    obtain ⟨n, hn, hc⟩ := hI.codes x.1 x.2 hx
    simp only [Function.comp, node_at_eq hn, hc]
  have s2 : ((t.codes []).map Prod.fst).Perm (b.freqs.map Prod.snd) := by
    refine (Tree.codes_fst_perm t []).trans ?_
    rw [(Tree.inner_leaves_filter hI.shape (fun p n hn => (hI.recs p n hn).2.1)).2, hI.ptrs,
      ← range_filter_lt hkN]
    exact hI.cover.filter _
  rw [s1, (s2.map _).sum_eq, List.map_map]
  -- over the keys of the map
  have s3 : (b.freqs.map ((fun p => weight b.mem.heap p * (node_at b.mem.heap p).encoding.length)
        ∘ Prod.snd)) =
      (b.freqs.map Prod.fst).map fun ch =>
        msg.count ch * (code_of b.mem.heap b.freqs ch).length := by
    rw [List.map_map]
    apply List.map_congr_left
    intro e he
    obtain ⟨ch, p⟩ := e
    have hp : p < msg.toFinset.card := by
      have : p ∈ b.freqs.map Prod.snd := List.mem_map_of_mem Prod.snd he
      rw [hI.ptrs] at this
      exact List.mem_range.mp this
    have hlook := lookup_of_mem hI.keys he
    have hn := List.getElem?_eq_getElem (show p < b.mem.heap.length by omega)
    have hwt : weight b.mem.heap p = msg.count ch := by
      rw [hw0 p hp]
      exact hcnt.weight_eq he
    simp only [Function.comp, code_of, hlook, deref_some hn, node_at_eq hn, hwt]
  rw [s3]
  exact ((hcnt.keys_perm).map _).sum_eq.symm

/-- The tree `build` returns costs no more than any code for the numbers of occurrences
of the distinct bytes of the message. -/
theorem build_optimal {tie : List HNode → List Nat → Nat} {msg : List Byte} {b : Built}
    (hb : build tie { num_nodes := 0, heap := [] } msg = .ok b) (c : List (Nat × Nat))
    (hc : (c.map Prod.fst).Perm (msg.dedup.map fun ch => msg.count ch)) (hk : kraft c ≤ 1) :
    (msg.dedup.map fun ch => msg.count ch * (code_of b.mem.heap b.freqs ch).length).sum ≤
      code_cost c := by
  obtain ⟨t, hI⟩ := build_inv hb
  rw [build_symbol_cost hb hI]
  exact (build_codes_cost hb hI).2 c
    (hc.trans (calculate_frequences_counts msg).queue_weights.symm) hk

/-! ## Any other tree -/

theorem CodeTree.depths_fst (u : CodeTree) (d : Nat) :
    (u.depths d).map Prod.fst = u.symbols := by
  induction u generalizing d with
  | leaf ch => rfl
  | node l r ihl ihr => simp [CodeTree.depths, CodeTree.symbols, ihl, ihr]

/-- The Kraft sum of the paths of a tree. -/
theorem CodeTree.kraft_depths (w : Byte → Nat) (u : CodeTree) (d : Nat) :
    kraft ((u.depths d).map fun x => (w x.1, x.2)) = (1 / 2 : ℚ) ^ d := by
  induction u generalizing d with
  | leaf ch => simp [CodeTree.depths, kraft]
  | node l r ihl ihr =>
    simp only [CodeTree.depths, List.map_append, kraft_append, ihl, ihr, pow_succ]
    ring

theorem sum_map_count_dedup (msg : List Byte) (f : Byte → Nat) :
    (msg.map f).sum = (msg.dedup.map fun c => msg.count c * f c).sum := by
  have h : msg.toFinset = msg.dedup.toFinset := by
    ext c; simp
  rw [Finset.sum_list_map_count, h, List.sum_toFinset _ (List.nodup_dedup _)]
  simp

/-! # Properties stated by the specification -/

/-- C1: the round trip does not hold for every byte sequence.  On the one-byte message
`"a"` the encoder writes the header `1`, a table of one leaf record and no payload, and
the decoder, run on that output, returns normally having written nothing. -/
theorem roundtrip_fails_one_byte (tie : List HNode → List Nat → Nat) (g1 g2 fuel : Nat) :
    huffman_encode tie g1 [97] = .ok [49, 32, 1, 1, 97, 0, 0] ∧
      huffman_decode g2 (fuel + 1) [49, 32, 1, 1, 97, 0, 0] = .ok [] := by
  have hsz : (1 : Nat) ≤ SIZE_MAX := by decide
  exact ⟨huffman_encode_replicate tie g1 97 0, huffman_decode_one_leaf g2 fuel 1 97 hsz⟩

/-- C2: for every message with at least 2 and at most 128 distinct byte values,
`huffman_decode` run on the output of `huffman_encode` returns exactly the message,
whatever order `tie` the priority queue follows among entries of equal weight (the
message fits a `size_t`, and the recursion of `create_encodings` is given a depth of
255, the largest number of records). -/
theorem roundtrip_ordinary (tie : List HNode → List Nat → Nat) (g1 g2 fuel : Nat)
    (msg : List Byte) (h2 : 2 ≤ msg.toFinset.card) (h128 : msg.toFinset.card ≤ 128)
    (hsize : msg.length ≤ SIZE_MAX) (hfuel : 255 ≤ fuel) :
    ∃ out, huffman_encode tie g1 msg = .ok out ∧ huffman_decode g2 fuel out = .ok msg :=
  decode_encode tie g1 g2 fuel h2 h128 hsize hfuel

/-- C2, witness: the round trip of `"abracadabra"`. -/
theorem roundtrip_abracadabra :
    ∃ out, huffman_encode (fun _ _ => 0) 0 abracadabra = .ok out ∧
      huffman_decode 0 255 out = .ok abracadabra :=
  roundtrip_ordinary (fun _ _ => 0) 0 0 255 abracadabra (by decide) (by decide) (by decide)
    (by decide)

/-- C3: a message made of `n + 1` copies of one byte is not recovered.  The encoder
writes the header, a table of one leaf record and an empty payload; the decoder, run
on that output, returns normally having written nothing. -/
theorem degenerate_not_recovered (tie : List HNode → List Nat → Nat) (g1 g2 fuel : Nat)
    (c : Byte) (n : Nat) (hsize : n + 1 ≤ SIZE_MAX) :
    huffman_encode tie g1 (List.replicate (n + 1) c) =
        .ok (decimal (n + 1) ++ [32, 1, 1, c, 0, 0]) ∧
      huffman_decode g2 (fuel + 1) (decimal (n + 1) ++ [32, 1, 1, c, 0, 0]) = .ok [] :=
  ⟨huffman_encode_replicate tie g1 c n, huffman_decode_one_leaf g2 fuel (n + 1) c hsize⟩

/-- C3, at the message `"aaaa"`: the output of the encoder is `4 `, the count 1 and the
record of the leaf `'a'`, and the decoder turns it into the empty output. -/
theorem degenerate_aaaa :
    huffman_encode (fun _ _ => 0) 0 [97, 97, 97, 97] = .ok [52, 32, 1, 1, 97, 0, 0] ∧
      huffman_decode 0 1 [52, 32, 1, 1, 97, 0, 0] = .ok [] :=
  degenerate_not_recovered (fun _ _ => 0) 0 0 0 97 3 (by decide)

/-- C4: on the empty input `huffman_encode` writes nothing, and on the empty input
`huffman_decode` writes nothing. -/
theorem empty_in_empty_out (tie : List HNode → List Nat → Nat) (g1 g2 fuel : Nat) :
    huffman_encode tie g1 [] = .ok [] ∧ huffman_decode g2 fuel [] = .ok [] :=
  ⟨rfl, rfl⟩

/-- C5: for every message that is not empty the encoder reaches the point where
`create_encodings` has returned, and then for any two distinct leaf records the code
string of one is not a prefix of the code string of the other, in particular the two
code strings differ; and the code string of a byte of the message is not a prefix of
the code string of another byte of the message. -/
theorem codes_prefix_free (tie : List HNode → List Nat → Nat) (msg : List Byte)
    (hmsg : msg ≠ []) :
    ∃ b, build tie { num_nodes := 0, heap := [] } msg = .ok b ∧
      (∀ (i j : Nat) (a c : HNode), b.mem.heap[i]? = some a → b.mem.heap[j]? = some c →
        a.ln = none → c.ln = none → i ≠ j →
          ¬ a.encoding <+: c.encoding ∧ a.encoding ≠ c.encoding) ∧
      ∀ ch1 ∈ msg, ∀ ch2 ∈ msg, ch1 ≠ ch2 →
        ¬ code_of b.mem.heap b.freqs ch1 <+: code_of b.mem.heap b.freqs ch2 := by
  obtain ⟨b, t, hb, hI⟩ := build_spec tie hmsg
  refine ⟨b, hb, ?_, ?_⟩
  swap
  · intro ch1 h1 ch2 h2 hne hp
    obtain ⟨p1, e1, hc1, he1, hch1⟩ := hI.code_of_mem h1
    obtain ⟨p2, e2, hc2, he2, hch2⟩ := hI.code_of_mem h2
    have hpp := (Tree.codes_no_prefix hc1 hc2 hp).1
    subst hpp
    rw [he1] at he2
    injection he2 with he2
    subst he2
    exact hne (hch1.symm.trans hch2)
  intro i j a c ha hc hal hcl hij
  have key : ∀ (i : Nat) (a : HNode), b.mem.heap[i]? = some a → a.ln = none →
      (i, a.encoding) ∈ t.codes [] := by
    intro i a ha hal
    have hi : i ∈ t.ptrs := hI.mem_ptrs.mpr (List.getElem?_eq_some.mp ha).1
    have hl := hI.shape.mem_leaves hi ha hal
    have : i ∈ (t.codes []).map Prod.fst := (t.codes_fst_perm []).mem_iff.mpr hl
    obtain ⟨⟨q, d⟩, hqd, hq⟩ := List.mem_map.mp this
    simp only at hq
    subst hq
    obtain ⟨n, hn, hnd⟩ := hI.codes q d hqd
    rw [ha] at hn
    injection hn with hn
    rw [hn, hnd]
    exact hqd
  have hnp : ¬ a.encoding <+: c.encoding := fun hp =>
    hij (Tree.codes_no_prefix (key i a ha hal) (key j c hc hcl) hp).1
  exact ⟨hnp, fun he => hnp (he ▸ List.prefix_refl _)⟩

/-- C5, witness: the code strings built for `"abracadabra"`. -/
theorem codes_prefix_free_abracadabra :
    ∃ b, build (fun _ _ => 0) { num_nodes := 0, heap := [] } abracadabra = .ok b ∧
      (∀ (i j : Nat) (a c : HNode), b.mem.heap[i]? = some a → b.mem.heap[j]? = some c →
        a.ln = none → c.ln = none → i ≠ j →
          ¬ a.encoding <+: c.encoding ∧ a.encoding ≠ c.encoding) ∧
      ∀ ch1 ∈ abracadabra, ∀ ch2 ∈ abracadabra, ch1 ≠ ch2 →
        ¬ code_of b.mem.heap b.freqs ch1 <+: code_of b.mem.heap b.freqs ch2 :=
  codes_prefix_free (fun _ _ => 0) abracadabra (by decide)

/-- C6: for every message with `k ≥ 2` distinct byte values the merge loop ends with
one entry in the queue, the root of a tree made of all the records; the counter
`num_nodes` handed to `write_table` is `2k - 1`, the number of records, of which `k`
are leaves and `k - 1` have children. -/
theorem node_count_law (tie : List HNode → List Nat → Nat) (msg : List Byte)
    (hk : 2 ≤ msg.toFinset.card) :
    ∃ b, build tie { num_nodes := 0, heap := [] } msg = .ok b ∧
      b.node_queue = [b.top] ∧
      (∃ t : Tree, t.root = b.top ∧ Shape b.mem.heap t ∧
        t.ptrs.Perm (List.range b.mem.heap.length)) ∧
      b.mem.num_nodes = 2 * msg.toFinset.card - 1 ∧
      b.mem.heap.length = 2 * msg.toFinset.card - 1 ∧
      (b.mem.heap.filter fun n => decide (n.ln = none)).length = msg.toFinset.card ∧
      (b.mem.heap.filter fun n => decide (n.ln ≠ none)).length = msg.toFinset.card - 1 := by
  have hmsg : msg ≠ [] := by
    intro h; subst h; simp at hk
  obtain ⟨b, t, hb, hI⟩ := build_spec tie hmsg
  have hsz := hI.size
  have hc := hI.count
  obtain ⟨h1, h2⟩ := hI.leaf_count (by omega)
  exact ⟨b, hb, hI.queue, ⟨t, hI.top.symm, hI.shape, hI.cover⟩, by omega, by omega, h1, h2⟩

/-- C6, witness: the tree built for `"abracadabra"` has 9 records. -/
theorem node_count_abracadabra :
    abracadabra.toFinset.card = 5 ∧
      ∃ b, build (fun _ _ => 0) { num_nodes := 0, heap := [] } abracadabra = .ok b ∧
        b.mem.num_nodes = 9 := by
  obtain ⟨b, hb, _, _, hn, _⟩ := node_count_law (fun _ _ => 0) abracadabra (by decide)
  have h5 : abracadabra.toFinset.card = 5 := by decide
  exact ⟨h5, b, hb, by rw [hn, h5]⟩

/-- C7: when every byte of the message has a record, `write_encoding` writes exactly
`ceil(B / 8)` bytes, `B` being the sum of the lengths of the code strings of the bytes of
the message; bit `i mod 8` of byte `i div 8` is 1 exactly when character `i` of the
concatenated code strings is `'1'`; and the bits of the last byte from position `B` on
are 0. -/
theorem write_encoding_packs (heap : List HNode) (freqs : List (Byte × Nat)) (msg : List Byte)
    (h : ∀ ch ∈ msg, ∃ n, deref heap (freqs.lookup ch) = .ok n) :
    ∃ out, write_encoding heap freqs msg = .ok out ∧
      out.length = ((msg.map fun ch => (code_of heap freqs ch).length).sum + 7) / 8 ∧
      (∀ i, i < (msg.map fun ch => (code_of heap freqs ch).length).sum →
        ∃ b, out[i / 8]? = some b ∧
          (b.val.testBit (i % 8) = true ↔
            (msg.flatMap (code_of heap freqs))[i]? = some '1')) ∧
      (∀ i, (msg.map fun ch => (code_of heap freqs ch).length).sum ≤ i → i < 8 * out.length →
        ∃ b, out[i / 8]? = some b ∧ b.val.testBit (i % 8) = false) := by
  obtain ⟨out, ho, hlen, hbits⟩ := write_encoding_spec heap freqs msg h
  have hB := code_bits_length heap freqs msg
  rw [hB] at hlen
  refine ⟨out, ho, hlen, ?_, ?_⟩
  · intro i hi
    exact hbits i (by omega)
  · intro i hi hi8
    obtain ⟨b, hb, hbit⟩ := hbits i hi8
    refine ⟨b, hb, ?_⟩
    rw [List.getElem?_eq_none (by omega)] at hbit
    cases hx : b.val.testBit (i % 8) with
    | false => rfl
    | true => have := hbit.mp hx; cases this

/-- C7, witness: the message `"aba"` with the code strings `"1"` for `'a'` and `"00"`
for `'b'`. -/
theorem write_encoding_packs_aba :
    ∃ out, write_encoding
        [{ id := 1, value := 2, ln := none, rn := none, encoding := ['1'], ch := 97 },
         { id := 2, value := 1, ln := none, rn := none, encoding := ['0', '0'], ch := 98 }]
        [(97, 0), (98, 1)] [97, 98, 97] = .ok out ∧ out = [9] := by
  obtain ⟨out, ho, _⟩ := write_encoding_packs
    [{ id := 1, value := 2, ln := none, rn := none, encoding := ['1'], ch := 97 },
     { id := 2, value := 1, ln := none, rn := none, encoding := ['0', '0'], ch := 98 }]
    [(97, 0), (98, 1)] [97, 98, 97]
    (by
      intro ch hch
      simp only [List.mem_cons, List.mem_singleton] at hch
      rcases hch with rfl | rfl | rfl | hch
      · exact ⟨_, rfl⟩
      · exact ⟨_, rfl⟩
      · exact ⟨_, rfl⟩
      · cases hch)
  refine ⟨out, ho, ?_⟩
  have : write_encoding
        [{ id := 1, value := 2, ln := none, rn := none, encoding := ['1'], ch := 97 },
         { id := 2, value := 1, ln := none, rn := none, encoding := ['0', '0'], ch := 98 }]
        [(97, 0), (98, 1)] [97, 98, 97] = .ok [9] := by decide
  rw [this] at ho
  injection ho with ho
  exact ho.symm

/-- C8: when all 256 byte values occur in the message the tree has 511 records, and the
table written by `huffman_encode` does not represent them: the node-count byte is 255,
the records with the ids 1 and 257 are both written with the id byte 1, and the record
with the id 256 is written with the id byte 0, the value that marks "no child". -/
theorem full_alphabet_overflows (tie : List HNode → List Nat → Nat) (g : Nat) (msg : List Byte)
    (hall : ∀ c : Byte, c ∈ msg) :
    ∃ b rest, build tie { num_nodes := 0, heap := [] } msg = .ok b ∧
      b.mem.num_nodes = 511 ∧
      huffman_encode tie g msg = .ok (decimal msg.length ++ 32 :: 255 :: rest) ∧
      (∃ e1 e2, b.mem.heap[0]? = some e1 ∧ b.mem.heap[256]? = some e2 ∧
        e1.id = 1 ∧ e2.id = 257 ∧ toByte e1.id = toByte e2.id) ∧
      (∃ e, b.mem.heap[255]? = some e ∧ e.id = 256 ∧ toByte e.id = 0) := by
  have hcard : msg.toFinset.card = 256 := by
    have : msg.toFinset = Finset.univ := by
      ext c; simp [hall c]
    rw [this, Finset.card_univ, Fintype.card_fin]
  have hmsg : msg ≠ [] := by
    intro h; subst h; simp at hcard
  obtain ⟨b, t, payload, hb, hI, _, henc⟩ := huffman_encode_spec tie g hmsg
  have hsz := hI.size
  have hc := hI.count
  have hlen : b.mem.heap.length = 511 := by omega
  have hnum : b.mem.num_nodes = 511 := by omega
  have id_at : ∀ p, p < 511 → ∃ e, b.mem.heap[p]? = some e ∧ e.id = p + 1 := by
    intro p hp
    have hp' : p < b.mem.heap.length := by omega
    exact ⟨_, List.getElem?_eq_getElem hp', (hI.recs p _ (List.getElem?_eq_getElem hp')).1⟩
  obtain ⟨e1, he1, hid1⟩ := id_at 0 (by decide)
  obtain ⟨e2, he2, hid2⟩ := id_at 256 (by decide)
  obtain ⟨e3, he3, hid3⟩ := id_at 255 (by decide)
  refine ⟨b, t.ptrs.flatMap (record b.mem.heap) ++ payload, hb, hnum, ?_,
    ⟨e1, e2, he1, he2, hid1, hid2, ?_⟩, ⟨e3, he3, hid3, ?_⟩⟩
  · rw [henc, hnum]; rfl
  · rw [hid1, hid2]; rfl
  · rw [hid3]; rfl

/-- C8, at the message made of the 256 byte values in increasing order. -/
theorem full_alphabet_overflows_all_bytes :
    ∃ b rest, build (fun _ _ => 0) { num_nodes := 0, heap := [] } (List.finRange 256) = .ok b ∧
      b.mem.num_nodes = 511 ∧
      huffman_encode (fun _ _ => 0) 0 (List.finRange 256) =
        .ok (decimal (List.finRange 256).length ++ 32 :: 255 :: rest) ∧
      (∃ e1 e2, b.mem.heap[0]? = some e1 ∧ b.mem.heap[256]? = some e2 ∧
        e1.id = 1 ∧ e2.id = 257 ∧ toByte e1.id = toByte e2.id) ∧
      (∃ e, b.mem.heap[255]? = some e ∧ e.id = 256 ∧ toByte e.id = 0) :=
  full_alphabet_overflows (fun _ _ => 0) 0 (List.finRange 256) (fun c => List.mem_finRange c)

/-- C9, counterexample: the header of `truncated_file` asks for 9 symbols and its
payload holds 8; `huffman_decode` returns normally with the 8 bytes. -/
theorem truncated_payload_not_rejected :
    (read_size truncated_file).map Prod.fst = some 9 ∧
      huffman_decode 0 3 truncated_file = .ok [98, 98, 98, 98, 98, 98, 98, 98] := by
  decide

/-- C9, amended: when the header, the table and `create_encodings` went through, the
symbols held by the payload are defined, and when they are fewer than the header asks
for, `huffman_decode` returns normally and what it has written is exactly those
symbols. -/
theorem truncated_payload_returns (g fuel : Nat) (input : List Byte) (msg_size : Nat)
    (heap : List HNode) (top : Option Nat) (payload : List Byte)
    (hfront : decode_front fuel input = some (.ok (msg_size, heap, top, payload))) :
    ∃ syms, symbols_in heap top (unpack payload) [] = .ok syms ∧
      (syms.length < msg_size → huffman_decode g fuel input = .ok syms) := by
  obtain ⟨t, ht, hs⟩ := decode_front_shape hfront
  subst ht
  obtain ⟨syms, hsyms⟩ := symbols_in_returns hs (unpack payload) []
  refine ⟨syms, hsyms, ?_⟩
  intro hshort
  obtain ⟨enc, henc⟩ := decode_chars_short heap (some t.root) msg_size (unpack payload) [] 0 []
    syms hsyms (by omega)
  rw [huffman_decode_eq, hfront]
  simp only [Run.ok_bind, decode_loop_eq, henc, Run.pure_eq, List.nil_append]

/-- C9, witness of the amended claim: `truncated_file`, whose payload holds 8 symbols
where the header asks for 9. -/
theorem truncated_payload_returns_file :
    decode_front 3 truncated_file = some (.ok (9,
        [{ id := 1, value := 0, ln := none, rn := none, encoding := ['1'], ch := 97 },
         { id := 2, value := 0, ln := none, rn := none, encoding := ['0'], ch := 98 },
         { id := 3, value := 0, ln := some 0, rn := some 1, encoding := [], ch := 36 }],
        some 2, [0])) ∧
      huffman_decode 0 3 truncated_file = .ok [98, 98, 98, 98, 98, 98, 98, 98] := by
  have hfront : decode_front 3 truncated_file = some (.ok (9,
        [{ id := 1, value := 0, ln := none, rn := none, encoding := ['1'], ch := 97 },
         { id := 2, value := 0, ln := none, rn := none, encoding := ['0'], ch := 98 },
         { id := 3, value := 0, ln := some 0, rn := some 1, encoding := [], ch := 36 }],
        some 2, [0])) := by decide
  obtain ⟨syms, hs, h⟩ := truncated_payload_returns 0 3 truncated_file 9 _ _ _ hfront
  have hs' : symbols_in
        [{ id := 1, value := 0, ln := none, rn := none, encoding := ['1'], ch := 97 },
         { id := 2, value := 0, ln := none, rn := none, encoding := ['0'], ch := 98 },
         { id := 3, value := 0, ln := some 0, rn := some 1, encoding := [], ch := 36 }]
        (some 2) (unpack [0]) [] = .ok [98, 98, 98, 98, 98, 98, 98, 98] := by decide
  rw [hs'] at hs
  injection hs with hs
  subst hs
  exact ⟨hfront, h (by decide)⟩

/-- C10, counterexample: the input `"abc"` does not begin with a header, and
`huffman_decode` returns normally with the empty output, as it does on the empty
input. -/
theorem malformed_header_not_rejected :
    huffman_decode 0 0 [97, 98, 99] = .ok [] ∧
      huffman_decode 0 0 [97, 98, 99] = huffman_decode 0 0 [] := by
  decide

/-- C10, amended: when no count can be extracted from the start of the input,
`huffman_decode` returns normally and writes nothing. -/
theorem malformed_header_returns_empty (g fuel : Nat) (input : List Byte)
    (h : read_size input = none) : huffman_decode g fuel input = .ok [] := by
  simp only [huffman_decode, h]

/-- C10, witness of the amended claim: the input `"abc"`. -/
theorem malformed_header_returns_empty_abc :
    read_size [97, 98, 99] = none ∧ huffman_decode 0 0 [97, 98, 99] = .ok [] :=
  ⟨by decide, malformed_header_returns_empty 0 0 [97, 98, 99] (by decide)⟩

/-- C14: in a round of the merge loop (the queue holds at least two entries) the two
entries removed have weights not greater than the weight of any entry left in the
queue, the first removed is not heavier than the second, and the record inserted has
the first as left child, the second as right child and the sum of their weights as
weight; the loop goes on with that record allocated and queued. -/
theorem greedy_merge_step (tie : List HNode → List Nat → Nat) (fuel : Nat) (m : Mem)
    (q : List Nat) (hq : 2 ≤ q.length) :
    ∃ sn1 sn2 parent,
      pq_top tie m.heap q = .ok sn1 ∧ pq_top tie m.heap (pq_pop q sn1) = .ok sn2 ∧
      sn1 ∈ q ∧ sn2 ∈ pq_pop q sn1 ∧
      weight m.heap sn1 ≤ weight m.heap sn2 ∧
      (∀ r ∈ pq_pop (pq_pop q sn1) sn2,
        weight m.heap sn1 ≤ weight m.heap r ∧ weight m.heap sn2 ≤ weight m.heap r) ∧
      parent.ln = some sn1 ∧ parent.rn = some sn2 ∧
      parent.value = weight m.heap sn1 + weight m.heap sn2 ∧
      merge_loop tie (fuel + 1) m q =
        merge_loop tie fuel { num_nodes := m.num_nodes + 1, heap := m.heap ++ [parent] }
          (pq_pop (pq_pop q sn1) sn2 ++ [m.heap.length]) := by
  have hne : q ≠ [] := by intro h; simp [h] at hq
  obtain ⟨sn1, hs1⟩ := pq_top_ok tie m.heap hne
  obtain ⟨hm1, hmin1⟩ := pq_top_spec hs1
  have hl1 : (q.erase sn1).length = q.length - 1 := List.length_erase_of_mem hm1
  have hne1 : q.erase sn1 ≠ [] := by
    intro h; rw [h] at hl1; simp at hl1; omega
  obtain ⟨sn2, hs2⟩ := pq_top_ok tie m.heap hne1
  obtain ⟨hm2, hmin2⟩ := pq_top_spec hs2
  refine ⟨sn1, sn2,
    ⟨m.num_nodes + 1, weight m.heap sn1 + weight m.heap sn2, some sn1, some sn2, [],
      DEFAULT_CHAR⟩, hs1, hs2, hm1, hm2, hmin1 sn2 (List.mem_of_mem_erase hm2), ?_, rfl, rfl, rfl, ?_⟩
  · intro r hr
    have hr1 : r ∈ q.erase sn1 := List.mem_of_mem_erase hr
    exact ⟨hmin1 r (List.mem_of_mem_erase hr1), hmin2 r hr1⟩
  · have hq1 : ¬ q.length = 1 := by omega
    simp only [merge_loop, hq1, if_false, hs1, Run.ok_bind, hs2, pq_pop, create_node]

/-- C14, witness: a queue of three leaves with the weights 5, 2 and 2. -/
theorem greedy_merge_step_three :
    ∃ sn1 sn2 parent,
      pq_top (fun _ _ => 0) three_leaves [0, 1, 2] = .ok sn1 ∧
      pq_top (fun _ _ => 0) three_leaves (pq_pop [0, 1, 2] sn1) = .ok sn2 ∧
      sn1 ∈ [0, 1, 2] ∧ sn2 ∈ pq_pop [0, 1, 2] sn1 ∧
      weight three_leaves sn1 ≤ weight three_leaves sn2 ∧
      (∀ r ∈ pq_pop (pq_pop [0, 1, 2] sn1) sn2,
        weight three_leaves sn1 ≤ weight three_leaves r ∧
          weight three_leaves sn2 ≤ weight three_leaves r) ∧
      parent.ln = some sn1 ∧ parent.rn = some sn2 ∧
      parent.value = weight three_leaves sn1 + weight three_leaves sn2 ∧
      merge_loop (fun _ _ => 0) (2 + 1) { num_nodes := 3, heap := three_leaves } [0, 1, 2] =
        merge_loop (fun _ _ => 0) 2 { num_nodes := 3 + 1, heap := three_leaves ++ [parent] }
          (pq_pop (pq_pop [0, 1, 2] sn1) sn2 ++ [three_leaves.length]) :=
  greedy_merge_step (fun _ _ => 0) 2 { num_nodes := 3, heap := three_leaves } [0, 1, 2]
    (by decide)

/-- C15: `calculate_frequences`, from the state in which `huffman_encode` calls it,
returns a map without repeated keys whose keys are exactly the bytes of the message;
the record of each key has no children, carries the key as its symbol and has the
number of occurrences of the key as weight; the weights sum to the length of the
message, and the empty message gives the empty map. -/
theorem frequency_counting (msg : List Byte) :
    ((calculate_frequences { num_nodes := 0, heap := [] } msg).1.map Prod.fst).Nodup ∧
    (∀ c, c ∈ (calculate_frequences { num_nodes := 0, heap := [] } msg).1.map Prod.fst ↔
      c ∈ msg) ∧
    (∀ c p, (calculate_frequences { num_nodes := 0, heap := [] } msg).1.lookup c = some p →
      ∃ n, (calculate_frequences { num_nodes := 0, heap := [] } msg).2.heap[p]? = some n ∧
        n.ln = none ∧ n.rn = none ∧ n.ch = c ∧ n.value = msg.count c) ∧
    ((calculate_frequences { num_nodes := 0, heap := [] } msg).1.map fun e =>
      weight (calculate_frequences { num_nodes := 0, heap := [] } msg).2.heap e.2).sum =
        msg.length ∧
    (calculate_frequences { num_nodes := 0, heap := [] } []).1 = [] := by
  have h := calculate_frequences_counts msg
  refine ⟨h.inv.keys, h.keys, ?_, h.sum_weights, rfl⟩
  intro c p hl
  obtain ⟨n, hn, hch⟩ := h.inv.key_of_ptr (lookup_some_mem hl)
  obtain ⟨_, h2, h3, _, _⟩ := h.inv.recs p n hn
  exact ⟨n, hn, h2, h3, hch, by rw [h.vals p n hn, hch]⟩

/-- C16: on records linked as a tree, each record once, whose leaves got their code
strings from `create_encodings`, `get_node` called on the top with the string `e` (and
room for a recursion of depth `|e| + 1`) returns what the walk along `e` gives: the leaf
reached after exactly `|e|` edges, `'0'` leading to the right child and `'1'` to the left
child, and the null pointer when the walk ends at a record with children or meets a
leaf before `e` is used up. -/
theorem get_node_is_walk (H0 H : List HNode) (t : Tree) (fuel gfuel : Nat) (e : List Char)
    (hs : Shape H0 t) (hnd : t.ptrs.Nodup)
    (hce : create_encodings fuel H0 (some t.root) [] = .ok H) (hg : e.length < gfuel) :
    get_node gfuel H (some t.root) e 0 = .ok (walk H (some t.root) e) := by
  obtain ⟨hshape, hcodes⟩ := create_encodings_codes hs hnd hce
  have := get_node_shape gfuel [] e hshape hcodes (Nat.zero_le _) (by simpa using hg)
  simp only [List.length_nil] at this
  rw [this]
  have := Tree.find_eq_walk hshape [] e
  simpa using this

/-- C16, witness: the string `"0"` on a root with two leaves leads to the right
child. -/
theorem get_node_is_walk_small :
    get_node 2
        [{ id := 1, value := 0, ln := none, rn := none, encoding := ['1'], ch := 97 },
         { id := 2, value := 0, ln := none, rn := none, encoding := ['0'], ch := 98 },
         { id := 3, value := 0, ln := some 0, rn := some 1, encoding := [], ch := 36 }]
        (some 2) ['0'] 0 = .ok (some 1) :=
  get_node_is_walk small_tree _ (Tree.node 2 (Tree.leaf 0) (Tree.leaf 1)) 2 2 ['0']
    ⟨_, rfl, rfl, rfl, ⟨_, rfl, rfl⟩, ⟨_, rfl, rfl⟩⟩ (by decide) (by decide) (by decide)

/-- C19: the value of the global counter at the start of a call has no influence: for
any two values `huffman_encode` returns the same bytes and `huffman_decode` returns
the same bytes; and the ids of a call start at 1: the record at position `p` in the
order of creation has the id `p + 1`, in the encoder and in the decoder. -/
theorem counter_independent (tie : List HNode → List Nat → Nat) (g1 g2 fuel : Nat)
    (msg input : List Byte) :
    huffman_encode tie g1 msg = huffman_encode tie g2 msg ∧
    huffman_decode g1 fuel input = huffman_decode g2 fuel input ∧
    (msg ≠ [] → ∃ b, build tie { num_nodes := 0, heap := [] } msg = .ok b ∧
      (∃ e, b.mem.heap[0]? = some e ∧ e.id = 1) ∧
      ∀ (p : Nat) (e : HNode), b.mem.heap[p]? = some e → e.id = p + 1) ∧
    ∀ (n p : Nat) (e : HNode),
      (create_nodes n { num_nodes := 0, heap := [] } []).1.heap[p]? = some e → e.id = p + 1 := by
  refine ⟨rfl, rfl, ?_, ?_⟩
  · intro hmsg
    obtain ⟨b, t, hb, hI⟩ := build_spec tie hmsg
    have hpos : 0 < b.mem.heap.length := by
      have := hI.size
      have : 1 ≤ msg.toFinset.card := by
        cases msg with
        | nil => exact absurd rfl hmsg
        | cons a l => exact Finset.card_pos.mpr ⟨a, by simp⟩
      omega
    exact ⟨b, hb, ⟨_, List.getElem?_eq_getElem hpos,
      (hI.recs 0 _ (List.getElem?_eq_getElem hpos)).1⟩, fun p e he => (hI.recs p e he).1⟩
  · intro n p e he
    have hc := create_nodes_spec n 0
    simp only [List.range_zero, List.map_nil, Nat.zero_add] at hc
    rw [hc] at he
    simp only [List.getElem?_map] at he
    cases hr : (List.range n)[p]? with
    | none => rw [hr] at he; cases he
    | some i =>
      rw [hr] at he
      simp only [Option.map_some', Option.some.injEq] at he
      have hp : p < n := by
        have := (List.getElem?_eq_some.mp hr).1
        simpa using this
      rw [List.getElem?_range hp] at hr
      injection hr with hr
      subst hr
      rw [← he]; rfl

/-- C11: when the header, the table and `create_encodings` went through,
`huffman_decode` returns the first `msg_size` symbols held by the payload when the
count `msg_size` of the header is at least 1, but every symbol held by the payload when
the count is 0: the test `num_chars == msg_size` is made only after a symbol has been
written, so a count of 0 never stops the loop. -/
theorem zero_count_never_stops (g fuel : Nat) (input : List Byte) (msg_size : Nat)
    (heap : List HNode) (top : Option Nat) (payload : List Byte)
    (hfront : decode_front fuel input = some (.ok (msg_size, heap, top, payload))) :
    ∃ syms, symbols_in heap top (unpack payload) [] = .ok syms ∧
      huffman_decode g fuel input = .ok (if msg_size = 0 then syms else syms.take msg_size) := by
  obtain ⟨t, ht, hs⟩ := decode_front_shape hfront
  subst ht
  obtain ⟨syms, hsyms⟩ := symbols_in_returns hs (unpack payload) []
  refine ⟨syms, hsyms, ?_⟩
  rw [huffman_decode_eq, hfront]
  by_cases h0 : msg_size = 0
  · obtain ⟨r, hr, hout⟩ := decode_chars_past heap (some t.root) msg_size (unpack payload) [] 0 []
      syms hsyms (by omega)
    simp only [Run.ok_bind, decode_loop_eq, hr, Run.pure_eq, hout, List.nil_append]
    rw [if_pos h0]
  · obtain ⟨r, hr, hout⟩ := decode_chars_take heap (some t.root) msg_size (unpack payload) [] 0 []
      syms hsyms (by omega)
    simp only [Run.ok_bind, decode_loop_eq, hr, Run.pure_eq, hout, List.nil_append, h0, if_false,
      Nat.sub_zero]

/-- C11, at `zero_count_file`: the header declares 0 symbols and `huffman_decode`
writes 8 bytes. -/
theorem zero_count_never_stops_file :
    (read_size zero_count_file).map Prod.fst = some 0 ∧
      huffman_decode 0 3 zero_count_file = .ok [98, 98, 98, 98, 98, 98, 98, 98] := by
  have hfront : decode_front 3 zero_count_file = some (.ok (0,
        [{ id := 1, value := 0, ln := none, rn := none, encoding := ['1'], ch := 97 },
         { id := 2, value := 0, ln := none, rn := none, encoding := ['0'], ch := 98 },
         { id := 3, value := 0, ln := some 0, rn := some 1, encoding := [], ch := 36 }],
        some 2, [0])) := by decide
  obtain ⟨syms, hs, h⟩ := zero_count_never_stops 0 3 zero_count_file 0 _ _ _ hfront
  have hs' : symbols_in
        [{ id := 1, value := 0, ln := none, rn := none, encoding := ['1'], ch := 97 },
         { id := 2, value := 0, ln := none, rn := none, encoding := ['0'], ch := 98 },
         { id := 3, value := 0, ln := some 0, rn := some 1, encoding := [], ch := 36 }]
        (some 2) (unpack [0]) [] = .ok [98, 98, 98, 98, 98, 98, 98, 98] := by decide
  rw [hs'] at hs
  injection hs with hs
  subst hs
  exact ⟨by decide, h⟩

/-- C12: when all 256 byte values occur in the message, the output of `huffman_encode`
is the decimal text of the length, one space, the node-count byte 255 and then the
records of the tree in pre-order (record, left subtree, right subtree), four bytes
each, followed by the payload; but the records are 511, not 255. -/
theorem layout_count_truncated (tie : List HNode → List Nat → Nat) (g : Nat) (msg : List Byte)
    (hall : ∀ c : Byte, c ∈ msg) :
    ∃ b t payload, build tie { num_nodes := 0, heap := [] } msg = .ok b ∧
      Shape b.mem.heap t ∧ t.root = b.top ∧
      write_encoding b.mem.heap b.freqs msg = .ok payload ∧
      huffman_encode tie g msg =
        .ok (decimal msg.length ++ 32 :: 255 ::
          (t.ptrs.flatMap (record b.mem.heap) ++ payload)) ∧
      t.ptrs.length = 511 ∧
      (∀ p ∈ t.ptrs, (record b.mem.heap p).length = 4) ∧
      (t.ptrs.flatMap (record b.mem.heap)).length = 4 * 511 := by
  have hcard : msg.toFinset.card = 256 := by
    have : msg.toFinset = Finset.univ := by
      ext c; simp [hall c]
    rw [this, Finset.card_univ, Fintype.card_fin]
  have hmsg : msg ≠ [] := by
    intro h; subst h; simp at hcard
  obtain ⟨b, t, payload, hb, hI, hp, henc⟩ := huffman_encode_spec tie g hmsg
  have hsz := hI.size
  have hc := hI.count
  have hlen : b.mem.heap.length = 511 := by omega
  have hnum : b.mem.num_nodes = 511 := by omega
  have hrec : ∀ p, (record b.mem.heap p).length = 4 := by
    intro p
    unfold record
    split <;> rfl
  have hflat : ∀ l : List Nat, (l.flatMap (record b.mem.heap)).length = 4 * l.length := by
    intro l
    induction l with
    | nil => rfl
    | cons p l ih =>
      simp only [List.flatMap_cons, List.length_append, ih, hrec, List.length_cons]
      omega
  refine ⟨b, t, payload, hb, hI.shape, hI.top.symm, hp, ?_, ?_, fun p _ => hrec p, ?_⟩
  · rw [henc, hnum]; rfl
  · rw [hI.length_ptrs, hlen]
  · rw [hflat, hI.length_ptrs, hlen]

/-- C12, at the message made of the 256 byte values in increasing order. -/
theorem layout_count_truncated_all_bytes :
    ∃ b t payload,
      build (fun _ _ => 0) { num_nodes := 0, heap := [] } (List.finRange 256) = .ok b ∧
      Shape b.mem.heap t ∧ t.root = b.top ∧
      write_encoding b.mem.heap b.freqs (List.finRange 256) = .ok payload ∧
      huffman_encode (fun _ _ => 0) 0 (List.finRange 256) =
        .ok (decimal (List.finRange 256).length ++ 32 :: 255 ::
          (t.ptrs.flatMap (record b.mem.heap) ++ payload)) ∧
      t.ptrs.length = 511 ∧
      (∀ p ∈ t.ptrs, (record b.mem.heap p).length = 4) ∧
      (t.ptrs.flatMap (record b.mem.heap)).length = 4 * 511 :=
  layout_count_truncated (fun _ _ => 0) 0 (List.finRange 256) (fun c => List.mem_finRange c)

/-- C13: for the records `build` returns, when they are at most 255, `write_table`
writes the header and the bytes `tree` of `write_tree`; the table loop of
`huffman_decode`, run on those bytes after its loop creating the records, returns
records `D` with the same top, and at every position the same id, symbol, left child
and right child as in the encoder; `create_encodings` (with room for a recursion of
depth 255) then returns records `H`, still with the same ids, symbols and children,
in which every leaf has the code string it has in the encoder. -/
theorem table_round_trip (tie : List HNode → List Nat → Nat) (msg : List Byte) (b : Built)
    (msg_size fuel : Nat) (payload : List Byte)
    (hb : build tie { num_nodes := 0, heap := [] } msg = .ok b)
    (hN : b.mem.heap.length ≤ 255) (hsize : msg_size ≤ SIZE_MAX) (hfuel : 255 ≤ fuel) :
    ∃ tree D H,
      write_tree b.mem.heap.length b.mem.heap (some b.top) = .ok tree ∧
      write_table b.mem.heap.length b.mem msg_size (some b.top) =
        .ok (decimal msg_size ++ 32 :: toByte b.mem.num_nodes :: tree) ∧
      read_table (create_nodes b.mem.heap.length { num_nodes := 0, heap := [] } []).2
          b.mem.heap.length 0
          (create_nodes b.mem.heap.length { num_nodes := 0, heap := [] } []).1.heap none
          (tree ++ payload) = .ok (D, some b.top, payload) ∧
      create_encodings fuel D (some b.top) [] = .ok H ∧
      decode_front fuel (decimal msg_size ++ 32 :: toByte b.mem.num_nodes :: (tree ++ payload)) =
        some (.ok (msg_size, H, some b.top, payload)) ∧
      D.length = b.mem.heap.length ∧ H.length = b.mem.heap.length ∧
      ∀ (p : Nat) (e : HNode), b.mem.heap[p]? = some e →
        ∃ d h, D[p]? = some d ∧ H[p]? = some h ∧
          d.id = e.id ∧ d.ch = e.ch ∧ d.ln = e.ln ∧ d.rn = e.rn ∧
          h.id = e.id ∧ h.ch = e.ch ∧ h.ln = e.ln ∧ h.rn = e.rn ∧
          (e.ln = none → h.encoding = e.encoding) := by
  obtain ⟨t, hI⟩ := build_inv hb
  have hd : t.depth ≤ b.mem.heap.length := by
    rw [← hI.length_ptrs]; exact t.depth_le
  have hw := write_tree_shape b.mem.heap.length hI.shape hd
  have hd2 : t.depth ≤ fuel := by omega
  have hce := create_encodings_shape fuel [] hI.shape.of_strip hd2
  have hcreate := create_nodes_spec b.mem.heap.length 0
  simp only [List.range_zero, List.map_nil, Nat.zero_add] at hcreate
  have htable := read_table_built hI hN payload
  have hfront := decode_front_built hI hN msg_size fuel hsize hfuel payload
  rw [← hI.top] at hw hce htable hfront
  refine ⟨t.ptrs.flatMap (record b.mem.heap), b.mem.heap.map strip,
    assign_codes (t.codes []) (b.mem.heap.map strip), hw, ?_, ?_, hce, hfront, by simp, ?_, ?_⟩
  · simp only [write_table, hw, Run.ok_bind, Run.pure_eq]
    simp
  · rw [hcreate]; exact htable
  · rw [length_assign_codes]; simp
  · intro p e he
    obtain ⟨h, hh, h1, h2, h3, h4, h5⟩ := assigned_strip_built hI p e he
    exact ⟨strip e, h, by rw [getElem?_map_strip, he]; rfl, hh, rfl, rfl, rfl, rfl, h1, h2, h3,
      h4, h5⟩

/-- C13, witness: the tree built for `"aba"`, written with the count 3 and read back
in front of the payload byte 5. -/
theorem table_round_trip_aba :
    build (fun _ _ => 0) { num_nodes := 0, heap := [] } [97, 98, 97] = .ok aba_built ∧
    ∃ tree D H,
      write_tree 3 aba_built.mem.heap (some 2) = .ok tree ∧
      write_table 3 aba_built.mem 3 (some 2) = .ok (decimal 3 ++ 32 :: toByte 3 :: tree) ∧
      read_table (create_nodes 3 { num_nodes := 0, heap := [] } []).2 3 0
          (create_nodes 3 { num_nodes := 0, heap := [] } []).1.heap none
          (tree ++ [5]) = .ok (D, some 2, [5]) ∧
      create_encodings 255 D (some 2) [] = .ok H ∧
      decode_front 255 (decimal 3 ++ 32 :: toByte 3 :: (tree ++ [5])) =
        some (.ok (3, H, some 2, [5])) ∧
      D.length = 3 ∧ H.length = 3 ∧
      ∀ (p : Nat) (e : HNode), aba_built.mem.heap[p]? = some e →
        ∃ d h, D[p]? = some d ∧ H[p]? = some h ∧
          d.id = e.id ∧ d.ch = e.ch ∧ d.ln = e.ln ∧ d.rn = e.rn ∧
          h.id = e.id ∧ h.ch = e.ch ∧ h.ln = e.ln ∧ h.rn = e.rn ∧
          (e.ln = none → h.encoding = e.encoding) :=
  ⟨by decide, table_round_trip (fun _ _ => 0) [97, 98, 97] aba_built 3 255 [5] (by decide)
    (by decide) (by decide) (by decide)⟩

/-- C17, counterexample: on `one_child_table` the table loop of `huffman_decode` leaves
the first record with a left child and no right child: the right-child id 9 is not the
id of a record, and `nodes[9]` is the null pointer. -/
theorem one_child_constructed :
    read_table (create_nodes 2 { num_nodes := 0, heap := [] } []).2 2 0
        (create_nodes 2 { num_nodes := 0, heap := [] } []).1.heap none one_child_table =
      .ok ([{ id := 1, value := 0, ln := some 1, rn := none, encoding := [], ch := 36 },
            { id := 2, value := 0, ln := none, rn := none, encoding := [], ch := 97 }],
           some 0, []) := by
  decide

/-- C17, amended: every record `build` returns has either no child or both children (and
`build` returns on every non-empty message); and the table loop of `huffman_decode`,
after `n` records were created, returns records with either no child or both children
when in each of the `n` records of the table the left-child id is 0 or both child ids
lie between 1 and `n`. -/
theorem strict_when_child_ids_valid (n : Nat) (s : List Byte)
    (out : List HNode × Option Nat × List Byte) (hids : child_ids_ok n n s = true)
    (hread : read_table (create_nodes n { num_nodes := 0, heap := [] } []).2 n 0
      (create_nodes n { num_nodes := 0, heap := [] } []).1.heap none s = .ok out) :
    Strict out.1 ∧
      ∀ (tie : List HNode → List Nat → Nat) (msg : List Byte), msg ≠ [] →
        ∃ b, build tie { num_nodes := 0, heap := [] } msg = .ok b ∧ Strict b.mem.heap := by
  have hcreate := create_nodes_spec n 0
  simp only [List.range_zero, List.map_nil, Nat.zero_add] at hcreate
  rw [hcreate] at hread
  refine ⟨Strict.read_table n 0 _ none s out (Strict.fresh n) hids hread, ?_⟩
  intro tie msg hmsg
  obtain ⟨b, t, hb, hI⟩ := build_spec tie hmsg
  exact ⟨b, hb, fun p e he => (hI.recs p e he).2.2.1⟩

/-- C17, witness of the amended claim: the table of a root with two leaves. -/
theorem strict_when_child_ids_valid_small :
    child_ids_ok 3 3 [3, 36, 1, 2, 1, 97, 0, 0, 2, 98, 0, 0] = true ∧
      read_table (create_nodes 3 { num_nodes := 0, heap := [] } []).2 3 0
        (create_nodes 3 { num_nodes := 0, heap := [] } []).1.heap none
        [3, 36, 1, 2, 1, 97, 0, 0, 2, 98, 0, 0] = .ok (small_tree, some 2, []) ∧
      Strict small_tree :=
  ⟨by decide, by decide,
    (strict_when_child_ids_valid 3 [3, 36, 1, 2, 1, 97, 0, 0, 2, 98, 0, 0]
      (small_tree, some 2, []) (by decide) (by decide)).1⟩

theorem acyclic_small_tree : Acyclic small_tree := by
  apply Acyclic.of_rank id
  intro q p h
  obtain ⟨n, hn, hl, hq⟩ := h
  rcases p with _ | _ | _ | p
  · simp [small_tree] at hn; subst hn; simp at hl
  · simp [small_tree] at hn; subst hn; simp at hl
  · simp [small_tree] at hn; subst hn
    simp only [Option.some.injEq] at hq
    simp only [id]
    omega
  · simp [small_tree] at hn

/-- C18, counterexample: the table of `cyclic_file` has one record, whose child ids are
its own id; `create_encodings` calls itself on that record without end, and
`huffman_decode` uses up every recursion budget. -/
theorem self_child_diverges :
    decode_table cyclic_file = some (.ok (1,
        [{ id := 1, value := 0, ln := some 0, rn := some 0, encoding := [], ch := 36 }],
        some 0, [])) ∧
      Diverges (fun fuel => huffman_decode 0 fuel cyclic_file) :=
  ⟨decode_table_cyclic_file, fun fuel => huffman_decode_cyclic_file 0 fuel⟩

/-- C18, amended: `huffman_encode` returns on every input; `huffman_decode` comes to an
end on every input whose table, as the table loop leaves it, makes no record its own
descendant; whenever `create_encodings` has returned, `huffman_decode` returns; and
`huffman_decode` can use up a recursion budget only inside `create_encodings`. -/
theorem terminates_without_cycle (tie : List HNode → List Nat → Nat) (g1 g2 : Nat)
    (msg input : List Byte)
    (hacyc : ∀ x, decode_table input = some (.ok x) → Acyclic x.2.1) :
    (∃ out, huffman_encode tie g1 msg = .ok out) ∧
      Terminates (fun fuel => huffman_decode g2 fuel input) ∧
      (∀ fuel x, decode_front fuel input = some (.ok x) →
        ∃ out, huffman_decode g2 fuel input = .ok out) ∧
      ∀ fuel, huffman_decode g2 fuel input = .fuel →
        ∃ x, decode_table input = some (.ok x) ∧
          create_encodings fuel x.2.1 x.2.2.1 [] = .fuel :=
  ⟨huffman_encode_returns tie g1 msg, huffman_decode_terminates g2 input hacyc,
    fun fuel _ h => huffman_decode_returns g2 fuel h, fun _ h => huffman_decode_fuel h⟩

/-- C18, witness of the amended claim: `zero_count_file`, whose table is a root with two
leaves. -/
theorem terminates_without_cycle_file :
    decode_table zero_count_file = some (.ok (0, small_tree, some 2, [0])) ∧
      Acyclic small_tree ∧
      Terminates (fun fuel => huffman_decode 0 fuel zero_count_file) := by
  have ht : decode_table zero_count_file = some (.ok (0, small_tree, some 2, [0])) := by decide
  refine ⟨ht, acyclic_small_tree, ?_⟩
  refine (terminates_without_cycle (fun _ _ => 0) 0 0 [] zero_count_file ?_).2.1
  intro x hx
  rw [ht] at hx
  simp only [Option.some.injEq, Run.ok.injEq] at hx
  rw [← hx]
  exact acyclic_small_tree

/-- C20: for every message with at least two distinct byte values and every tie-break
oracle of the queue, the code strings `create_encodings` has assigned in the tree of
`huffman_encode` take the fewest bits: the sum over the distinct bytes of the message of
occurrences times length of the code string (which is the number of code characters
written for the message) is at most the same sum for any strict binary tree whose leaves
are exactly the distinct bytes of the message, each once. -/
theorem huffman_optimal (tie : List HNode → List Nat → Nat) (msg : List Byte) (u : CodeTree)
    (hk : 2 ≤ msg.toFinset.card) (hnd : u.symbols.Nodup)
    (hu : ∀ ch, ch ∈ u.symbols ↔ ch ∈ msg) :
    ∃ b, build tie { num_nodes := 0, heap := [] } msg = .ok b ∧
      (msg.map fun ch => (code_of b.mem.heap b.freqs ch).length).sum =
        (msg.dedup.map fun ch => msg.count ch * (code_of b.mem.heap b.freqs ch).length).sum ∧
      (msg.dedup.map fun ch => msg.count ch * (code_of b.mem.heap b.freqs ch).length).sum ≤
        u.cost msg := by
  have hmsg : msg ≠ [] := by
    intro h; subst h; simp at hk
  obtain ⟨b, t, hb, _⟩ := build_spec tie hmsg
  refine ⟨b, hb, sum_map_count_dedup msg _, ?_⟩
  have hperm : u.symbols.Perm msg.dedup := by
    rw [List.perm_ext_iff_of_nodup hnd (List.nodup_dedup _)]
    intro c
    rw [hu, List.mem_dedup]
  have hfst : ((u.depths 0).map fun x => (msg.count x.1, x.2)).map Prod.fst =
      u.symbols.map fun c => msg.count c := by
    rw [← u.depths_fst 0, List.map_map, List.map_map]
    rfl
  have hcost : code_cost ((u.depths 0).map fun x => (msg.count x.1, x.2)) = u.cost msg := by
    simp only [code_cost, CodeTree.cost, List.map_map]
    rfl
  rw [← hcost]
  refine build_optimal hb _ ?_ ?_
  · rw [hfst]; exact hperm.map _
  · rw [CodeTree.kraft_depths (fun c => msg.count c) u 0]; simp

/-- C20, witness: the message `"abaca"` against the tree with `'a'` one edge and `'b'`,
`'c'` two edges below the root. -/
theorem huffman_optimal_abaca :
    ∃ b, build (fun _ _ => 0) { num_nodes := 0, heap := [] } [97, 98, 97, 99, 97] = .ok b ∧
      ([97, 98, 97, 99, 97].map fun ch => (code_of b.mem.heap b.freqs ch).length).sum =
        (([97, 98, 97, 99, 97] : List Byte).dedup.map fun ch =>
          ([97, 98, 97, 99, 97] : List Byte).count ch *
            (code_of b.mem.heap b.freqs ch).length).sum ∧
      (([97, 98, 97, 99, 97] : List Byte).dedup.map fun ch =>
          ([97, 98, 97, 99, 97] : List Byte).count ch *
            (code_of b.mem.heap b.freqs ch).length).sum ≤
        (CodeTree.node (.leaf 97) (.node (.leaf 98) (.leaf 99))).cost [97, 98, 97, 99, 97] :=
  huffman_optimal (fun _ _ => 0) [97, 98, 97, 99, 97]
    (CodeTree.node (.leaf 97) (.node (.leaf 98) (.leaf 99))) (by decide) (by decide)
    (by
      intro ch
      simp only [CodeTree.symbols, List.mem_append, List.mem_cons, List.mem_singleton,
        List.not_mem_nil, or_false]
      tauto)

end Huffman
